import Mathlib

/-!
# Construction: equations and substitutions

A shallow embedding of `lib/equations/equations.hpp` (class `Equation`) and
`lib/tensor/substitution.hpp` (class `Substitution`).

Strings are lists of characters.  Machine integers are naturals or integers
with an explicit reduction modulo `2^32` where the source converts or wraps.
Exceptions are the error side of `Except`.
-/

set_option autoImplicit false

namespace Construction

/-! ## `std::stoi` -/

/-- The two exceptions `std::stoi` can raise. -/
inductive StoiError where
  | invalid_argument
  | out_of_range
  deriving DecidableEq, Repr

/-- The characters `isspace` accepts in the C locale; `strtol` skips them. -/
def isSpace (c : Char) : Bool :=
  c = ' ' || c = '\t' || c = '\n' || c = '\x0b' || c = '\x0c' || c = '\r'

/-- Value of a run of decimal digits, most significant first, on top of `acc`. -/
def digitsValue (acc : Nat) : List Char → Nat
  | [] => acc
  | c :: cs => digitsValue (acc * 10 + (c.toNat - '0'.toNat)) cs

/-- Largest `int`. -/
def INT_MAX : Int := 2147483647

/-- Smallest `int`. -/
def INT_MIN : Int := -2147483648

/-- The standard library's `std::stoi(str)` in base 10: leading white space is
skipped, one sign is accepted, the longest run of digits is converted and
whatever follows is ignored.  No digit: `invalid_argument`; a value that does
not fit `int`: `out_of_range`. -/
def stoi (str : List Char) : Except StoiError Int :=
  let s1 := str.dropWhile isSpace
  let neg := s1.head? = some '-'
  let s2 := if s1.head? = some '-' ∨ s1.head? = some '+' then s1.tail else s1
  let ds := s2.takeWhile Char.isDigit
  if ds = [] then .error .invalid_argument
  else
    let v : Int := if neg then -(digitsValue 0 ds : Int) else (digitsValue 0 ds : Int)
    if v < INT_MIN ∨ INT_MAX < v then .error .out_of_range else .ok v

/-- Conversion of an `int` to `unsigned`: reduction modulo `2^32`. -/
def toUnsigned (v : Int) : Nat := (v % 4294967296).toNat

namespace Equations

/-! ## `Equation::Parse` -/

/-- What `Parse` uses from headers that are not part of the sources:
`Coefficients::Instance()->Get`, `Coefficient::GetName` and
`Indices::GetRomanSeries(n, {1,3})` with the printed form of each index. -/
structure Externals (Ref : Type) where
  Get : Nat → Nat → Nat → Nat → List Char → Ref
  GetName : Ref → List Char
  GetRomanSeries : Nat → List (List Char)

/-- The values the locals `l, ld, r, rd` hold before their first assignment
(the source declares them without an initializer). -/
structure Indeterminate where
  l : Nat
  ld : Nat
  r : Nat
  rd : Nat

/-- One call of `Coefficients::Get`: the four block sizes and the id. -/
structure Request where
  l : Nat
  ld : Nat
  r : Nat
  rd : Nat
  id : List Char
  deriving DecidableEq, Repr

/-- The locals of `Parse` together with the members it fills in.  `requests`
records the arguments of every `Get` call and `observed` every
`RegisterObserver` call, both in order.  The local `coeffStart` is written and
never read, and is left out. -/
structure ParseState (Ref : Type) where
  inCoeff : Bool
  current : List Char
  temp : List Char
  l : Nat
  ld : Nat
  r : Nat
  rd : Nat
  id : List Char
  mode : Nat
  coefficients : List Ref
  observed : List Ref
  requests : List Request

/-- The locals at loop entry. -/
def ParseState.init {Ref : Type} (u : Indeterminate) : ParseState Ref :=
  { inCoeff := false, current := [], temp := [], l := u.l, ld := u.ld, r := u.r, rd := u.rd,
    id := [], mode := 0, coefficients := [], observed := [], requests := [] }

/-- The `found` loop of lines 166-172: is `ref` already on the list? -/
def found {Ref : Type} [DecidableEq Ref] (ref : Ref) : List Ref → Bool
  | [] => false
  | x :: xs => if x = ref then true else found ref xs

/-- The test of line 135: are the blocks exchanged? -/
def swapNeeded (l ld r rd : Nat) : Bool := decide (r < l) || (decide (r = l) && decide (rd < ld))

/-- The text emitted for a tag, lines 150-164. -/
def renameCall (name : List Char) (indices : List (List Char)) (temp : List Char) : List Char :=
  "RenameIndices(".toList ++ name ++ ", ".toList ++ "\x7b".toList
    ++ (indices.intersperse " ".toList).flatten ++ "\x7d, ".toList ++ temp ++ ")".toList

/-- The branch for `c == '>'`, lines 128-184. -/
def closeTag {Ref : Type} [DecidableEq Ref] (E : Externals Ref) (st : ParseState Ref) :
    ParseState Ref :=
  let sw := swapNeeded st.l st.ld st.r st.rd
  let l := if sw then st.r else st.l
  let r := if sw then st.l else st.r
  let ld := if sw then st.rd else st.ld
  let rd := if sw then st.ld else st.rd
  let ref := E.Get l ld r rd st.id
  let text := renameCall (E.GetName ref) (E.GetRomanSeries ((l + ld + r + rd) % 4294967296)) st.temp
  let fnd := found ref st.coefficients
  { st with
    inCoeff := false, mode := 0, l := l, ld := ld, r := r, rd := rd,
    current := st.current ++ text,
    coefficients := if fnd then st.coefficients else st.coefficients ++ [ref],
    observed := if fnd then st.observed else st.observed ++ [ref],
    requests := st.requests ++ [⟨l, ld, r, rd, st.id⟩],
    temp := [] }

/-- The branch for `c == ':'`, lines 110-126. -/
def closeField {Ref : Type} (st : ParseState Ref) : Except StoiError (ParseState Ref) :=
  let done (s : ParseState Ref) : ParseState Ref :=
    { s with temp := [], mode := (s.mode + 1) % 4294967296 }
  if st.mode = 0 then .ok (done { st with id := st.temp })
  else if st.mode = 1 then (stoi st.temp).map fun v => done { st with l := toUnsigned v }
  else if st.mode = 2 then (stoi st.temp).map fun v => done { st with ld := toUnsigned v }
  else if st.mode = 3 then (stoi st.temp).map fun v => done { st with r := toUnsigned v }
  else if st.mode = 4 then (stoi st.temp).map fun v => done { st with rd := toUnsigned v }
  else .ok (done st)

/-- How one pass through the loop body ends. -/
inductive Step (Ref : Type) where
  /-- The `break` of line 95. -/
  | stop : Step Ref
  /-- A `continue`, or the end of the body. -/
  | next : ParseState Ref → Step Ref
  /-- The `i++; continue` of lines 102-103: the next character is skipped. -/
  | skip : ParseState Ref → Step Ref

/-- The loop body of lines 91-186 on the character `c = code[i]`, with
`nxt = code[i+1]` when `i < code.size()-1`. -/
def step {Ref : Type} [DecidableEq Ref] (E : Externals Ref) (st : ParseState Ref) (c : Char)
    (nxt : Option Char) : Except StoiError (Step Ref) :=
  if c = '/' ∧ nxt = some '/' then .ok .stop
  else if st.inCoeff = false then
    if c = '#' ∧ nxt = some '<' then .ok (.skip { st with inCoeff := true })
    else .ok (.next { st with current := st.current ++ [c] })
  else if c = ':' then (closeField st).map .next
  else if c = '>' then .ok (.next (closeTag E st))
  else .ok (.next { st with temp := st.temp ++ [c] })

/-- The `for` loop of lines 90-187 over the characters still to be read. -/
def scan {Ref : Type} [DecidableEq Ref] (E : Externals Ref) :
    ParseState Ref → List Char → Except StoiError (ParseState Ref)
  | st, [] => .ok st
  | st, c :: rest =>
    match step E st c rest.head? with
    | .error e => .error e
    | .ok .stop => .ok st
    | .ok (.next st1) => scan E st1 rest
    | .ok (.skip st1) =>
      match rest with
      | [] => .ok st1
      | _ :: rest1 => scan E st1 rest1

/-- The scan of `Parse` from its initial locals. -/
def parseScan {Ref : Type} [DecidableEq Ref] (E : Externals Ref) (u : Indeterminate)
    (code : List Char) : Except StoiError (ParseState Ref) :=
  scan E (ParseState.init u) code

/-- The member `enum State`. -/
inductive State where
  | WAITING
  | SOLVING
  | SOLVED
  deriving DecidableEq, Repr

/-- The data members of `Equation`.  `launched` counts the assignments to
`thread`, `worker` tells whether `thread` holds a started worker and `terminated`
whether the program was ended by `std::terminate`. -/
structure Equation (Ref : Type) where
  state : State
  isEmpty : Bool
  eq : List Char
  coefficients : List Ref
  worker : Bool
  launched : Nat
  terminated : Bool

/-- The check of lines 189-198: `isEmpty` unless some character is not a space. -/
def allSpaces : List Char → Bool
  | [] => true
  | c :: cs => if c ≠ ' ' then false else allSpaces cs

/-- The command stored in `eq`, line 200. -/
def wrap (current : List Char) : List Char :=
  "subst = HomogeneousSystem(".toList ++ current ++ "):".toList

/-- The constructor `Equation(code)`: `state(WAITING)` and then `Parse(code)`. -/
def Equation.create {Ref : Type} [DecidableEq Ref] (E : Externals Ref) (u : Indeterminate)
    (code : List Char) : Except StoiError (Equation Ref) :=
  (parseScan E u code).map fun st =>
    { state := .WAITING, isEmpty := allSpaces st.current, eq := wrap st.current,
      coefficients := st.coefficients, worker := false, launched := 0, terminated := false }

/-- A registry whose reference to a coefficient is the requested key itself. -/
def keyRegistry : Externals Request where
  Get := fun l ld r rd id => ⟨l, ld, r, rd, id⟩
  GetName := fun q => q.id
  GetRomanSeries := fun n => (List.range n).map fun i => [Char.ofNat (97 + i)]

/-- The request `closeTag` appends. -/
def canonicalRequest (l ld r rd : Nat) (id : List Char) : Request :=
  if swapNeeded l ld r rd then ⟨r, rd, l, ld, id⟩ else ⟨l, ld, r, rd, id⟩

/-- The code `#<mu:4:0:0:0:{a b c d}>`. -/
def muCode : List Char := "#<mu:4:0:0:0:\x7ba b c d\x7d>".toList

/-- The locals of `Parse` after scanning `muCode` against `keyRegistry`. -/
def muState : ParseState Request :=
  { inCoeff := false, current := "RenameIndices(mu, \x7ba b c d\x7d, \x7ba b c d\x7d)".toList,
    temp := [], l := 0, ld := 0, r := 4, rd := 0, id := "mu".toList, mode := 0,
    coefficients := [⟨0, 0, 4, 0, "mu".toList⟩], observed := [⟨0, 0, 4, 0, "mu".toList⟩],
    requests := [⟨0, 0, 4, 0, "mu".toList⟩] }

/-- Text that can stand in a tag field: no `:`, no `>` and no `/`. -/
def plainText (s : List Char) : Prop := ∀ c ∈ s, c ≠ ':' ∧ c ≠ '>' ∧ c ≠ '/'

/-- The tag `#<id:f1:f2:f3:f4:tok>`. -/
def tagText (id f1 f2 f3 f4 tok : List Char) : List Char :=
  '#' :: '<' :: (id ++ ':' :: (f1 ++ ':' :: (f2 ++ ':' :: (f3 ++ ':' :: (f4 ++ ':' :: (tok ++ ['>']))))))

/-- The four conversions of lines 114-120, in the order the fields are met. -/
def readShape (f1 f2 f3 f4 : List Char) : Except StoiError (Nat × Nat × Nat × Nat) :=
  match stoi f1 with
  | .error e => .error e
  | .ok a =>
    match stoi f2 with
    | .error e => .error e
    | .ok b =>
      match stoi f3 with
      | .error e => .error e
      | .ok c =>
        match stoi f4 with
        | .error e => .error e
        | .ok d => .ok (toUnsigned a, toUnsigned b, toUnsigned c, toUnsigned d)

/-- Text that is copied outside a tag without opening a tag or a comment: no `#`, no `/`. -/
def outsideText (s : List Char) : Prop := ∀ c ∈ s, c ≠ '#' ∧ c ≠ '/'

/-- The part of the code the loop reads: everything before the first `//`. -/
def beforeComment : List Char → List Char
  | [] => []
  | c :: rest => if c = '/' ∧ rest.head? = some '/' then [] else c :: beforeComment rest

/-! ## `Equation::OnCoefficientCalculated` and `Equation::Solve` -/

/-- A call of `Coefficient::Lock` or `Coefficient::Unlock`. -/
inductive LockEvent (Ref : Type) where
  | lock : Ref → LockEvent Ref
  | unlock : Ref → LockEvent Ref

/-- What an equation sees of the coefficients (`coefficient.hpp` is not part of the
sources): the completion flag and the tensor of each one, the order in which
`Coefficients::Instance()` iterates, and the `Lock`/`Unlock` calls made so far. -/
structure World (Ref T : Type) where
  finished : Ref → Bool
  tensor : Ref → T
  registry : List Ref
  lockLog : List (LockEvent Ref)

/-- What `Solve` uses from outside: the interpreter run `cli(eq)` followed by
`Session::Instance()->GetCurrent().As<Substitution>()`, and the application of a
substitution to a tensor. -/
structure SolveExternals (Ref T Subst : Type) where
  interpret : List Char → World Ref T → Subst
  applyTensor : Subst → T → T

/-- The loop of lines 210-215: false at the first coefficient that is not finished. -/
def allFinished {Ref : Type} (finished : Ref → Bool) : List Ref → Bool
  | [] => true
  | c :: cs => if !finished c then false else allFinished finished cs

/-- The callback `OnCoefficientCalculated`: return at the first unfinished coefficient,
otherwise assign a new worker running `Solve` to `thread`.  Assigning to a `std::thread`
that is still joinable ends the program, which `terminated` records. -/
def Equation.OnCoefficientCalculated {Ref : Type} (finished : Ref → Bool) (eq : Equation Ref) :
    Equation Ref :=
  if allFinished finished eq.coefficients then
    { eq with worker := true, launched := eq.launched + 1,
              terminated := eq.terminated || eq.worker }
  else eq

/-- Lines 222-232 of `Solve`: the state becomes SOLVING and every dependency is locked. -/
def Equation.solveBegin {Ref T : Type} (eq : Equation Ref) (w : World Ref T) :
    Equation Ref × World Ref T :=
  ({ eq with state := .SOLVING },
   { w with lockLog := w.lockLog ++ eq.coefficients.map LockEvent.lock })

/-- The loop of lines 248-268 over the registry. -/
def substituteAll {Ref T Subst : Type} [DecidableEq Ref] (X : SolveExternals Ref T Subst)
    (subst : Subst) (deps : List Ref) : World Ref T → List Ref → World Ref T
  | w, [] => w
  | w, coeff :: rest =>
    if coeff ∉ deps ∧ w.finished coeff = false then substituteAll X subst deps w rest
    else
      let locks := if coeff ∉ deps then [LockEvent.lock coeff] else []
      substituteAll X subst deps
        { w with tensor := Function.update w.tensor coeff (X.applyTensor subst (w.tensor coeff)),
                 lockLog := w.lockLog ++ locks ++ [LockEvent.unlock coeff] } rest

/-- The member function `Solve`, lines 221-275. -/
def Equation.Solve {Ref T Subst : Type} [DecidableEq Ref] (X : SolveExternals Ref T Subst)
    (eq : Equation Ref) (w : World Ref T) : Equation Ref × World Ref T :=
  let p := eq.solveBegin w
  let subst := X.interpret p.1.eq p.2
  ({ p.1 with state := .SOLVED }, substituteAll X subst p.1.coefficients p.2 p.2.registry)

/-- One completion: the coefficient is marked finished and the callback of the equation
is invoked once. -/
def complete {Ref T : Type} [DecidableEq Ref] (p : Equation Ref × World Ref T) (c : Ref) :
    Equation Ref × World Ref T :=
  let w : World Ref T := { p.2 with finished := Function.update p.2.finished c true }
  (p.1.OnCoefficientCalculated w.finished, w)

/-- Completions one after the other, in the order of the list. -/
def completeAll {Ref T : Type} [DecidableEq Ref] (p : Equation Ref × World Ref T)
    (order : List Ref) : Equation Ref × World Ref T :=
  order.foldl complete p

/-- The worker, once it runs: `Solve` if a worker was started. -/
def runWorker {Ref T Subst : Type} [DecidableEq Ref] (X : SolveExternals Ref T Subst)
    (p : Equation Ref × World Ref T) : Equation Ref × World Ref T :=
  if p.1.worker then p.1.Solve X p.2 else p

/-- An equation waiting for the three coefficients 1, 2 and 3. -/
def threeDeps : Equation Nat :=
  { state := .WAITING, isEmpty := false, eq := "subst = HomogeneousSystem(x):".toList,
    coefficients := [1, 2, 3], worker := false, launched := 0, terminated := false }

/-- A world of four registered coefficients, none finished, all tensors 0. -/
def idleWorld : World Nat Nat :=
  { finished := fun _ => false, tensor := fun _ => 0, registry := [0, 1, 2, 3], lockLog := [] }

/-- A solver whose substitution is the length of the command and acts on a tensor by
addition. -/
def addSolver : SolveExternals Nat Nat Nat :=
  { interpret := fun cmd _ => cmd.length, applyTensor := fun s t => t + s }

/-! ## Auxiliary notions for further theorems about `Parse` -/

/-- The code `c` is a white-space character: space, tab or newline. -/
def isBlank (c : Char) : Bool := c = ' ' || c = '\t' || c = '\n'

/-- The equation constructed from the code of two spaces. -/
def blankEquation : Equation Request :=
  { state := .WAITING, isEmpty := true, eq := "subst = HomogeneousSystem(  ):".toList,
    coefficients := [], worker := false, launched := 0, terminated := false }

/-- The text `temp` holds after the characters of `tok` were read inside a tag: each `:`
clears it. -/
def tokenTail : List Char → List Char → List Char
  | temp, [] => temp
  | temp, c :: cs => if c = ':' then tokenTail [] cs else tokenTail (temp ++ [c]) cs

/-- The coefficient the registry returns for a request. -/
def resolve {Ref : Type} (E : Externals Ref) (q : Request) : Ref := E.Get q.l q.ld q.r q.rd q.id

/-- The text emitted for a tag that hands `q` to the registry and ends with `temp`. -/
def rewriteOf {Ref : Type} (E : Externals Ref) (q : Request) (temp : List Char) : List Char :=
  renameCall (E.GetName (resolve E q))
    (E.GetRomanSeries ((q.l + q.ld + q.r + q.rd) % 4294967296)) temp

/-- The distinct elements of a list, in the order of their first occurrence. -/
def firstOccurrences {α : Type} [DecidableEq α] : List α → List α
  | [] => []
  | x :: xs => x :: (firstOccurrences xs).filter fun y => y ≠ x

/-- A piece of a well-formed code: text outside of tags, or a tag with its id, its four
block sizes as numbers and its index token. -/
inductive Piece where
  | text : List Char → Piece
  | tag : List Char → Nat → Nat → Nat → Nat → List Char → Piece

/-- The characters of a piece; the block sizes are written as decimal numerals. -/
def Piece.render : Piece → List Char
  | .text t => t
  | .tag id l ld r rd tok =>
    tagText id (Nat.toDigits 10 l) (Nat.toDigits 10 ld) (Nat.toDigits 10 r) (Nat.toDigits 10 rd)
      tok

/-- Text holds no `#` and no `/`; the id and token of a tag hold no `:`, `>` or `/` and its
block sizes fit `int`. -/
def Piece.wellFormed : Piece → Prop
  | .text t => outsideText t
  | .tag id l ld r rd tok =>
    plainText id ∧ plainText tok ∧ (l : Int) ≤ INT_MAX ∧ (ld : Int) ≤ INT_MAX ∧
      (r : Int) ≤ INT_MAX ∧ (rd : Int) ≤ INT_MAX

/-- The request a piece hands to the registry, if it is a tag. -/
def Piece.request : Piece → Option Request
  | .text _ => none
  | .tag id l ld r rd _ => some (canonicalRequest l ld r rd id)

/-- What a piece contributes to the rewritten expression. -/
def Piece.rewrite {Ref : Type} (E : Externals Ref) : Piece → List Char
  | .text t => t
  | .tag id l ld r rd tok => rewriteOf E (canonicalRequest l ld r rd id) tok

/-- The tags `a`, `b` and `a` again, joined by `+`. -/
def repeatedTag : List Piece :=
  [Piece.tag "a".toList 1 0 1 0 "x".toList, Piece.text "+".toList,
   Piece.tag "b".toList 1 0 1 0 "y".toList, Piece.text "+".toList,
   Piece.tag "a".toList 1 0 1 0 "z".toList]

/-! ## `Equation::Wait` and the destructor -/

/-- The predicate of the wait in `Wait()`, lines 292-294: the call returns once the state is
SOLVED and blocks as long as it is not. -/
def Equation.waitDone {Ref : Type} (eq : Equation Ref) : Bool := decide (eq.state = .SOLVED)

/-- The guard of the destructor, line 58: is `thread.join()` called? -/
def Equation.destructorJoins {Ref : Type} (eq : Equation Ref) : Bool := !eq.isEmpty

/-- How the destruction of an equation ends. -/
inductive Destruction where
  /-- The worker was started and `join` waits for it. -/
  | joined
  /-- `join` is called on a `std::thread` that was never started: `std::system_error`. -/
  | joinError
  /-- A started worker is destroyed without `join`: `std::terminate`. -/
  | abandoned
  /-- No worker and no `join`. -/
  | quiet
  deriving DecidableEq, Repr

/-- The destructor `~Equation`, lines 56-61, followed by the destruction of `thread`. -/
def Equation.destroy {Ref : Type} (eq : Equation Ref) : Destruction :=
  if eq.isEmpty = false then (if eq.worker then .joined else .joinError)
  else (if eq.worker then .abandoned else .quiet)

/-- The `Lock` and `Unlock` calls of the loop of lines 248-268, in order. -/
def registryEvents {Ref : Type} [DecidableEq Ref] (deps : List Ref) (finished : Ref → Bool) :
    List Ref → List (LockEvent Ref)
  | [] => []
  | coeff :: rest =>
    if coeff ∉ deps ∧ finished coeff = false then registryEvents deps finished rest
    else
      (if coeff ∉ deps then [LockEvent.lock coeff] else []) ++
        LockEvent.unlock coeff :: registryEvents deps finished rest

/-- A sequence of `Lock` and `Unlock` calls of one thread, started while it holds the locks
`held`, never locks what it holds. -/
def lockDiscipline {Ref : Type} [DecidableEq Ref] : List Ref → List (LockEvent Ref) → Bool
  | _, [] => true
  | held, LockEvent.lock c :: es => if c ∈ held then false else lockDiscipline (c :: held) es
  | held, LockEvent.unlock c :: es => lockDiscipline (held.erase c) es

/-- A registry whose reference to a coefficient is the total number of its indices. -/
def sizeRegistry : Externals Nat where
  Get := fun l ld r rd _ => l + ld + r + rd
  GetName := fun n => Nat.toDigits 10 n
  GetRomanSeries := fun n => (List.range n).map fun i => [Char.ofNat (97 + i)]

/-! ## The values of the member `state` over time -/

/-- What is done to an equation: the completion of the coefficient `c`, which invokes the
callback `OnCoefficientCalculated`, or a run of `Solve`. -/
inductive Action (Ref : Type) where
  | completion : Ref → Action Ref
  | solve : Action Ref

/-- The action is a run of `Solve`. -/
def Action.isSolve {Ref : Type} : Action Ref → Bool
  | .completion _ => false
  | .solve => true

/-- The values the member `state` holds one after the other while the actions are carried
out: its value when a callback returns, and for a run of `Solve` its value after the
assignment of line 225 and after the assignment of line 271. -/
def stateTrace {Ref T Subst : Type} [DecidableEq Ref] (X : SolveExternals Ref T Subst) :
    Equation Ref × World Ref T → List (Action Ref) → List State
  | _, [] => []
  | p, .completion c :: rest => (complete p c).1.state :: stateTrace X (complete p c) rest
  | p, .solve :: rest =>
    (p.1.solveBegin p.2).1.state :: (p.1.Solve X p.2).1.state ::
      stateTrace X (p.1.Solve X p.2) rest

/-- The place of a state in the order WAITING, SOLVING, SOLVED. -/
def State.rank : State → Nat
  | .WAITING => 0
  | .SOLVING => 1
  | .SOLVED => 2

/-- No value of the sequence is followed, at any distance, by a value of lower rank. -/
def movesForward (trace : List State) : Prop :=
  trace.Pairwise fun a b => a.rank ≤ b.rank

/-- The state WAITING is not entered again once it was left. -/
def waitingNotReentered (trace : List State) : Prop :=
  trace.Pairwise fun a b => b = State.WAITING → a = State.WAITING

/-- The equation constructed from the code `x` against `sizeRegistry`. -/
def plainEquation : Equation Nat :=
  { state := .WAITING, isEmpty := false, eq := "subst = HomogeneousSystem(x):".toList,
    coefficients := [], worker := false, launched := 0, terminated := false }

end Equations

namespace Tensor

/-! ## `Substitution` -/

/-- The member `substitutions` of class `Substitution`: pairs (variable, expression). -/
structure Substitution (S : Type) where
  substitutions : List (S × S)

/-- The default constructor: no pairs. -/
def Substitution.empty {S : Type} : Substitution S := ⟨[]⟩

/-- The member function `Insert`: `push_back` of the pair. -/
def Substitution.Insert {S : Type} (σ : Substitution S) (var expression : S) :
    Substitution S :=
  ⟨σ.substitutions ++ [(var, expression)]⟩

/-- What `Substitution` uses of `Scalar` (`tensor/scalar.hpp`) and of `Vector::Matrix` and
its row vectors, none of which is part of the sources.  A value of type `double` is a
rational number; the arithmetic the source does on such values is all in these fields:
`dot a b` stands for the product `a * b` of two vectors, which is computed in `double` and
may be rounded, `mulFraction s q` for `s * Scalar::Fraction(q)`, and `ToRowEchelonForm` for
the row reduction. -/
structure ScalarLayer (S : Type) where
  zero : S
  add : S → S → S
  sub : S → S → S
  neg : S → S
  mulFraction : S → ℚ → S
  GetSummands : S → List S
  SeparateVariablesFromRest : S → List (S × S) × S
  IsNumeric : S → Bool
  ToDouble : S → ℚ
  Substitute : S → S → S → S
  ToRowEchelonForm : List (List ℚ) → List (List ℚ)
  dot : List ℚ → List ℚ → ℚ

/-- The loop of lines 34-36: each pair is substituted into the result of the previous ones. -/
def applyLoop {S : Type} (L : ScalarLayer S) : S → List (S × S) → S
  | result, [] => result
  | result, s :: rest => applyLoop L (L.Substitute result s.1 s.2) rest

/-- The member `operator()(const Scalar&)`. -/
def Substitution.apply {S : Type} (L : ScalarLayer S) (σ : Substitution S) (scalar : S) : S :=
  applyLoop L scalar σ.substitutions

/-! ## `Substitution::Merge` -/

/-- The ways `Merge` can fail: the exception it throws, the `assert(false)` of line 113,
and the insertion of line 106 at a position behind the end of `variables`, for which
`std::vector::insert` has no defined behaviour. -/
inductive MergeError where
  | InvalidSubstitutionException
  | assertion
  | insertOutOfRange
  deriving DecidableEq, Repr

/-- Lines 83-88: `eq = s.first` and then `eq -= t` for every summand of `s.second`. -/
def equationOf {S : Type} (L : ScalarLayer S) (s : S × S) : S :=
  (L.GetSummands s.2).foldl L.sub s.1

/-- The assignment `map[k] = v` on a `std::unordered_map`, kept as an association list. -/
def mapSet {S : Type} [DecidableEq S] : List (S × ℚ) → S → ℚ → List (S × ℚ)
  | [], k, v => [(k, v)]
  | (k1, v1) :: rest, k, v => if k1 = k then (k, v) :: rest else (k1, v1) :: mapSet rest k v

/-- The read `map[k]`: the stored value, 0.0 for a key that is absent. -/
def mapGet {S : Type} [DecidableEq S] : List (S × ℚ) → S → ℚ
  | [], _ => 0
  | (k1, v1) :: rest, k => if k1 = k then v1 else mapGet rest k

/-- The locals `variables` (here `vars`), `pos` and `data` of `Merge`. -/
structure Collected (S : Type) where
  vars : List S
  pos : Nat
  data : List (List (S × ℚ))

/-- The loop of lines 97-117 over the variables of one equation. -/
def addVariables {S : Type} [DecidableEq S] (L : ScalarLayer S) :
    Bool → List S → Nat → List (S × ℚ) → List (S × S) →
      Except MergeError (List S × Nat × List (S × ℚ))
  | _, vars, pos, map, [] => .ok (vars, pos, map)
  | first, vars, pos, map, v :: rest =>
    let placed : Except MergeError (List S × Nat) :=
      if first then
        let erased := if v.1 ∈ vars then vars.erase v.1 else vars
        if pos ≤ erased.length then .ok (erased.take pos ++ v.1 :: erased.drop pos, pos + 1)
        else .error .insertOutOfRange
      else if v.1 ∈ vars then .ok (vars, pos)
      else .ok (vars ++ [v.1], pos)
    match placed with
    | .error e => .error e
    | .ok (vars1, pos1) =>
      if L.IsNumeric v.2 = false then .error .assertion
      else addVariables L false vars1 pos1 (mapSet map v.1 (L.ToDouble v.2)) rest

/-- The loop of lines 81-120 over the pairs of one substitution. -/
def collectPairs {S : Type} [DecidableEq S] (L : ScalarLayer S) :
    Collected S → List (S × S) → Except MergeError (Collected S)
  | c, [] => .ok c
  | c, s :: rest =>
    match addVariables L true c.vars c.pos []
        (L.SeparateVariablesFromRest (equationOf L s)).1 with
    | .error e => .error e
    | .ok (vars, pos, map) =>
      collectPairs L { vars := vars, pos := pos, data := c.data ++ [map] } rest

/-- The loop of lines 79-122 over the substitutions. -/
def collect {S : Type} [DecidableEq S] (L : ScalarLayer S) :
    Collected S → List (Substitution S) → Except MergeError (Collected S)
  | c, [] => .ok c
  | c, subst :: rest =>
    match collectPairs L c subst.substitutions with
    | .error e => .error e
    | .ok c1 => collect L c1 rest

/-- Lines 125-132: one row per collected map, one column per variable. -/
def toMatrix {S : Type} [DecidableEq S] (c : Collected S) : List (List ℚ) :=
  c.data.map fun map => c.vars.map fun v => mapGet map v

/-- The locals `isZero`, `lhs` and `rhs` of the read-out of one row. -/
structure RowScan (S : Type) where
  isZero : Bool
  lhs : S
  rhs : S

/-- The loop of lines 155-163 over the components `vec[j]` and the variables
`variables[j]` of the same index. -/
def scanRow {S : Type} (L : ScalarLayer S) : RowScan S → List ℚ → List S → RowScan S
  | st, [], _ => st
  | st, _ :: _, [] => st
  | st, x :: xs, v :: vs =>
    if x = 0 ∧ st.isZero = true then scanRow L st xs vs
    else if x = 1 ∧ st.isZero = true then scanRow L { st with lhs := v, isZero := false } xs vs
    else if x ≠ 0 then
      scanRow L { st with rhs := L.add st.rhs (L.mulFraction (L.neg v) x) } xs vs
    else scanRow L st xs vs

/-- The loop of lines 144-172 over the rows of the reduced matrix. -/
def readOff {S : Type} (L : ScalarLayer S) (vars : List S) :
    Substitution S → List (List ℚ) → Except MergeError (Substitution S)
  | result, [] => .ok result
  | result, vec :: rows =>
    if L.dot vec vec = 0 then .ok result
    else
      let st := scanRow L ⟨true, L.zero, L.zero⟩ vec vars
      if L.IsNumeric st.lhs = true ∧ L.ToDouble st.lhs = 0 then
        .error .InvalidSubstitutionException
      else readOff L vars (result.Insert st.lhs st.rhs) rows

/-- The static member function `Merge`, lines 68-175. -/
def Merge {S : Type} [DecidableEq S] (L : ScalarLayer S) (substitutions : List (Substitution S)) :
    Except MergeError (Substitution S) :=
  match substitutions with
  | [s] => .ok s
  | _ =>
    match collect L ⟨[], 0, []⟩ substitutions with
    | .error e => .error e
    | .ok c => readOff L c.vars Substitution.empty (L.ToRowEchelonForm (toMatrix c))

/-! ## A scalar layer of linear expressions -/

/-- Modelled from the spec: the scalars of `tensor/scalar.hpp`, which is not part of the
sources, restricted to the linear expressions `rest + c₁·x₁ + … + cₙ·xₙ` that `Merge` is
specified for ("separate the result into variable-linear-coefficients plus a remainder").
`terms` lists the variables with their nonzero coefficients in order of first occurrence. -/
structure Scalar where
  terms : List (String × ℚ)
  rest : ℚ
  deriving DecidableEq

/-- The number `q` as a scalar. -/
def Scalar.num (q : ℚ) : Scalar := ⟨[], q⟩

/-- The variable `x` as a scalar. -/
def Scalar.var (x : String) : Scalar := ⟨[(x, 1)], 0⟩

/-- The coefficient of `x` in a list of terms, 0 if `x` does not occur. -/
def coeffOf (x : String) : List (String × ℚ) → ℚ
  | [] => 0
  | t :: ts => if t.1 = x then t.2 else coeffOf x ts

/-- Adds `c·x` to a list of terms; a coefficient that becomes 0 drops out. -/
def addTerm : List (String × ℚ) → String → ℚ → List (String × ℚ)
  | [], x, c => if c = 0 then [] else [(x, c)]
  | t :: ts, x, c =>
    if t.1 = x then (if t.2 + c = 0 then ts else (x, t.2 + c) :: ts)
    else t :: addTerm ts x c

/-- Modelled from the spec: the sum of two scalars. -/
def Scalar.add (a b : Scalar) : Scalar :=
  ⟨b.terms.foldl (fun ts t => addTerm ts t.1 t.2) a.terms, a.rest + b.rest⟩

/-- Modelled from the spec: the product of a scalar with the number `q`. -/
def Scalar.smul (q : ℚ) (a : Scalar) : Scalar :=
  if q = 0 then ⟨[], 0⟩ else ⟨a.terms.map fun t => (t.1, q * t.2), q * a.rest⟩

/-- Modelled from the spec: the negative of a scalar. -/
def Scalar.neg (a : Scalar) : Scalar := Scalar.smul (-1) a

/-- Modelled from the spec: the difference of two scalars. -/
def Scalar.sub (a b : Scalar) : Scalar := Scalar.add a (Scalar.neg b)

/-- Modelled from the spec: `GetSummands`, the additive terms of a scalar ("expand rhs into
its additive terms"). -/
def Scalar.GetSummands (a : Scalar) : List Scalar :=
  (a.terms.map fun t => (⟨[t], 0⟩ : Scalar)) ++ (if a.rest = 0 then [] else [Scalar.num a.rest])

/-- Modelled from the spec: `SeparateVariablesFromRest`, the variables with their linear
coefficients, and the remainder. -/
def Scalar.SeparateVariablesFromRest (a : Scalar) : List (Scalar × Scalar) × Scalar :=
  (a.terms.map fun t => (Scalar.var t.1, Scalar.num t.2), Scalar.num a.rest)

/-- Modelled from the spec: `IsNumeric`, no variable occurs. -/
def Scalar.IsNumeric (a : Scalar) : Bool := a.terms.isEmpty

/-- Modelled from the spec: `ToDouble`, the numeric part. -/
def Scalar.ToDouble (a : Scalar) : ℚ := a.rest

/-- Modelled from the spec: `Substitute(variable, expression)`, the scalar with `expression`
put in place of `variable`; a `variable` that is not a single variable changes nothing. -/
def Scalar.Substitute (a var expression : Scalar) : Scalar :=
  match var.terms with
  | [(x, c)] =>
    if c = 1 ∧ var.rest = 0 then
      Scalar.add ⟨a.terms.filter fun t => t.1 ≠ x, a.rest⟩
        (Scalar.smul (coeffOf x a.terms) expression)
    else a
  | _ => a

/-! ### Row reduction -/

/-- The row `r` minus `q` times the row `p`. -/
def subRow (r p : List ℚ) (q : ℚ) : List ℚ := List.zipWith (fun a b => a - q * b) r p

/-- Clears column `j` of the row `r` with the pivot row `p`, whose entry in column `j` is 1. -/
def eliminate (j : Nat) (p r : List ℚ) : List ℚ := subRow r p (r.getD j 0)

/-- The first row with a nonzero entry in column `j`, and the other rows in their order. -/
def findPivot (j : Nat) : List (List ℚ) → Option (List ℚ × List (List ℚ))
  | [] => none
  | r :: rows =>
    if r.getD j 0 ≠ 0 then some (r, rows)
    else (findPivot j rows).map fun pr => (pr.1, r :: pr.2)

/-- Gaussian elimination column by column: `done` holds the pivot rows found so far, `todo`
the rows that have no pivot yet. -/
def reduceFrom : Nat → Nat → List (List ℚ) → List (List ℚ) → List (List ℚ)
  | 0, _, done, todo => done ++ todo
  | cols + 1, j, done, todo =>
    match findPivot j todo with
    | none => reduceFrom cols (j + 1) done todo
    | some (p, others) =>
      let p1 := p.map fun x => x / p.getD j 0
      reduceFrom cols (j + 1) (done.map (eliminate j p1) ++ [p1]) (others.map (eliminate j p1))

/-- Modelled from the spec: `Matrix::ToRowEchelonForm`, which is not part of the sources
("reduce it to row-echelon form using standard Gaussian elimination", with leading entries
1 as the read-out expects). -/
def gaussToRowEchelonForm (M : List (List ℚ)) : List (List ℚ) :=
  reduceFrom (M.headD []).length 0 [] M

/-- Modelled from the spec: the product of two vectors (`Vector` is not part of the sources)
in exact arithmetic, for which a row is a null row exactly when all its entries are 0
("read off each nonzero row").  The product the source computes in `double` agrees with it
as long as nothing is rounded, as on rows of small whole numbers. -/
def exactDot (a b : List ℚ) : ℚ := (List.zipWith (fun x y => x * y) a b).sum

/-- The scalar layer of linear expressions over a given row reduction, with the exact
product of vectors. -/
def linearLayer (rowReduce : List (List ℚ) → List (List ℚ)) : ScalarLayer Scalar where
  zero := Scalar.num 0
  add := Scalar.add
  sub := Scalar.sub
  neg := Scalar.neg
  mulFraction := fun s q => Scalar.smul q s
  GetSummands := Scalar.GetSummands
  SeparateVariablesFromRest := Scalar.SeparateVariablesFromRest
  IsNumeric := Scalar.IsNumeric
  ToDouble := Scalar.ToDouble
  Substitute := Scalar.Substitute
  ToRowEchelonForm := rowReduce
  dot := exactDot

/-- The scalar layer of linear expressions over a given row reduction and a given product of
vectors. -/
def linearLayerWith (rowReduce : List (List ℚ) → List (List ℚ))
    (dot : List ℚ → List ℚ → ℚ) : ScalarLayer Scalar :=
  { linearLayer rowReduce with dot := dot }

/-- The scalar layer of linear expressions with Gaussian elimination. -/
def linear : ScalarLayer Scalar := linearLayer gaussToRowEchelonForm

/-! ## Examples and auxiliary notions for `Merge` -/

/-- The substitutions `x ↦ y` and `y ↦ 0`: the system `x - y = 0`, `y = 0`. -/
def chainSubs : List (Substitution Scalar) :=
  [⟨[(Scalar.var "x", Scalar.var "y")]⟩, ⟨[(Scalar.var "y", Scalar.num 0)]⟩]

/-- The locals of `Merge` after its first loop on `chainSubs`. -/
def chainCollected : Collected Scalar :=
  { vars := [Scalar.var "x", Scalar.var "y"], pos := 2,
    data := [[(Scalar.var "x", 1), (Scalar.var "y", -1)], [(Scalar.var "y", 1)]] }

/-- The substitution with the constant parts of all left and right sides removed. -/
def dropConstants (σ : Substitution Scalar) : Substitution Scalar :=
  ⟨σ.substitutions.map fun p => ((⟨p.1.terms, 0⟩ : Scalar), (⟨p.2.terms, 0⟩ : Scalar))⟩

/-- The entry in row `i` and column `j` of a matrix, 0 outside of it. -/
def entry (M : List (List ℚ)) (i j : Nat) : ℚ := (M.getD i []).getD j 0

/-- The assignment `x` of values to the columns solves the homogeneous system of `M`. -/
def Solves (M : List (List ℚ)) (n : Nat) (x : Nat → ℚ) : Prop :=
  ∀ i, i < M.length → ∑ j in Finset.range n, entry M i j * x j = 0

/-- The matrix `R` with `n` columns is in row echelon form with leading entries 1: its first
`k` rows have their first nonzero entry, a 1, in the columns `p 0 < p 1 < …`, and all further
rows are zero.  Nothing is asked of the entries behind a leading 1. -/
def IsEchelon (R : List (List ℚ)) (n : Nat) : Prop :=
  (∀ row ∈ R, row.length = n) ∧
  ∃ (k : Nat) (p : Nat → Nat), k ≤ R.length ∧
    (∀ i, i < k → p i < n ∧ entry R i (p i) = 1 ∧ ∀ j, j < p i → entry R i j = 0) ∧
    (∀ i i1, i < i1 → i1 < k → p i < p i1) ∧
    (∀ i j, k ≤ i → entry R i j = 0)

/-! ## `Substitution::Serialize` and `Substitution::Deserialize` -/

/-- The binary primitives, none of which is part of the sources: `WriteBinary<size_t>`,
`ReadBinary<size_t>`, `Scalar::Serialize` and `Scalar::Deserialize`, on a stream of items of
type `B`.  A read returns what it read and the rest of the stream; `Scalar::Deserialize`
returns a null pointer, here `none`, when it fails. -/
structure Codec (S B : Type) where
  WriteSize : Nat → List B
  ReadSize : List B → Nat × List B
  SerializeScalar : S → List B
  DeserializeScalar : List B → Option (S × List B)

/-- The loop of lines 182-185: both sides of every pair, in order. -/
def serializePairs {S B : Type} (C : Codec S B) : List (S × S) → List B
  | [] => []
  | substitution :: rest =>
    C.SerializeScalar substitution.1 ++ C.SerializeScalar substitution.2 ++ serializePairs C rest

/-- The member function `Serialize`, lines 177-186: what it writes to the stream. -/
def Substitution.Serialize {S B : Type} (C : Codec S B) (σ : Substitution S) : List B :=
  C.WriteSize σ.substitutions.length ++ serializePairs C σ.substitutions

/-- The loop of lines 195-203 with `size - i` passes to go.  The counter `i` of the source
has type `int`; the passes are counted in natural numbers here. -/
def deserializePairs {S B : Type} (C : Codec S B) :
    Nat → Substitution S → List B → Option (Substitution S × List B)
  | 0, result, is => some (result, is)
  | n + 1, result, is =>
    match C.DeserializeScalar is with
    | none => none
    | some (lhs, is1) =>
      match C.DeserializeScalar is1 with
      | none => none
      | some (rhs, is2) => deserializePairs C n (result.Insert lhs rhs) is2

/-- The static member function `Deserialize`, lines 188-206: the substitution read and the
rest of the stream, or `none` for the null pointer. -/
def Substitution.Deserialize {S B : Type} (C : Codec S B) (is : List B) :
    Option (Substitution S × List B) :=
  deserializePairs C (C.ReadSize is).1 Substitution.empty (C.ReadSize is).2

/-- A codec on streams of numbers: a number is written as itself. -/
def numberCodec : Codec Nat Nat where
  WriteSize := fun n => [n]
  ReadSize := fun is => (is.headD 0, is.tail)
  SerializeScalar := fun s => [s]
  DeserializeScalar := fun is =>
    match is with
    | [] => none
    | x :: rest => some (x, rest)

/-- The substitution with the two pairs `(x, 1)` and `(x, 2)`. -/
def twiceX : Substitution Scalar :=
  ⟨[(Scalar.var "x", Scalar.num 1), (Scalar.var "x", Scalar.num 2)]⟩

/-! ## Auxiliary notions for the variable list and the read-out of `Merge` -/

/-- The terms the entries of a row add to the right side in the loop of lines 155-163, in
order: `-variables[j] * Scalar::Fraction(vec[j])` for every entry `vec[j]` that is not 0. -/
def contributions {S : Type} (L : ScalarLayer S) : List ℚ → List S → List S
  | [], _ => []
  | _ :: _, [] => []
  | x :: xs, v :: vs =>
    if x ≠ 0 then L.mulFraction (L.neg v) x :: contributions L xs vs else contributions L xs vs

/-- The map of one equation, lines 92 and 116: `map[v.first] = v.second.ToDouble()` for every
variable of the equation, in order. -/
def coefficientMap {S : Type} [DecidableEq S] (L : ScalarLayer S) (vs : List (S × S)) :
    List (S × ℚ) :=
  vs.foldl (fun map v => mapSet map v.1 (L.ToDouble v.2)) []

/-- The substitution `x ↦ -x - y`, that is the equation `2x + y = 0`, and a substitution
without pairs. -/
def skewSubs : List (Substitution Scalar) :=
  [⟨[(Scalar.var "x", ⟨[("x", -1), ("y", -1)], 0⟩)]⟩, ⟨[]⟩]

/-- The substitution `x ↦ 0`, twice. -/
def doubledX : List (Substitution Scalar) :=
  [⟨[(Scalar.var "x", Scalar.num 0)]⟩, ⟨[(Scalar.var "x", Scalar.num 0)]⟩]

/-- The right side the read-out gives a row whose first 1 stands in column `i` behind zeros
only: the terms of the entries behind column `i`. -/
def rightSide {S : Type} (L : ScalarLayer S) (vars : List S) (row : List ℚ) (i : Nat) : S :=
  (contributions L (row.drop (i + 1)) (vars.drop (i + 1))).foldl L.add L.zero

/-- Pairs `(variable, expression)` in which every expression has no constant part and holds
only variables of the pairs that follow it. -/
def Triangular : List (Scalar × Scalar) → Prop
  | [] => True
  | p :: rest =>
    (∃ x, p.1 = Scalar.var x) ∧ p.2.rest = 0 ∧
      (∀ t ∈ p.2.terms, Scalar.var t.1 ∈ rest.map Prod.fst) ∧ Triangular rest

/-- The substitutions `x ↦ y`, `y ↦ 0` and `x ↦ 0`: three equations in two variables, with
the one solution `x = 0, y = 0`. -/
def overdetermined : List (Substitution Scalar) :=
  [⟨[(Scalar.var "x", Scalar.var "y")]⟩, ⟨[(Scalar.var "y", Scalar.num 0)]⟩,
   ⟨[(Scalar.var "x", Scalar.num 0)]⟩]

end Tensor


namespace Equations

/-! ## Theorems about `Parse` -/

/-! ### `std::stoi` on decimal numerals -/

theorem digitChar_facts : ∀ d, d < 10 →
    (Nat.digitChar d).isDigit = true ∧ (Nat.digitChar d).toNat - '0'.toNat = d ∧
    isSpace (Nat.digitChar d) = false ∧ Nat.digitChar d ≠ '-' ∧ Nat.digitChar d ≠ '+' ∧
    Nat.digitChar d ≠ ':' ∧ Nat.digitChar d ≠ '>' ∧ Nat.digitChar d ≠ '/' := by
  decide

theorem digitsValue_append (a b : List Char) : ∀ (acc : Nat),
    digitsValue acc (a ++ b) = digitsValue (digitsValue acc a) b := by
  induction a with
  | nil => intro acc; rfl
  | cons c cs ih => intro acc; exact ih _

theorem digitsValue_nil (acc : Nat) : digitsValue acc [] = acc := rfl

theorem digitsValue_cons (acc : Nat) (c : Char) (cs : List Char) :
    digitsValue acc (c :: cs) = digitsValue (acc * 10 + (c.toNat - '0'.toNat)) cs := rfl

/-- The digits `Nat.toDigitsCore` puts in front of `ds` are decimal digits and spell `n`. -/
theorem toDigitsCore_spec (fuel : Nat) : ∀ (n : Nat) (ds : List Char), n < fuel →
    ∃ pre : List Char, Nat.toDigitsCore 10 fuel n ds = pre ++ ds ∧ pre ≠ [] ∧
      (∀ c ∈ pre, c.isDigit = true ∧ isSpace c = false ∧ c ≠ '-' ∧ c ≠ '+' ∧
        c ≠ ':' ∧ c ≠ '>' ∧ c ≠ '/') ∧
      digitsValue 0 pre = n := by
  induction fuel with
  | zero => intro n ds h; omega
  | succ fuel ih =>
    intro n ds h
    have hd := digitChar_facts (n % 10) (Nat.mod_lt _ (by decide))
    rw [Nat.toDigitsCore]
    by_cases h0 : n / 10 = 0
    · simp only [h0, if_true]
      refine ⟨[Nat.digitChar (n % 10)], rfl, by simp, ?_, ?_⟩
      · intro c hc; simp at hc; subst hc
        exact ⟨hd.1, hd.2.2⟩
      · rw [digitsValue_cons, digitsValue_nil, hd.2.1]; omega
    · simp only [h0, if_false]
      obtain ⟨pre, hpre, hne, hall, hval⟩ := ih (n / 10) (Nat.digitChar (n % 10) :: ds) (by omega)
      refine ⟨pre ++ [Nat.digitChar (n % 10)], by simp [hpre], by simp, ?_, ?_⟩
      · intro c hc
        rcases List.mem_append.1 hc with hc | hc
        · exact hall c hc
        · simp at hc; subst hc; exact ⟨hd.1, hd.2.2⟩
      · rw [digitsValue_append, hval, digitsValue_cons, digitsValue_nil, hd.2.1]; omega

theorem toDigits_spec (n : Nat) :
    Nat.toDigits 10 n ≠ [] ∧
    (∀ c ∈ Nat.toDigits 10 n, c.isDigit = true ∧ isSpace c = false ∧ c ≠ '-' ∧ c ≠ '+' ∧
        c ≠ ':' ∧ c ≠ '>' ∧ c ≠ '/') ∧
    digitsValue 0 (Nat.toDigits 10 n) = n := by
  obtain ⟨pre, hpre, hne, hall, hval⟩ := toDigitsCore_spec (n + 1) n [] (by omega)
  simp only [List.append_nil] at hpre
  rw [Nat.toDigits, hpre]
  exact ⟨hne, hall, hval⟩

theorem takeWhile_all {α : Type} (p : α → Bool) (l : List α) (h : ∀ x ∈ l, p x = true) :
    l.takeWhile p = l := by
  induction l with
  | nil => rfl
  | cons a t ih =>
    simp only [List.takeWhile, h a (by simp)]
    rw [ih (fun x hx => h x (by simp [hx]))]

/-- A string of decimal digits that does not exceed `INT_MAX` is converted to its value. -/
theorem stoi_digits (ds : List Char) (hne : ds ≠ [])
    (hall : ∀ c ∈ ds, c.isDigit = true ∧ isSpace c = false ∧ c ≠ '-' ∧ c ≠ '+')
    (hle : (digitsValue 0 ds : Int) ≤ INT_MAX) :
    stoi ds = .ok (digitsValue 0 ds : Int) := by
  cases ds with
  | nil => exact absurd rfl hne
  | cons c cs =>
    have hc := hall c (by simp)
    have h1 : (c :: cs).dropWhile isSpace = c :: cs := by simp [List.dropWhile, hc.2.1]
    have h2 : (c :: cs).takeWhile Char.isDigit = c :: cs :=
      takeWhile_all _ _ (fun x hx => (hall x hx).1)
    unfold stoi
    simp only [h1, List.head?_cons, Option.some.injEq, hc.2.2.1.symm, hc.2.2.2.symm]
    have hm : ¬ (c = '-') := hc.2.2.1
    have hp : ¬ (c = '+') := hc.2.2.2
    simp only [hm, hp, or_self, if_false, h2, reduceCtorEq, decide_False, Bool.false_eq_true]
    have : ¬ ((digitsValue 0 (c :: cs) : Int) < INT_MIN ∨ INT_MAX < (digitsValue 0 (c :: cs) : Int)) := by
      unfold INT_MIN; unfold INT_MAX at hle ⊢; omega
    simp [this]

/-- Reading back a printed natural number: `stoi` of the decimal numeral of `n`. -/
theorem stoi_toDigits (n : Nat) (h : (n : Int) ≤ INT_MAX) :
    stoi (Nat.toDigits 10 n) = .ok (n : Int) := by
  obtain ⟨hne, hall, hval⟩ := toDigits_spec n
  have := stoi_digits (Nat.toDigits 10 n) hne
    (fun c hc => ⟨(hall c hc).1, (hall c hc).2.1, (hall c hc).2.2.1, (hall c hc).2.2.2.1⟩)
    (by rw [hval]; exact h)
  rw [hval] at this; exact this

theorem toUnsigned_natCast (n : Nat) (h : (n : Int) ≤ INT_MAX) : toUnsigned (n : Int) = n := by
  unfold toUnsigned; unfold INT_MAX at h; omega

/-! ### The scan -/

theorem swapNeeded_spec (l ld r rd : Nat) :
    swapNeeded l ld r rd = true ↔ (r < l ∨ (r = l ∧ rd < ld)) := by
  simp [swapNeeded]

theorem closeTag_requests {Ref : Type} [DecidableEq Ref] (E : Externals Ref) (st : ParseState Ref) :
    (closeTag E st).requests = st.requests ++ [canonicalRequest st.l st.ld st.r st.rd st.id] := by
  unfold closeTag canonicalRequest
  cases h : swapNeeded st.l st.ld st.r st.rd <;> simp

theorem canonicalRequest_ordered (l ld r rd : Nat) (id : List Char) :
    (canonicalRequest l ld r rd id).l ≤ (canonicalRequest l ld r rd id).r ∧
    ((canonicalRequest l ld r rd id).l = (canonicalRequest l ld r rd id).r →
      (canonicalRequest l ld r rd id).ld ≤ (canonicalRequest l ld r rd id).rd) := by
  unfold canonicalRequest
  cases h : swapNeeded l ld r rd
  · have h2 : ¬ (r < l ∨ (r = l ∧ rd < ld)) := by
      rw [← swapNeeded_spec]; simp [h]
    simp only [Bool.false_eq_true, if_false]
    constructor <;> omega
  · have h2 := (swapNeeded_spec l ld r rd).1 h
    simp only [if_true]
    constructor <;> omega

/-- Invariant rule for the loop: a property kept by every pass through the body holds at the end. -/
theorem scan_invariant_aux {Ref : Type} [DecidableEq Ref] (E : Externals Ref) (P : ParseState Ref → Prop)
    (hstep : ∀ st c nxt, P st →
      (∀ s, step E st c nxt = .ok (.next s) → P s) ∧ (∀ s, step E st c nxt = .ok (.skip s) → P s))
    (n : Nat) : ∀ (code : List Char), code.length ≤ n →
      ∀ (st st1 : ParseState Ref), P st → scan E st code = .ok st1 → P st1 := by
  induction n with
  | zero =>
    intro code hlen st st1 hP h
    have : code = [] := List.length_eq_zero.mp (Nat.le_zero.mp hlen)
    subst this
    simp [scan] at h; subst h; exact hP
  | succ n ih =>
    intro code hlen st st1 hP h
    cases code with
    | nil => simp [scan] at h; subst h; exact hP
    | cons c rest =>
      simp only [List.length_cons, Nat.succ_le_succ_iff] at hlen
      rw [scan] at h
      cases hs : step E st c rest.head? with
      | error e => rw [hs] at h; simp at h
      | ok s =>
        rw [hs] at h
        cases s with
        | stop => simp at h; subst h; exact hP
        | next s1 => exact ih rest hlen s1 st1 ((hstep st c _ hP).1 s1 hs) h
        | skip s1 =>
          have hP1 := (hstep st c _ hP).2 s1 hs
          cases rest with
          | nil => simp at h; subst h; exact hP1
          | cons c2 rest1 =>
            simp only at h
            exact ih rest1 (by simp at hlen; omega) s1 st1 hP1 h

theorem scan_invariant {Ref : Type} [DecidableEq Ref] (E : Externals Ref) (P : ParseState Ref → Prop)
    (hstep : ∀ st c nxt, P st →
      (∀ s, step E st c nxt = .ok (.next s) → P s) ∧ (∀ s, step E st c nxt = .ok (.skip s) → P s))
    (code : List Char) (st st1 : ParseState Ref) (hP : P st) (h : scan E st code = .ok st1) :
    P st1 :=
  scan_invariant_aux E P hstep code.length code (Nat.le_refl _) st st1 hP h

/-- A `:` changes only `id`, one block size, `temp` and `mode`. -/
theorem closeField_frame {Ref : Type} (st s : ParseState Ref) (h : closeField st = .ok s) :
    s.requests = st.requests ∧ s.current = st.current ∧ s.coefficients = st.coefficients ∧
    s.observed = st.observed ∧ s.inCoeff = st.inCoeff := by
  unfold closeField at h
  split_ifs at h
  all_goals first
    | (simp only [Except.ok.injEq] at h; subst h; simp)
    | (cases hv : stoi st.temp <;> rw [hv] at h <;> simp only [Except.map, reduceCtorEq] at h
       simp only [Except.ok.injEq] at h; subst h; simp)

/-- Every pass through the body keeps the recorded requests in canonical order. -/
theorem step_requests_ordered {Ref : Type} [DecidableEq Ref] (E : Externals Ref) (st : ParseState Ref) (c : Char)
    (nxt : Option Char)
    (hP : ∀ q ∈ st.requests, q.l ≤ q.r ∧ (q.l = q.r → q.ld ≤ q.rd)) :
    (∀ s, step E st c nxt = .ok (.next s) →
      ∀ q ∈ s.requests, q.l ≤ q.r ∧ (q.l = q.r → q.ld ≤ q.rd)) ∧
    (∀ s, step E st c nxt = .ok (.skip s) →
      ∀ q ∈ s.requests, q.l ≤ q.r ∧ (q.l = q.r → q.ld ≤ q.rd)) := by
  unfold step
  split_ifs with h1 h2 h3 h4 h5
  · simp
  · simp only [Except.ok.injEq, Step.skip.injEq, reduceCtorEq, false_implies, implies_true, true_and]
    intro s hs; subst hs; exact hP
  · simp only [Except.ok.injEq, Step.next.injEq, reduceCtorEq, false_implies, implies_true, and_true]
    intro s hs; subst hs; exact hP
  · constructor
    · intro s hs
      cases hc : closeField st with
      | error e => simp [hc, Except.map] at hs
      | ok s0 =>
        simp only [hc, Except.map, Except.ok.injEq, Step.next.injEq] at hs
        subst hs
        rw [(closeField_frame st s0 hc).1]; exact hP
    · intro s hs
      cases hc : closeField st <;> simp [hc, Except.map] at hs
  · simp only [Except.ok.injEq, Step.next.injEq, reduceCtorEq, false_implies, implies_true, and_true]
    intro s hs; subst hs
    rw [closeTag_requests]
    intro q hq
    rcases List.mem_append.1 hq with hq | hq
    · exact hP q hq
    · simp at hq; subst hq; exact canonicalRequest_ordered _ _ _ _ _
  · simp only [Except.ok.injEq, Step.next.injEq, reduceCtorEq, false_implies, implies_true, and_true]
    intro s hs; subst hs; exact hP

/-- C1 (amended): every shape handed to the registry has left block at most the right block. -/
theorem parse_requests_canonical {Ref : Type} [DecidableEq Ref] (E : Externals Ref) (u : Indeterminate) (code : List Char)
    (st : ParseState Ref) (h : parseScan E u code = .ok st) :
    ∀ q ∈ st.requests, q.l ≤ q.r ∧ (q.l = q.r → q.ld ≤ q.rd) :=
  scan_invariant E (fun s => ∀ q ∈ s.requests, q.l ≤ q.r ∧ (q.l = q.r → q.ld ≤ q.rd))
    (fun st c nxt hP => step_requests_ordered E st c nxt hP) code (ParseState.init u) st
    (by simp [ParseState.init]) h

theorem parse_requests_canonical_witness :
    parseScan keyRegistry ⟨0, 0, 0, 0⟩ muCode = .ok muState ∧
    ∀ q ∈ muState.requests, q.l ≤ q.r ∧ (q.l = q.r → q.ld ≤ q.rd) :=
  ⟨rfl, parse_requests_canonical keyRegistry ⟨0, 0, 0, 0⟩ muCode muState rfl⟩

/-- C1 (as stated, refuted): for the tag `#<mu:4:0:0:0:...>` the shape handed to the registry
has left block 0 and right block 4, so the stored left block is not at least the right one. -/
theorem parse_left_not_larger :
    parseScan keyRegistry ⟨0, 0, 0, 0⟩ muCode = .ok muState ∧
    ∃ q ∈ muState.requests, ¬ (q.l ≥ q.r) :=
  ⟨rfl, ⟨0, 0, 4, 0, "mu".toList⟩, by decide, by decide⟩

theorem scan_cons_next {Ref : Type} [DecidableEq Ref] (E : Externals Ref) (st s : ParseState Ref)
    (c : Char) (rest : List Char) (h : step E st c rest.head? = .ok (.next s)) :
    scan E st (c :: rest) = scan E s rest := by
  rw [scan, h]

theorem scan_cons_error {Ref : Type} [DecidableEq Ref] (E : Externals Ref) (st : ParseState Ref)
    (c : Char) (rest : List Char) (e : StoiError) (h : step E st c rest.head? = .error e) :
    scan E st (c :: rest) = .error e := by
  rw [scan, h]

/-- Inside a tag, plain characters are collected in `temp`. -/
theorem scan_plain_inTag {Ref : Type} [DecidableEq Ref] (E : Externals Ref) (cs rest : List Char)
    (hp : plainText cs) : ∀ (st : ParseState Ref), st.inCoeff = true →
      scan E st (cs ++ rest) = scan E { st with temp := st.temp ++ cs } rest := by
  induction cs with
  | nil => intro st _; simp
  | cons c cs ih =>
    intro st hin
    have hc := hp c (by simp)
    have hs : step E st c (cs ++ rest).head? = .ok (.next { st with temp := st.temp ++ [c] }) := by
      unfold step
      simp [hc.1, hc.2.1, hc.2.2, hin]
    rw [List.cons_append, scan_cons_next E st _ c _ hs,
      ih (fun x hx => hp x (by simp [hx])) { st with temp := st.temp ++ [c] } hin]
    simp

/-- Inside a tag, a `:` closes the field. -/
theorem scan_colon {Ref : Type} [DecidableEq Ref] (E : Externals Ref) (st : ParseState Ref)
    (rest : List Char) (hin : st.inCoeff = true) :
    scan E st (':' :: rest) =
      match closeField st with
      | .error e => .error e
      | .ok s => scan E s rest := by
  have hs : step E st ':' rest.head? = (closeField st).map .next := by
    unfold step
    simp [hin]
  cases hc : closeField st with
  | error e => exact scan_cons_error E st _ _ e (by rw [hs, hc]; rfl)
  | ok s => exact scan_cons_next E st s _ _ (by rw [hs, hc]; rfl)

/-- Inside a tag, a `>` closes the tag. -/
theorem scan_close {Ref : Type} [DecidableEq Ref] (E : Externals Ref) (st : ParseState Ref)
    (rest : List Char) (hin : st.inCoeff = true) :
    scan E st ('>' :: rest) = scan E (closeTag E st) rest := by
  apply scan_cons_next
  unfold step
  simp [hin]

/-- Outside a tag, `#<` opens one. -/
theorem scan_open {Ref : Type} [DecidableEq Ref] (E : Externals Ref) (st : ParseState Ref)
    (rest : List Char) (hout : st.inCoeff = false) :
    scan E st ('#' :: '<' :: rest) = scan E { st with inCoeff := true } rest := by
  rw [scan]
  have : step E st '#' ('<' :: rest).head? = .ok (.skip { st with inCoeff := true }) := by
    unfold step
    simp [hout]
  rw [this]

/-- The scan of one complete tag whose fields are plain text. -/
theorem scan_tag {Ref : Type} [DecidableEq Ref] (E : Externals Ref) (st : ParseState Ref)
    (id f1 f2 f3 f4 tok rest : List Char)
    (hout : st.inCoeff = false) (hmode : st.mode = 0) (htemp : st.temp = [])
    (hid : plainText id) (h1 : plainText f1) (h2 : plainText f2) (h3 : plainText f3)
    (h4 : plainText f4) (htok : plainText tok) :
    scan E st (tagText id f1 f2 f3 f4 tok ++ rest) =
      match readShape f1 f2 f3 f4 with
      | .error e => .error e
      | .ok (a, b, c, d) =>
        scan E (closeTag E { st with inCoeff := true, id := id, l := a, ld := b, r := c, rd := d,
                                     mode := 5, temp := tok }) rest := by
  unfold tagText readShape
  simp only [List.cons_append, List.append_assoc]
  rw [scan_open E st _ hout, scan_plain_inTag E id _ hid _ rfl, scan_colon E _ _ rfl]
  simp only [closeField, hmode, htemp, if_true, List.nil_append]
  rw [scan_plain_inTag E f1 _ h1 _ rfl, scan_colon E _ _ rfl]
  cases hs1 : stoi f1 with
  | error e => simp [closeField, Except.map, hs1]
  | ok a =>
    simp only [closeField, Except.map, hs1, List.nil_append]
    norm_num
    rw [scan_plain_inTag E f2 _ h2 _ rfl, scan_colon E _ _ rfl]
    cases hs2 : stoi f2 with
    | error e => simp [closeField, Except.map, hs2]
    | ok b =>
      simp only [closeField, Except.map, hs2, List.nil_append]
      norm_num
      rw [scan_plain_inTag E f3 _ h3 _ rfl, scan_colon E _ _ rfl]
      cases hs3 : stoi f3 with
      | error e => simp [closeField, Except.map, hs3]
      | ok c =>
        simp only [closeField, Except.map, hs3, List.nil_append]
        norm_num
        rw [scan_plain_inTag E f4 _ h4 _ rfl, scan_colon E _ _ rfl]
        cases hs4 : stoi f4 with
        | error e => simp [closeField, Except.map, hs4]
        | ok d =>
          simp only [closeField, Except.map, hs4, List.nil_append]
          norm_num
          rw [scan_plain_inTag E tok _ htok _ rfl, scan_close E _ _ rfl]
          simp

theorem closeTag_first {Ref : Type} [DecidableEq Ref] (E : Externals Ref) (st : ParseState Ref)
    (h : st.coefficients = []) :
    (closeTag E st).coefficients =
      [E.Get (canonicalRequest st.l st.ld st.r st.rd st.id).l
        (canonicalRequest st.l st.ld st.r st.rd st.id).ld
        (canonicalRequest st.l st.ld st.r st.rd st.id).r
        (canonicalRequest st.l st.ld st.r st.rd st.id).rd st.id] := by
  unfold closeTag canonicalRequest
  cases hs : swapNeeded st.l st.ld st.r st.rd <;> simp [h, found]

theorem canonicalRequest_exchange (l ld r rd : Nat) (id : List Char) :
    canonicalRequest r rd l ld id = canonicalRequest l ld r rd id := by
  unfold canonicalRequest
  cases h1 : swapNeeded l ld r rd <;> cases h2 : swapNeeded r rd l ld
  all_goals
    simp only [swapNeeded, Bool.or_eq_true, Bool.and_eq_true, decide_eq_true_eq,
      Bool.or_eq_false_iff, Bool.and_eq_false_imp, decide_eq_false_iff_not] at h1 h2
  · have : l = r ∧ ld = rd := by omega
    simp [this.1, this.2]
  · simp
  · simp
  · omega

theorem readShape_numerals (a b c d : Nat) (ha : (a : Int) ≤ INT_MAX) (hb : (b : Int) ≤ INT_MAX)
    (hc : (c : Int) ≤ INT_MAX) (hd : (d : Int) ≤ INT_MAX) :
    readShape (Nat.toDigits 10 a) (Nat.toDigits 10 b) (Nat.toDigits 10 c) (Nat.toDigits 10 d)
      = .ok (a, b, c, d) := by
  unfold readShape
  simp only [stoi_toDigits a ha, stoi_toDigits b hb, stoi_toDigits c hc, stoi_toDigits d hd,
    toUnsigned_natCast a ha, toUnsigned_natCast b hb, toUnsigned_natCast c hc,
    toUnsigned_natCast d hd]

theorem plainText_toDigits (n : Nat) : plainText (Nat.toDigits 10 n) := by
  intro c hc
  have := (toDigits_spec n).2.1 c hc
  exact ⟨this.2.2.2.2.1, this.2.2.2.2.2.1, this.2.2.2.2.2.2⟩

/-- The scan of a code that is one tag, from the initial locals. -/
theorem parseScan_tag {Ref : Type} [DecidableEq Ref] (E : Externals Ref) (u : Indeterminate)
    (id f1 f2 f3 f4 tok : List Char)
    (hid : plainText id) (h1 : plainText f1) (h2 : plainText f2) (h3 : plainText f3)
    (h4 : plainText f4) (htok : plainText tok) :
    parseScan E u (tagText id f1 f2 f3 f4 tok) =
      match readShape f1 f2 f3 f4 with
      | .error e => .error e
      | .ok (a, b, c, d) =>
        .ok (closeTag E { (ParseState.init u : ParseState Ref) with
               inCoeff := true, id := id, l := a, ld := b, r := c, rd := d, mode := 5, temp := tok }) := by
  have := scan_tag E (ParseState.init u) id f1 f2 f3 f4 tok [] rfl rfl rfl hid h1 h2 h3 h4 htok
  rw [List.append_nil] at this
  unfold parseScan
  rw [this]
  cases readShape f1 f2 f3 f4 with
  | error e => rfl
  | ok v => obtain ⟨a, b, c, d⟩ := v; simp [scan]

/-- C2: the tags `#<id:l:ld:r:rd:tok>` and `#<id:r:rd:l:ld:tok>` are canonicalized to the same
key, for all block sizes; and when the sizes fit `int` (so that `std::stoi` reads them), both
codes parse, hand that one key to the registry and hold the one coefficient it returns. -/
theorem parse_exchanged_blocks_same_key {Ref : Type} [DecidableEq Ref] (E : Externals Ref)
    (u : Indeterminate) (id tok : List Char) (l ld r rd : Nat) :
    canonicalRequest r rd l ld id = canonicalRequest l ld r rd id ∧
    (plainText id → plainText tok → (l : Int) ≤ INT_MAX → (ld : Int) ≤ INT_MAX →
      (r : Int) ≤ INT_MAX → (rd : Int) ≤ INT_MAX →
      ∃ st1 st2 : ParseState Ref,
        parseScan E u (tagText id (Nat.toDigits 10 l) (Nat.toDigits 10 ld) (Nat.toDigits 10 r)
          (Nat.toDigits 10 rd) tok) = .ok st1 ∧
        parseScan E u (tagText id (Nat.toDigits 10 r) (Nat.toDigits 10 rd) (Nat.toDigits 10 l)
          (Nat.toDigits 10 ld) tok) = .ok st2 ∧
        st1.requests = [canonicalRequest l ld r rd id] ∧
        st2.requests = st1.requests ∧
        st1.coefficients = [E.Get (canonicalRequest l ld r rd id).l (canonicalRequest l ld r rd id).ld
          (canonicalRequest l ld r rd id).r (canonicalRequest l ld r rd id).rd id] ∧
        st2.coefficients = st1.coefficients) := by
  refine ⟨canonicalRequest_exchange l ld r rd id, ?_⟩
  intro hid htok hl hld hr hrd
  have p1 := parseScan_tag E u id _ _ _ _ tok hid (plainText_toDigits l) (plainText_toDigits ld)
    (plainText_toDigits r) (plainText_toDigits rd) htok
  have p2 := parseScan_tag E u id _ _ _ _ tok hid (plainText_toDigits r) (plainText_toDigits rd)
    (plainText_toDigits l) (plainText_toDigits ld) htok
  rw [readShape_numerals l ld r rd hl hld hr hrd] at p1
  rw [readShape_numerals r rd l ld hr hrd hl hld] at p2
  refine ⟨_, _, p1, p2, ?_, ?_, ?_, ?_⟩
  · rw [closeTag_requests]; rfl
  · rw [closeTag_requests, closeTag_requests]
    simp only [ParseState.init, List.nil_append, List.cons.injEq, and_true]
    exact canonicalRequest_exchange l ld r rd id
  · rw [closeTag_first E _ rfl]
  · rw [closeTag_first E _ rfl, closeTag_first E _ rfl]
    simp only [canonicalRequest_exchange l ld r rd id]

theorem parse_exchanged_blocks_same_key_witness :
    ∃ st1 st2 : ParseState Request,
      parseScan keyRegistry ⟨0, 0, 0, 0⟩ (tagText "mu".toList (Nat.toDigits 10 4)
        (Nat.toDigits 10 1) (Nat.toDigits 10 0) (Nat.toDigits 10 0) "ab".toList) = .ok st1 ∧
      parseScan keyRegistry ⟨0, 0, 0, 0⟩ (tagText "mu".toList (Nat.toDigits 10 0)
        (Nat.toDigits 10 0) (Nat.toDigits 10 4) (Nat.toDigits 10 1) "ab".toList) = .ok st2 ∧
      st1.requests = [canonicalRequest 4 1 0 0 "mu".toList] ∧
      st2.requests = st1.requests ∧
      st1.coefficients = [keyRegistry.Get (canonicalRequest 4 1 0 0 "mu".toList).l
        (canonicalRequest 4 1 0 0 "mu".toList).ld (canonicalRequest 4 1 0 0 "mu".toList).r
        (canonicalRequest 4 1 0 0 "mu".toList).rd "mu".toList] ∧
      st2.coefficients = st1.coefficients :=
  (parse_exchanged_blocks_same_key keyRegistry ⟨0, 0, 0, 0⟩ "mu".toList "ab".toList 4 1 0 0).2
    (by unfold plainText; decide) (by unfold plainText; decide) (by decide) (by decide)
    (by decide) (by decide)

/-- C9 (amended): on a tag whose fields hold no `:`, `>` or `/`, Parse fails exactly when
`std::stoi` raises on one of the four shape fields, with that exception, and otherwise hands
the converted sizes, canonically ordered, to the registry; four decimal numerals of values up
to `INT_MAX` are read as exactly those values. -/
theorem parse_shape_fields {Ref : Type} [DecidableEq Ref] (E : Externals Ref) (u : Indeterminate)
    (id f1 f2 f3 f4 tok : List Char)
    (hid : plainText id) (h1 : plainText f1) (h2 : plainText f2) (h3 : plainText f3)
    (h4 : plainText f4) (htok : plainText tok) :
    (∀ e, parseScan E u (tagText id f1 f2 f3 f4 tok) = .error e ↔
      readShape f1 f2 f3 f4 = .error e) ∧
    (∀ a b c d, readShape f1 f2 f3 f4 = .ok (a, b, c, d) →
      ∃ st : ParseState Ref, parseScan E u (tagText id f1 f2 f3 f4 tok) = .ok st ∧
        st.requests = [canonicalRequest a b c d id]) ∧
    (∀ a b c d : Nat, (a : Int) ≤ INT_MAX → (b : Int) ≤ INT_MAX → (c : Int) ≤ INT_MAX →
      (d : Int) ≤ INT_MAX → f1 = Nat.toDigits 10 a → f2 = Nat.toDigits 10 b →
      f3 = Nat.toDigits 10 c → f4 = Nat.toDigits 10 d →
      readShape f1 f2 f3 f4 = .ok (a, b, c, d)) := by
  have p := parseScan_tag E u id f1 f2 f3 f4 tok hid h1 h2 h3 h4 htok
  refine ⟨?_, ?_, ?_⟩
  · intro e
    rw [p]
    cases readShape f1 f2 f3 f4 with
    | error e1 => simp
    | ok v => obtain ⟨a, b, c, d⟩ := v; simp
  · intro a b c d hr
    rw [hr] at p
    exact ⟨_, p, by rw [closeTag_requests]; rfl⟩
  · intro a b c d ha hb hc hd e1 e2 e3 e4
    subst e1 e2 e3 e4
    exact readShape_numerals a b c d ha hb hc hd

theorem parse_shape_fields_witness :
    (∀ e, parseScan keyRegistry ⟨0, 0, 0, 0⟩
        (tagText "a".toList "1".toList "0".toList "2x".toList "0".toList "ab".toList) = .error e ↔
      readShape "1".toList "0".toList "2x".toList "0".toList = .error e) ∧
    (∀ a b c d, readShape "1".toList "0".toList "2x".toList "0".toList = .ok (a, b, c, d) →
      ∃ st : ParseState Request, parseScan keyRegistry ⟨0, 0, 0, 0⟩
          (tagText "a".toList "1".toList "0".toList "2x".toList "0".toList "ab".toList) = .ok st ∧
        st.requests = [canonicalRequest a b c d "a".toList]) ∧
    (∀ a b c d : Nat, (a : Int) ≤ INT_MAX → (b : Int) ≤ INT_MAX → (c : Int) ≤ INT_MAX →
      (d : Int) ≤ INT_MAX → "1".toList = Nat.toDigits 10 a → "0".toList = Nat.toDigits 10 b →
      "2x".toList = Nat.toDigits 10 c → "0".toList = Nat.toDigits 10 d →
      readShape "1".toList "0".toList "2x".toList "0".toList = .ok (a, b, c, d)) :=
  parse_shape_fields keyRegistry ⟨0, 0, 0, 0⟩ "a".toList "1".toList "0".toList "2x".toList
    "0".toList "ab".toList (by unfold plainText; decide) (by unfold plainText; decide)
    (by unfold plainText; decide) (by unfold plainText; decide) (by unfold plainText; decide)
    (by unfold plainText; decide)

/-- C9 (as stated, refuted): the field `2x` is not a non-negative integer, yet Parse of
`#<a:0:0:2x:0:>` does not fail: the field is read as 2.  Likewise `-1` is read as 4294967295.
An empty field does raise `invalid_argument`. -/
theorem parse_accepts_trailing_garbage :
    (∃ st : ParseState Request,
      parseScan keyRegistry ⟨0, 0, 0, 0⟩ "#<a:0:0:2x:0:>".toList = .ok st ∧
      st.requests = [⟨0, 0, 2, 0, "a".toList⟩]) ∧
    (∃ st : ParseState Request,
      parseScan keyRegistry ⟨0, 0, 0, 0⟩ "#<a:0:0:0:-1:>".toList = .ok st ∧
      st.requests = [⟨0, 0, 0, 4294967295, "a".toList⟩]) ∧
    parseScan keyRegistry ⟨0, 0, 0, 0⟩ "#<a::0:0:0:>".toList = .error .invalid_argument :=
  ⟨⟨_, rfl, rfl⟩, ⟨_, rfl, rfl⟩, rfl⟩

/-- Outside a tag, text without `#` and `/` is copied to `current`. -/
theorem scan_outside {Ref : Type} [DecidableEq Ref] (E : Externals Ref) (cs rest : List Char)
    (hp : outsideText cs) : ∀ (st : ParseState Ref), st.inCoeff = false →
      scan E st (cs ++ rest) = scan E { st with current := st.current ++ cs } rest := by
  induction cs with
  | nil => intro st _; simp
  | cons c cs ih =>
    intro st hout
    have hc := hp c (by simp)
    have hs : step E st c (cs ++ rest).head? = .ok (.next { st with current := st.current ++ [c] }) := by
      unfold step
      simp [hc.1, hc.2, hout]
    rw [List.cons_append, scan_cons_next E st _ c _ hs,
      ih (fun x hx => hp x (by simp [hx])) { st with current := st.current ++ [c] } hout]
    simp

/-- The invariant rule for codes whose characters all satisfy `Q`. -/
theorem scan_invariant_on {Ref : Type} [DecidableEq Ref] (E : Externals Ref)
    (P : ParseState Ref → Prop) (Q : Char → Prop)
    (hstep : ∀ st c nxt, Q c → P st →
      (∀ s, step E st c nxt = .ok (.next s) → P s) ∧ (∀ s, step E st c nxt = .ok (.skip s) → P s))
    (n : Nat) : ∀ (code : List Char), code.length ≤ n → (∀ c ∈ code, Q c) →
      ∀ (st st1 : ParseState Ref), P st → scan E st code = .ok st1 → P st1 := by
  induction n with
  | zero =>
    intro code hlen _ st st1 hP h
    have : code = [] := List.length_eq_zero.mp (Nat.le_zero.mp hlen)
    subst this
    simp [scan] at h; subst h; exact hP
  | succ n ih =>
    intro code hlen hQ st st1 hP h
    cases code with
    | nil => simp [scan] at h; subst h; exact hP
    | cons c rest =>
      simp only [List.length_cons, Nat.succ_le_succ_iff] at hlen
      have hQc := hQ c (by simp)
      have hQr : ∀ x ∈ rest, Q x := fun x hx => hQ x (by simp [hx])
      rw [scan] at h
      cases hs : step E st c rest.head? with
      | error e => rw [hs] at h; simp at h
      | ok s =>
        rw [hs] at h
        cases s with
        | stop => simp at h; subst h; exact hP
        | next s1 => exact ih rest hlen hQr s1 st1 ((hstep st c _ hQc hP).1 s1 hs) h
        | skip s1 =>
          have hP1 := (hstep st c _ hQc hP).2 s1 hs
          cases rest with
          | nil => simp at h; subst h; exact hP1
          | cons c2 rest1 =>
            simp only at h
            exact ih rest1 (by simp at hlen; omega) (fun x hx => hQr x (by simp [hx])) s1 st1 hP1 h

/-- Inside a tag that is never closed, nothing is emitted and no coefficient is resolved. -/
theorem scan_unterminated {Ref : Type} [DecidableEq Ref] (E : Externals Ref) (cs : List Char)
    (hno : ∀ c ∈ cs, c ≠ '>') (st s : ParseState Ref) (hin : st.inCoeff = true)
    (h : scan E st cs = .ok s) :
    s.inCoeff = true ∧ s.current = st.current ∧ s.coefficients = st.coefficients ∧
      s.observed = st.observed ∧ s.requests = st.requests := by
  refine scan_invariant_on E
    (fun x => x.inCoeff = true ∧ x.current = st.current ∧ x.coefficients = st.coefficients ∧
      x.observed = st.observed ∧ x.requests = st.requests) (fun c => c ≠ '>') ?_ cs.length cs
    (Nat.le_refl _) hno st s ⟨hin, rfl, rfl, rfl, rfl⟩ h
  intro x c nxt hQ hP
  obtain ⟨hx, hcur, hco, hob, hrq⟩ := hP
  unfold step
  split_ifs with h1 h2 h3 h4
  · simp
  · simp [hx] at h2
  · simp [hx] at h2
  · constructor
    · intro s1 hs1
      cases hc : closeField x with
      | error e => simp [hc, Except.map] at hs1
      | ok s0 =>
        simp only [hc, Except.map, Except.ok.injEq, Step.next.injEq] at hs1
        subst hs1
        obtain ⟨f1, f2, f3, f4, f5⟩ := closeField_frame x s0 hc
        exact ⟨by rw [f5, hx], by rw [f2, hcur], by rw [f3, hco], by rw [f4, hob], by rw [f1, hrq]⟩
    · intro s1 hs1
      cases hc : closeField x <;> simp [hc, Except.map] at hs1
  · simp only [Except.ok.injEq, Step.next.injEq, reduceCtorEq, false_implies, implies_true, and_true]
    intro s1 hs1; subst hs1
    exact ⟨hx, hcur, hco, hob, hrq⟩

/-- Inside a tag without `:` and `>`, the scan cannot fail. -/
theorem scan_inTag_total {Ref : Type} [DecidableEq Ref] (E : Externals Ref) (n : Nat) :
    ∀ (cs : List Char), cs.length ≤ n → (∀ c ∈ cs, c ≠ '>' ∧ c ≠ ':') →
      ∀ (st : ParseState Ref), st.inCoeff = true → ∃ s, scan E st cs = .ok s := by
  induction n with
  | zero =>
    intro cs hlen _ st _
    have : cs = [] := List.length_eq_zero.mp (Nat.le_zero.mp hlen)
    subst this
    exact ⟨st, rfl⟩
  | succ n ih =>
    intro cs hlen hno st hin
    cases cs with
    | nil => exact ⟨st, rfl⟩
    | cons c rest =>
      simp only [List.length_cons, Nat.succ_le_succ_iff] at hlen
      have hc := hno c (by simp)
      by_cases hcom : c = '/' ∧ rest.head? = some '/'
      · refine ⟨st, ?_⟩
        rw [scan]
        have : step E st c rest.head? = .ok .stop := by unfold step; simp [hcom]
        rw [this]
      · have hs : step E st c rest.head? = .ok (.next { st with temp := st.temp ++ [c] }) := by
          unfold step
          simp only [hcom, if_false, hin, Bool.true_eq_false, hc.1, hc.2]
        rw [scan_cons_next E st _ c rest hs]
        exact ih rest hlen (fun x hx => hno x (by simp [hx])) _ hin

/-- C8 (amended): a tag opened by `#<` after plain text and never closed by `>` is not by
itself an error.  Construction fails only with an exception of `std::stoi` raised by a shape
field; otherwise, and always when the open tag holds no `:`, the equation is built from the
text before the tag alone, in state WAITING and without dependencies.  Wherever in a code the
tag is opened, a scan that ends inside it has emitted nothing and resolved no coefficient
since the `#<`. -/
theorem create_unterminated_tag {Ref : Type} [DecidableEq Ref] (E : Externals Ref)
    (u : Indeterminate) (pre rest : List Char) (hpre : outsideText pre)
    (hno : ∀ c ∈ rest, c ≠ '>') :
    ((∃ e : StoiError, Equation.create E u (pre ++ '#' :: '<' :: rest) = .error e) ∨
      Equation.create E u (pre ++ '#' :: '<' :: rest) =
        .ok { state := .WAITING, isEmpty := allSpaces pre, eq := wrap pre, coefficients := [],
              worker := false, launched := 0, terminated := false }) ∧
    ((∀ c ∈ rest, c ≠ ':') →
      Equation.create E u (pre ++ '#' :: '<' :: rest) =
        .ok { state := .WAITING, isEmpty := allSpaces pre, eq := wrap pre, coefficients := [],
              worker := false, launched := 0, terminated := false }) ∧
    (∀ st s : ParseState Ref, st.inCoeff = false → scan E st ('#' :: '<' :: rest) = .ok s →
      s.inCoeff = true ∧ s.current = st.current ∧ s.coefficients = st.coefficients ∧
        s.requests = st.requests) := by
  have hscan : parseScan E u (pre ++ '#' :: '<' :: rest) =
      scan E { (ParseState.init u : ParseState Ref) with current := pre, inCoeff := true } rest := by
    unfold parseScan
    rw [scan_outside E pre _ hpre _ rfl, scan_open E _ _ rfl]
    simp [ParseState.init]
  have hok : ∀ s, scan E { (ParseState.init u : ParseState Ref) with
        current := pre, inCoeff := true } rest = .ok s →
      Equation.create E u (pre ++ '#' :: '<' :: rest) =
        .ok { state := .WAITING, isEmpty := allSpaces pre, eq := wrap pre, coefficients := [],
              worker := false, launched := 0, terminated := false } := by
    intro s hs
    obtain ⟨_, hcur, hco, _, _⟩ := scan_unterminated E rest hno _ s rfl hs
    unfold Equation.create
    rw [hscan, hs]
    simp only [Except.map, hcur, hco, ParseState.init]
  refine ⟨?_, ?_, ?_⟩
  · cases hs : scan E { (ParseState.init u : ParseState Ref) with
        current := pre, inCoeff := true } rest with
    | error e =>
      left
      refine ⟨e, ?_⟩
      unfold Equation.create
      rw [hscan, hs]; rfl
    | ok s => right; exact hok s hs
  · intro hcolon
    obtain ⟨s, hs⟩ := scan_inTag_total E rest.length rest (Nat.le_refl _)
      (fun c hc => ⟨hno c hc, hcolon c hc⟩)
      { (ParseState.init u : ParseState Ref) with current := pre, inCoeff := true } rfl
    exact hok s hs
  · intro st s hout hs
    rw [scan_open E st rest hout] at hs
    obtain ⟨h1, h2, h3, _, h5⟩ := scan_unterminated E rest hno _ s rfl hs
    exact ⟨h1, h2, h3, h5⟩

theorem create_unterminated_tag_witness :
    ((∃ e : StoiError, Equation.create keyRegistry ⟨0, 0, 0, 0⟩
        ("x ".toList ++ '#' :: '<' :: "a:1:0".toList) = .error e) ∨
      Equation.create keyRegistry ⟨0, 0, 0, 0⟩ ("x ".toList ++ '#' :: '<' :: "a:1:0".toList) =
        .ok { state := .WAITING, isEmpty := allSpaces "x ".toList, eq := wrap "x ".toList,
              coefficients := [], worker := false, launched := 0, terminated := false }) ∧
    ((∀ c ∈ "a:1:0".toList, c ≠ ':') →
      Equation.create keyRegistry ⟨0, 0, 0, 0⟩ ("x ".toList ++ '#' :: '<' :: "a:1:0".toList) =
        .ok { state := .WAITING, isEmpty := allSpaces "x ".toList, eq := wrap "x ".toList,
              coefficients := [], worker := false, launched := 0, terminated := false }) ∧
    (∀ st s : ParseState Request, st.inCoeff = false →
      scan keyRegistry st ('#' :: '<' :: "a:1:0".toList) = .ok s →
      s.inCoeff = true ∧ s.current = st.current ∧ s.coefficients = st.coefficients ∧
        s.requests = st.requests) :=
  create_unterminated_tag keyRegistry ⟨0, 0, 0, 0⟩ "x ".toList "a:1:0".toList
    (by unfold outsideText; decide) (by decide)

/-- C8 (as stated, refuted): the code `#<a:1:0` opens a tag and never closes it, and the
constructor returns an equation instead of failing. -/
theorem create_accepts_unterminated_tag :
    Equation.create keyRegistry ⟨0, 0, 0, 0⟩ "#<a:1:0".toList =
      .ok { state := .WAITING, isEmpty := true, eq := "subst = HomogeneousSystem():".toList,
            coefficients := [], worker := false, launched := 0, terminated := false } ∧
    (∀ c ∈ "a:1:0".toList, c ≠ '>') :=
  ⟨rfl, by decide⟩

theorem infix_of_cons {c : Char} {rest : List Char} (h : ¬ (['#', '<'] <:+: c :: rest)) :
    ¬ (['#', '<'] <:+: rest) :=
  fun hr => h (hr.trans (List.suffix_cons c rest).isInfix)

/-- Outside a tag, a code without `#<` is copied up to the first `//`. -/
theorem scan_without_tag {Ref : Type} [DecidableEq Ref] (E : Externals Ref) (code : List Char) :
    ¬ (['#', '<'] <:+: code) → ∀ (st : ParseState Ref), st.inCoeff = false →
      scan E st code = .ok { st with current := st.current ++ beforeComment code } := by
  induction code with
  | nil => intro _ st _; simp [scan, beforeComment]
  | cons c rest ih =>
    intro hno st hout
    by_cases hcom : c = '/' ∧ rest.head? = some '/'
    · have : step E st c rest.head? = .ok .stop := by unfold step; simp [hcom]
      rw [scan, this]
      simp [beforeComment, hcom]
    · have hopen : ¬ (c = '#' ∧ rest.head? = some '<') := by
        rintro ⟨h1, h2⟩
        apply hno
        cases rest with
        | nil => simp at h2
        | cons c2 rest1 =>
          simp only [List.head?_cons, Option.some.injEq] at h2
          subst h1 h2
          exact (List.prefix_append ['#', '<'] rest1).isInfix
      have hs : step E st c rest.head? = .ok (.next { st with current := st.current ++ [c] }) := by
        unfold step
        simp only [hcom, if_false, hout, if_true, hopen]
      rw [scan_cons_next E st _ c rest hs,
        ih (infix_of_cons hno) { st with current := st.current ++ [c] } hout]
      simp [beforeComment, hcom]

theorem allSpaces_iff (s : List Char) : allSpaces s = true ↔ ∀ c ∈ s, c = ' ' := by
  induction s with
  | nil => simp [allSpaces]
  | cons c cs ih =>
    by_cases hc : c = ' '
    · simp [allSpaces, hc, ih]
    · simp [allSpaces, hc]

/-- C10 (amended): for a code that contains no coefficient tag the constructor succeeds, the
equation is in state WAITING and has no dependencies, its body is the code up to the first
`//`, and `IsEmpty()` is true exactly when that body consists of space characters only. -/
theorem create_without_tag {Ref : Type} [DecidableEq Ref] (E : Externals Ref) (u : Indeterminate)
    (code : List Char) (hno : ¬ (['#', '<'] <:+: code)) :
    Equation.create E u code =
      .ok { state := .WAITING, isEmpty := allSpaces (beforeComment code),
            eq := wrap (beforeComment code), coefficients := [], worker := false,
            launched := 0, terminated := false } ∧
    (allSpaces (beforeComment code) = true ↔ ∀ c ∈ beforeComment code, c = ' ') := by
  refine ⟨?_, allSpaces_iff _⟩
  unfold Equation.create parseScan
  rw [scan_without_tag E code hno _ rfl]
  simp [Except.map, ParseState.init]

theorem create_without_tag_witness :
    Equation.create keyRegistry ⟨0, 0, 0, 0⟩ "  // x".toList =
      .ok { state := .WAITING, isEmpty := allSpaces (beforeComment "  // x".toList),
            eq := wrap (beforeComment "  // x".toList), coefficients := [], worker := false,
            launched := 0, terminated := false } ∧
    (allSpaces (beforeComment "  // x".toList) = true ↔
      ∀ c ∈ beforeComment "  // x".toList, c = ' ') :=
  create_without_tag keyRegistry ⟨0, 0, 0, 0⟩ "  // x".toList (by decide)

/-- C10 (as stated, refuted): the code `x` contains no coefficient tag, and the constructed
equation has `IsEmpty() == false`. -/
theorem create_without_tag_not_empty :
    ¬ (['#', '<'] <:+: "x".toList) ∧
    Equation.create keyRegistry ⟨0, 0, 0, 0⟩ "x".toList =
      .ok { state := .WAITING, isEmpty := false, eq := "subst = HomogeneousSystem(x):".toList,
            coefficients := [], worker := false, launched := 0, terminated := false } :=
  ⟨by decide, rfl⟩


/-! ### The completion callback -/

theorem allFinished_iff {Ref : Type} (finished : Ref → Bool) (l : List Ref) :
    allFinished finished l = true ↔ ∀ c ∈ l, finished c = true := by
  induction l with
  | nil => simp [allFinished]
  | cons a t ih =>
    cases h : finished a <;> simp [allFinished, h, ih]

theorem onCoefficientCalculated_unfinished {Ref : Type} (finished : Ref → Bool)
    (eq : Equation Ref) (h : ∃ c ∈ eq.coefficients, finished c = false) :
    eq.OnCoefficientCalculated finished = eq := by
  unfold Equation.OnCoefficientCalculated
  have : ¬ (allFinished finished eq.coefficients = true) := by
    rw [allFinished_iff]
    obtain ⟨c, hc, hf⟩ := h
    intro hall
    rw [hall c hc] at hf; cases hf
  simp [this]

theorem onCoefficientCalculated_finished {Ref : Type} (finished : Ref → Bool)
    (eq : Equation Ref) (h : ∀ c ∈ eq.coefficients, finished c = true) :
    eq.OnCoefficientCalculated finished =
      { eq with worker := true, launched := eq.launched + 1,
                terminated := eq.terminated || eq.worker } := by
  unfold Equation.OnCoefficientCalculated
  simp [(allFinished_iff finished eq.coefficients).2 h]

/-- C6: `OnCoefficientCalculated` starts the worker exactly when every coefficient on the
dependency list is finished at the time of the call; when one is unfinished the equation is
returned as it was (state, worker and dependency list included). -/
theorem onCoefficientCalculated_launch_iff {Ref : Type} (finished : Ref → Bool)
    (eq : Equation Ref) :
    ((eq.OnCoefficientCalculated finished).launched = eq.launched + 1 ↔
      ∀ c ∈ eq.coefficients, finished c = true) ∧
    ((∀ c ∈ eq.coefficients, finished c = true) →
      (eq.OnCoefficientCalculated finished).worker = true ∧
      (eq.OnCoefficientCalculated finished).state = eq.state ∧
      (eq.OnCoefficientCalculated finished).coefficients = eq.coefficients) ∧
    ((∃ c ∈ eq.coefficients, finished c = false) → eq.OnCoefficientCalculated finished = eq) := by
  refine ⟨⟨?_, ?_⟩, ?_, onCoefficientCalculated_unfinished finished eq⟩
  · intro hl
    by_contra hnot
    have hex : ∃ c ∈ eq.coefficients, finished c = false := by
      by_contra hne
      apply hnot
      intro c hc
      cases hf : finished c with
      | true => rfl
      | false => exact absurd ⟨c, hc, hf⟩ hne
    rw [onCoefficientCalculated_unfinished finished eq hex] at hl
    omega
  · intro hall
    rw [onCoefficientCalculated_finished finished eq hall]
  · intro hall
    rw [onCoefficientCalculated_finished finished eq hall]
    exact ⟨rfl, rfl, rfl⟩

/-! ### Completions in any order -/

theorem completeAll_world {Ref T : Type} [DecidableEq Ref] (order : List Ref) :
    ∀ (p : Equation Ref × World Ref T),
      (completeAll p order).2 =
        { p.2 with finished := fun x => if x ∈ order then true else p.2.finished x } := by
  induction order with
  | nil => intro p; simp [completeAll]
  | cons c cs ih =>
    intro p
    have := ih (complete p c)
    unfold completeAll at this ⊢
    rw [List.foldl_cons, this]
    simp only [complete]
    congr 1
    funext x
    by_cases hx : x ∈ cs
    · simp [hx]
    · by_cases hxc : x = c
      · subst hxc; simp [hx]
      · simp [hx, hxc, Function.update_noteq hxc]

/-- While some dependency stays unfinished, completions leave the equation as it was. -/
theorem completeAll_unchanged {Ref T : Type} [DecidableEq Ref] (d : Ref) (order : List Ref) :
    ∀ (p : Equation Ref × World Ref T), d ∈ p.1.coefficients → p.2.finished d = false →
      d ∉ order → (completeAll p order).1 = p.1 := by
  induction order with
  | nil => intro p _ _ _; rfl
  | cons c cs ih =>
    intro p hd hf hno
    have hdc : d ≠ c := fun h => hno (by simp [h])
    have hdcs : d ∉ cs := fun h => hno (by simp [h])
    have hstep : (complete p c).1 = p.1 := by
      simp only [complete]
      exact (onCoefficientCalculated_unfinished _ _ ⟨d, hd, by
        simp [Function.update_noteq hdc, hf]⟩)
    have hw : (complete p c).2.finished d = false := by
      simp [complete, Function.update_noteq hdc, hf]
    have := ih (complete p c) (by rw [hstep]; exact hd) hw hdcs
    unfold completeAll at this ⊢
    rw [List.foldl_cons, this, hstep]

theorem completeAll_append {Ref T : Type} [DecidableEq Ref] (p : Equation Ref × World Ref T)
    (a b : List Ref) : completeAll p (a ++ b) = completeAll (completeAll p a) b := by
  unfold completeAll; rw [List.foldl_append]

/-- The last of the completions starts the worker. -/
theorem completeAll_last {Ref T : Type} [DecidableEq Ref] (p : Equation Ref × World Ref T)
    (front : List Ref) (last : Ref) (hnodup : (front ++ [last]).Nodup)
    (hcov : ∀ c ∈ p.1.coefficients, c ∈ front ++ [last])
    (hlast : last ∈ p.1.coefficients) (hf : p.2.finished last = false) :
    (completeAll p front).1 = p.1 ∧
    (completeAll p (front ++ [last])).1 =
      { p.1 with worker := true, launched := p.1.launched + 1,
                 terminated := p.1.terminated || p.1.worker } := by
  have hnot : last ∉ front := by
    intro h
    have := List.nodup_append.1 hnodup
    exact this.2.2 h (List.mem_singleton_self last)
  have h1 := completeAll_unchanged last front p hlast hf hnot
  refine ⟨h1, ?_⟩
  rw [completeAll_append]
  have hw := completeAll_world front p
  show (complete (completeAll p front) last).1 = _
  simp only [complete]
  rw [h1, onCoefficientCalculated_finished]
  intro c hc
  rw [hw]
  by_cases hcl : c = last
  · subst hcl; simp
  · have := hcov c hc
    have hcf : c ∈ front := by simpa [hcl] using this
    simp [Function.update_noteq hcl, hcf]

/-- The equation and the world after all dependencies completed, in whatever order. -/
theorem completeAll_perm {Ref T : Type} [DecidableEq Ref] (eq : Equation Ref) (w : World Ref T)
    (order : List Ref) (hnodup : eq.coefficients.Nodup) (hne : eq.coefficients ≠ [])
    (hperm : order.Perm eq.coefficients)
    (hunfinished : ∀ c ∈ eq.coefficients, w.finished c = false) :
    completeAll (eq, w) order =
      ({ eq with worker := true, launched := eq.launched + 1,
                 terminated := eq.terminated || eq.worker },
       { w with finished := fun x => if x ∈ eq.coefficients then true else w.finished x }) := by
  have hone : order ≠ [] := by
    intro h; subst h
    exact hne (List.Perm.nil_eq hperm).symm
  have hsplit := List.dropLast_append_getLast hone
  have hnd : (order.dropLast ++ [order.getLast hone]).Nodup := by
    rw [hsplit]; exact hperm.nodup_iff.2 hnodup
  have hlast : order.getLast hone ∈ eq.coefficients :=
    hperm.mem_iff.1 (List.getLast_mem hone)
  have h := completeAll_last (eq, w) order.dropLast (order.getLast hone) hnd
    (by intro c hc; rw [hsplit]; exact hperm.mem_iff.2 hc) hlast (hunfinished _ hlast)
  rw [hsplit] at h
  have hw := completeAll_world order (eq, w)
  refine Prod.ext h.2 ?_
  rw [hw]
  simp only
  congr 1
  funext x
  simp only [hperm.mem_iff]

/-- C7: for an equation in state WAITING with N distinct, unfinished dependencies (N at least
one) and every order in which they complete, the equation is untouched (WAITING, no worker)
after fewer than N completions, the worker is started exactly once, at the N-th completion,
and the outcome of the solve is SOLVED and the same for every order. -/
theorem completions_in_any_order {Ref T Subst : Type} [DecidableEq Ref]
    (X : SolveExternals Ref T Subst) (eq : Equation Ref) (w : World Ref T) (order : List Ref)
    (hnodup : eq.coefficients.Nodup) (hne : eq.coefficients ≠ [])
    (hperm : order.Perm eq.coefficients)
    (hstate : eq.state = .WAITING) (hworker : eq.worker = false) (hlaunched : eq.launched = 0)
    (hunfinished : ∀ c ∈ eq.coefficients, w.finished c = false) :
    (∀ k, k < eq.coefficients.length →
      (completeAll (eq, w) (order.take k)).1.state = .WAITING ∧
      (completeAll (eq, w) (order.take k)).1.worker = false ∧
      (completeAll (eq, w) (order.take k)).1.launched = 0) ∧
    (completeAll (eq, w) order).1.state = .WAITING ∧
    (completeAll (eq, w) order).1.worker = true ∧
    (completeAll (eq, w) order).1.launched = 1 ∧
    (completeAll (eq, w) order).1.terminated = eq.terminated ∧
    (runWorker X (completeAll (eq, w) order)).1.state = .SOLVED ∧
    runWorker X (completeAll (eq, w) order) =
      runWorker X (completeAll (eq, w) eq.coefficients) := by
  have hall := completeAll_perm eq w order hnodup hne hperm hunfinished
  have hself := completeAll_perm eq w eq.coefficients hnodup hne (List.Perm.refl _) hunfinished
  have hlen : order.length = eq.coefficients.length := hperm.length_eq
  have hond : order.Nodup := hperm.nodup_iff.2 hnodup
  refine ⟨?_, ?_, ?_, ?_, ?_, ?_, ?_⟩
  · intro k hk
    have hk2 : k < order.length := by omega
    have hd : order.get ⟨k, hk2⟩ ∉ order.take k := by
      intro hmem
      obtain ⟨i, hi, hget⟩ := List.getElem_of_mem hmem
      rw [List.getElem_take] at hget
      have hik : i < k := by
        rw [List.length_take] at hi; omega
      have hi2 : i < order.length := by omega
      have := (@List.Nodup.getElem_inj_iff _ order hond i hi2 k hk2).1 hget
      omega
    have hin : order.get ⟨k, hk2⟩ ∈ eq.coefficients := hperm.mem_iff.1 (List.get_mem _ _ _)
    have := completeAll_unchanged (order.get ⟨k, hk2⟩) (order.take k) (eq, w) hin
      (hunfinished _ hin) hd
    rw [this]
    exact ⟨hstate, hworker, hlaunched⟩
  · rw [hall]; exact hstate
  · rw [hall]
  · rw [hall]; simp [hlaunched]
  · rw [hall]; simp [hworker]
  · rw [hall]; simp [runWorker, Equation.Solve, Equation.solveBegin]
  · rw [hall, hself]

theorem completions_in_any_order_witness :
    (∀ k, k < threeDeps.coefficients.length →
      (completeAll (threeDeps, idleWorld) (([3, 1, 2] : List Nat).take k)).1.state = .WAITING ∧
      (completeAll (threeDeps, idleWorld) (([3, 1, 2] : List Nat).take k)).1.worker = false ∧
      (completeAll (threeDeps, idleWorld) (([3, 1, 2] : List Nat).take k)).1.launched = 0) ∧
    (completeAll (threeDeps, idleWorld) [3, 1, 2]).1.state = .WAITING ∧
    (completeAll (threeDeps, idleWorld) [3, 1, 2]).1.worker = true ∧
    (completeAll (threeDeps, idleWorld) [3, 1, 2]).1.launched = 1 ∧
    (completeAll (threeDeps, idleWorld) [3, 1, 2]).1.terminated = threeDeps.terminated ∧
    (runWorker addSolver (completeAll (threeDeps, idleWorld) [3, 1, 2])).1.state = .SOLVED ∧
    runWorker addSolver (completeAll (threeDeps, idleWorld) [3, 1, 2]) =
      runWorker addSolver (completeAll (threeDeps, idleWorld) threeDeps.coefficients) :=
  completions_in_any_order addSolver threeDeps idleWorld [3, 1, 2] (by decide) (by decide)
    (by decide) rfl rfl rfl (fun _ _ => rfl)


/-! ### The empty flag -/

/-- C11 (amended): after Parse of any code, `isEmpty` is true if and only if the rewritten
body consists of space characters only (or of nothing); the stored command wraps that body. -/
theorem create_isEmpty_iff {Ref : Type} [DecidableEq Ref] (E : Externals Ref) (u : Indeterminate)
    (code : List Char) (e : Equation Ref) (h : Equation.create E u code = .ok e) :
    ∃ st : ParseState Ref, parseScan E u code = .ok st ∧ e.eq = wrap st.current ∧
      (e.isEmpty = true ↔ ∀ c ∈ st.current, c = ' ') := by
  unfold Equation.create at h
  cases hs : parseScan E u code with
  | error err => rw [hs] at h; simp [Except.map] at h
  | ok st =>
    rw [hs] at h
    simp only [Except.map, Except.ok.injEq] at h
    subst h
    exact ⟨st, rfl, rfl, allSpaces_iff st.current⟩

theorem create_isEmpty_iff_witness :
    ∃ st : ParseState Request, parseScan keyRegistry ⟨0, 0, 0, 0⟩ "  ".toList = .ok st ∧
      blankEquation.eq = wrap st.current ∧
      (blankEquation.isEmpty = true ↔ ∀ c ∈ st.current, c = ' ') :=
  create_isEmpty_iff keyRegistry ⟨0, 0, 0, 0⟩ "  ".toList blankEquation rfl

/-- C11 (as stated, refuted): the code consisting of one tab has a rewritten body of white
space only, and its equation has `isEmpty = false`. -/
theorem create_tab_not_empty :
    Equation.create keyRegistry ⟨0, 0, 0, 0⟩ ['\t'] =
      .ok { state := .WAITING, isEmpty := false, eq := wrap ['\t'], coefficients := [],
            worker := false, launched := 0, terminated := false } ∧
    parseScan keyRegistry ⟨0, 0, 0, 0⟩ ['\t'] =
      .ok { (ParseState.init ⟨0, 0, 0, 0⟩ : ParseState Request) with current := ['\t'] } ∧
    (∀ c ∈ ['\t'], isBlank c = true) :=
  ⟨rfl, rfl, by decide⟩

/-! ### Comments -/

/-- The body of the loop does not tell the code from its part before the comment. -/
theorem step_beforeComment {Ref : Type} [DecidableEq Ref] (E : Externals Ref)
    (st : ParseState Ref) (c : Char) (rest : List Char)
    (hc : ¬ (c = '/' ∧ rest.head? = some '/')) :
    step E st c (beforeComment rest).head? = step E st c rest.head? := by
  cases rest with
  | nil => rfl
  | cons d rest1 =>
    by_cases hd : d = '/' ∧ rest1.head? = some '/'
    · have hcs : c ≠ '/' := fun h => hc ⟨h, by simp [hd.1]⟩
      simp only [beforeComment, hd, and_self, if_true, List.head?_nil, List.head?_cons]
      unfold step
      simp [hcs]
    · simp only [beforeComment, hd, if_false, List.head?_cons]

/-- The next character is skipped only behind `#<`. -/
theorem step_skip {Ref : Type} [DecidableEq Ref] (E : Externals Ref) (st : ParseState Ref)
    (c : Char) (nxt : Option Char) (s : ParseState Ref) (h : step E st c nxt = .ok (.skip s)) :
    c = '#' ∧ nxt = some '<' := by
  unfold step at h
  by_cases h1 : c = '/' ∧ nxt = some '/'
  · simp [h1] at h
  · by_cases h2 : st.inCoeff = false
    · by_cases h3 : c = '#' ∧ nxt = some '<'
      · exact h3
      · simp [h1, h2, h3] at h
    · by_cases h4 : c = ':'
      · cases hcf : closeField st <;> simp [h1, h2, h4, hcf, Except.map] at h
      · by_cases h5 : c = '>'
        · simp [h1, h2, h4, h5] at h
        · simp [h1, h2, h4, h5] at h

theorem scan_beforeComment_aux {Ref : Type} [DecidableEq Ref] (E : Externals Ref) (n : Nat) :
    ∀ (code : List Char), code.length ≤ n → ∀ st : ParseState Ref,
      scan E st (beforeComment code) = scan E st code := by
  induction n with
  | zero =>
    intro code hlen st
    have : code = [] := List.length_eq_zero.mp (Nat.le_zero.mp hlen)
    subst this; rfl
  | succ n ih =>
    intro code hlen st
    cases code with
    | nil => rfl
    | cons c rest =>
      simp only [List.length_cons, Nat.succ_le_succ_iff] at hlen
      by_cases hc : c = '/' ∧ rest.head? = some '/'
      · have hstep : step E st c rest.head? = .ok .stop := by unfold step; simp [hc]
        have hb : beforeComment (c :: rest) = [] := by simp [beforeComment, hc]
        rw [hb, scan, scan, hstep]
      · simp only [beforeComment, hc, if_false]
        rw [scan, scan, step_beforeComment E st c rest hc]
        cases hs : step E st c rest.head? with
        | error e => rfl
        | ok r =>
          cases r with
          | stop => rfl
          | next s1 => exact ih rest hlen s1
          | skip s1 =>
            cases rest with
            | nil => rfl
            | cons d rest1 =>
              have hd : d = '<' := by
                have := (step_skip E st c _ s1 hs).2
                simpa using this
              subst hd
              have hb : beforeComment ('<' :: rest1) = '<' :: beforeComment rest1 := by
                simp [beforeComment]
              rw [hb]
              exact ih rest1 (by simp at hlen; omega) s1

theorem scan_beforeComment {Ref : Type} [DecidableEq Ref] (E : Externals Ref) (code : List Char)
    (st : ParseState Ref) : scan E st (beforeComment code) = scan E st code :=
  scan_beforeComment_aux E code.length code (Nat.le_refl _) st

/-- The part before the comment of a code whose first `//` stands right behind `pre`. -/
theorem beforeComment_append (pre post : List Char)
    (h : ¬ (['/', '/'] <:+: pre ++ ['/'])) : beforeComment (pre ++ '/' :: '/' :: post) = pre := by
  induction pre with
  | nil => simp [beforeComment]
  | cons c cs ih =>
    have hcs : ¬ (['/', '/'] <:+: cs ++ ['/']) :=
      fun hi => h (hi.trans (List.suffix_cons c (cs ++ ['/'])).isInfix)
    have hc : ¬ (c = '/' ∧ (cs ++ '/' :: '/' :: post).head? = some '/') := by
      rintro ⟨h1, h2⟩
      apply h
      cases cs with
      | nil => subst h1; exact List.infix_refl _
      | cons d ds =>
        simp only [List.cons_append, List.head?_cons, Option.some.injEq] at h2
        subst h1 h2
        exact (List.prefix_append ['/', '/'] (ds ++ ['/'])).isInfix
    rw [List.cons_append, beforeComment, if_neg hc, ih hcs]

/-- C12: when the first `//` of a code stands right behind `pre`, Parse of the code gives what
Parse of `pre` gives: the same locals after the scan (rewritten expression and dependency
list included) or the same failure, and the same constructed equation (`isEmpty`
included). -/
theorem parse_discards_comment {Ref : Type} [DecidableEq Ref] (E : Externals Ref)
    (u : Indeterminate) (pre post : List Char) (h : ¬ (['/', '/'] <:+: pre ++ ['/'])) :
    parseScan E u (pre ++ '/' :: '/' :: post) = parseScan E u pre ∧
    Equation.create E u (pre ++ '/' :: '/' :: post) = Equation.create E u pre := by
  have hs : parseScan E u (pre ++ '/' :: '/' :: post) = parseScan E u pre := by
    unfold parseScan
    rw [← scan_beforeComment E (pre ++ '/' :: '/' :: post), beforeComment_append pre post h]
  exact ⟨hs, by unfold Equation.create; rw [hs]⟩

theorem parse_discards_comment_witness :
    parseScan keyRegistry ⟨0, 0, 0, 0⟩ ("a/#<b:1:0:2:0:c>".toList ++ '/' :: '/' :: "#<d:".toList)
      = parseScan keyRegistry ⟨0, 0, 0, 0⟩ "a/#<b:1:0:2:0:c>".toList ∧
    Equation.create keyRegistry ⟨0, 0, 0, 0⟩
        ("a/#<b:1:0:2:0:c>".toList ++ '/' :: '/' :: "#<d:".toList)
      = Equation.create keyRegistry ⟨0, 0, 0, 0⟩ "a/#<b:1:0:2:0:c>".toList :=
  parse_discards_comment keyRegistry ⟨0, 0, 0, 0⟩ "a/#<b:1:0:2:0:c>".toList "#<d:".toList
    (by decide)

/-! ### The text emitted for a tag -/

theorem closeTag_current {Ref : Type} [DecidableEq Ref] (E : Externals Ref)
    (st : ParseState Ref) :
    (closeTag E st).current =
      st.current ++ rewriteOf E (canonicalRequest st.l st.ld st.r st.rd st.id) st.temp := by
  unfold closeTag canonicalRequest rewriteOf resolve
  cases h : swapNeeded st.l st.ld st.r st.rd <;> simp

theorem tokenTail_plain (tok : List Char) (h : ∀ x ∈ tok, x ≠ ':') :
    ∀ temp, tokenTail temp tok = temp ++ tok := by
  induction tok with
  | nil => intro temp; simp [tokenTail]
  | cons c cs ih =>
    intro temp
    have hc : c ≠ ':' := h c (by simp)
    rw [tokenTail, if_neg hc, ih (fun x hx => h x (by simp [hx]))]
    simp

/-- Inside a tag, behind the fifth `:`, the characters up to the closing `>` are collected
in `temp`, which every further `:` clears. -/
theorem scan_token {Ref : Type} [DecidableEq Ref] (E : Externals Ref) (rest : List Char)
    (tok : List Char) : ∀ (st : ParseState Ref), st.inCoeff = true → 5 ≤ st.mode →
      st.mode + tok.count ':' < 4294967296 → (∀ x ∈ tok, x ≠ '>') →
      ¬ (['/', '/'] <:+: tok) →
      scan E st (tok ++ '>' :: rest) =
        scan E (closeTag E { st with temp := tokenTail st.temp tok,
                                     mode := st.mode + tok.count ':' }) rest := by
  induction tok with
  | nil =>
    intro st hin _ _ _ _
    simp only [List.nil_append, tokenTail, List.count_nil, Nat.add_zero]
    exact scan_close E st rest hin
  | cons c cs ih =>
    intro st hin hmode hcount hgt hcom
    have hc : c ≠ '>' := hgt c (by simp)
    have hcs : ¬ (['/', '/'] <:+: cs) :=
      fun hi => hcom (hi.trans (List.suffix_cons c cs).isInfix)
    have hnocom : ¬ (c = '/' ∧ (cs ++ '>' :: rest).head? = some '/') := by
      rintro ⟨h1, h2⟩
      apply hcom
      cases cs with
      | nil => simp at h2
      | cons d ds =>
        simp only [List.cons_append, List.head?_cons, Option.some.injEq] at h2
        subst h1 h2
        exact (List.prefix_append ['/', '/'] ds).isInfix
    by_cases hcol : c = ':'
    · subst hcol
      have hcount1 : st.mode + 1 + cs.count ':' < 4294967296 := by
        simp only [List.count_cons_self] at hcount; omega
      rw [List.cons_append, scan_colon E st _ hin]
      have hcf : closeField st =
          .ok { st with temp := [], mode := st.mode + 1 } := by
        unfold closeField
        have h0 : ¬ st.mode = 0 := by omega
        have h1 : ¬ st.mode = 1 := by omega
        have h2 : ¬ st.mode = 2 := by omega
        have h3 : ¬ st.mode = 3 := by omega
        have h4 : ¬ st.mode = 4 := by omega
        have hm : (st.mode + 1) % 4294967296 = st.mode + 1 := Nat.mod_eq_of_lt (by omega)
        simp only [h0, h1, h2, h3, h4, if_false, hm]
      rw [hcf]
      simp only
      rw [ih { st with temp := [], mode := st.mode + 1 } hin (by simp; omega)
        (by simpa using hcount1) (fun x hx => hgt x (by simp [hx])) hcs]
      simp only [tokenTail, if_true, List.count_cons_self]
      congr 2
      simp only [ParseState.mk.injEq, true_and, and_true]
      omega
    · have hs : step E st c (cs ++ '>' :: rest).head? =
          .ok (.next { st with temp := st.temp ++ [c] }) := by
        unfold step
        simp only [hnocom, if_false, hin, Bool.true_eq_false, hcol, hc]
      have hcnt : (c :: cs).count ':' = cs.count ':' := by
        rw [List.count_cons_of_ne (Ne.symm hcol)]
      rw [hcnt] at hcount ⊢
      rw [List.cons_append, scan_cons_next E st _ c _ hs,
        ih { st with temp := st.temp ++ [c] } hin hmode hcount
          (fun x hx => hgt x (by simp [hx])) hcs]
      simp only [tokenTail, if_neg hcol]

/-- The scan of a tag from `#<` to its fifth `:`. -/
theorem scan_tag_head {Ref : Type} [DecidableEq Ref] (E : Externals Ref) (st : ParseState Ref)
    (id f1 f2 f3 f4 tail : List Char)
    (hout : st.inCoeff = false) (hmode : st.mode = 0) (htemp : st.temp = [])
    (hid : plainText id) (h1 : plainText f1) (h2 : plainText f2) (h3 : plainText f3)
    (h4 : plainText f4) :
    scan E st ('#' :: '<' :: (id ++ ':' :: (f1 ++ ':' :: (f2 ++ ':' :: (f3 ++ ':' ::
        (f4 ++ ':' :: tail)))))) =
      match readShape f1 f2 f3 f4 with
      | .error e => .error e
      | .ok (a, b, c, d) =>
        scan E { st with inCoeff := true, id := id, l := a, ld := b, r := c, rd := d,
                         mode := 5, temp := [] } tail := by
  unfold readShape
  rw [scan_open E st _ hout, scan_plain_inTag E id _ hid _ rfl, scan_colon E _ _ rfl]
  simp only [closeField, hmode, htemp, if_true, List.nil_append]
  rw [scan_plain_inTag E f1 _ h1 _ rfl, scan_colon E _ _ rfl]
  cases hs1 : stoi f1 with
  | error e => simp [closeField, Except.map, hs1]
  | ok a =>
    simp only [closeField, Except.map, hs1, List.nil_append]
    norm_num
    rw [scan_plain_inTag E f2 _ h2 _ rfl, scan_colon E _ _ rfl]
    cases hs2 : stoi f2 with
    | error e => simp [closeField, Except.map, hs2]
    | ok b =>
      simp only [closeField, Except.map, hs2, List.nil_append]
      norm_num
      rw [scan_plain_inTag E f3 _ h3 _ rfl, scan_colon E _ _ rfl]
      cases hs3 : stoi f3 with
      | error e => simp [closeField, Except.map, hs3]
      | ok c =>
        simp only [closeField, Except.map, hs3, List.nil_append]
        norm_num
        rw [scan_plain_inTag E f4 _ h4 _ rfl, scan_colon E _ _ rfl]
        cases hs4 : stoi f4 with
        | error e => simp [closeField, Except.map, hs4]
        | ok d =>
          simp only [closeField, Except.map, hs4, List.nil_append]
          norm_num

/-- C13 (amended): for a closed tag `#<id:f1:f2:f3:f4:tok>` whose id and shape fields hold
no `:`, `>` or `/` and convert, and whose `tok` holds no `>` and no `//`, the text Parse
appends to the rewritten expression is the `RenameIndices` call on the name of the resolved
coefficient with the generated labels, followed by the part of `tok` behind its last `:`,
which is `tok` itself when `tok` holds no `:`. -/
theorem tag_rewrite {Ref : Type} [DecidableEq Ref] (E : Externals Ref) (st : ParseState Ref)
    (id f1 f2 f3 f4 tok rest : List Char) (a b c d : Nat)
    (hout : st.inCoeff = false) (hmode : st.mode = 0) (htemp : st.temp = [])
    (hid : plainText id) (h1 : plainText f1) (h2 : plainText f2) (h3 : plainText f3)
    (h4 : plainText f4) (hshape : readShape f1 f2 f3 f4 = .ok (a, b, c, d))
    (hgt : ∀ x ∈ tok, x ≠ '>') (hcom : ¬ (['/', '/'] <:+: tok))
    (hcount : tok.count ':' < 4294967291) :
    scan E st (tagText id f1 f2 f3 f4 tok ++ rest) =
      scan E (closeTag E { st with inCoeff := true, id := id, l := a, ld := b, r := c, rd := d,
                                   mode := 5 + tok.count ':', temp := tokenTail [] tok }) rest ∧
    (closeTag E { st with inCoeff := true, id := id, l := a, ld := b, r := c, rd := d,
                          mode := 5 + tok.count ':', temp := tokenTail [] tok }).current =
      st.current ++ rewriteOf E (canonicalRequest a b c d id) (tokenTail [] tok) ∧
    ((∀ x ∈ tok, x ≠ ':') → tokenTail [] tok = tok) := by
  refine ⟨?_, ?_, ?_⟩
  · unfold tagText
    simp only [List.cons_append, List.append_assoc]
    rw [scan_tag_head E st id f1 f2 f3 f4 _ hout hmode htemp hid h1 h2 h3 h4, hshape]
    simp only [List.nil_append]
    exact scan_token E rest tok
      { st with inCoeff := true, id := id, l := a, ld := b, r := c, rd := d, mode := 5,
                temp := [] } rfl (Nat.le_refl 5) (by show 5 + tok.count ':' < 4294967296; omega)
      hgt hcom
  · rw [closeTag_current]
  · intro h
    rw [tokenTail_plain tok h]; rfl

theorem tag_rewrite_witness :
    scan keyRegistry (ParseState.init ⟨0, 0, 0, 0⟩)
        (tagText "a".toList "1".toList "0".toList "2".toList "0".toList "x/y:z".toList ++
          "+1".toList) =
      scan keyRegistry (closeTag keyRegistry
        { (ParseState.init ⟨0, 0, 0, 0⟩ : ParseState Request) with
          inCoeff := true, id := "a".toList, l := 1, ld := 0, r := 2, rd := 0,
          mode := 5 + "x/y:z".toList.count ':', temp := tokenTail [] "x/y:z".toList })
        "+1".toList ∧
    (closeTag keyRegistry
        { (ParseState.init ⟨0, 0, 0, 0⟩ : ParseState Request) with
          inCoeff := true, id := "a".toList, l := 1, ld := 0, r := 2, rd := 0,
          mode := 5 + "x/y:z".toList.count ':', temp := tokenTail [] "x/y:z".toList }).current =
      (ParseState.init ⟨0, 0, 0, 0⟩ : ParseState Request).current ++
        rewriteOf keyRegistry (canonicalRequest 1 0 2 0 "a".toList)
          (tokenTail [] "x/y:z".toList) ∧
    ((∀ x ∈ "x/y:z".toList, x ≠ ':') → tokenTail [] "x/y:z".toList = "x/y:z".toList) :=
  tag_rewrite keyRegistry (ParseState.init ⟨0, 0, 0, 0⟩) "a".toList "1".toList "0".toList
    "2".toList "0".toList "x/y:z".toList "+1".toList 1 0 2 0 rfl rfl rfl
    (by unfold plainText; decide) (by unfold plainText; decide) (by unfold plainText; decide)
    (by unfold plainText; decide) (by unfold plainText; decide) rfl (by decide) (by decide)
    (by decide)

/-- C13 (as stated, refuted): in the closed tag `#<a:1:0:2:0:x:y>` the characters between the
fifth `:` and the `>` are `x:y`, and the emitted call ends with `y` only. -/
theorem tag_rewrite_drops_before_colon :
    ∃ st : ParseState Request,
      parseScan keyRegistry ⟨0, 0, 0, 0⟩ "#<a:1:0:2:0:x:y>".toList = .ok st ∧
      st.current = "RenameIndices(a, \x7ba b c\x7d, y)".toList ∧
      st.current ≠ "RenameIndices(a, \x7ba b c\x7d, x:y)".toList :=
  ⟨_, rfl, rfl, by decide⟩

/-! ### The dependency list -/

theorem mem_firstOccurrences {α : Type} [DecidableEq α] (xs : List α) (y : α) :
    y ∈ firstOccurrences xs ↔ y ∈ xs := by
  induction xs with
  | nil => simp [firstOccurrences]
  | cons a xs ih =>
    simp only [firstOccurrences, List.mem_cons, List.mem_filter, ih, decide_eq_true_eq]
    by_cases h : y = a <;> simp [h]

theorem nodup_firstOccurrences {α : Type} [DecidableEq α] (xs : List α) :
    (firstOccurrences xs).Nodup := by
  induction xs with
  | nil => simp [firstOccurrences]
  | cons a xs ih =>
    simp only [firstOccurrences, List.nodup_cons, List.mem_filter, decide_eq_true_eq]
    exact ⟨fun h => h.2 rfl, ih.filter _⟩

/-- Appending an element: it joins the first occurrences unless it was met before. -/
theorem firstOccurrences_append_singleton {α : Type} [DecidableEq α] (xs : List α) (x : α) :
    firstOccurrences (xs ++ [x]) =
      if x ∈ xs then firstOccurrences xs else firstOccurrences xs ++ [x] := by
  induction xs with
  | nil => simp [firstOccurrences]
  | cons a xs ih =>
    have hunf : firstOccurrences (a :: xs ++ [x]) =
        a :: (firstOccurrences (xs ++ [x])).filter fun y => y ≠ a := rfl
    have hunf2 : firstOccurrences (a :: xs) =
        a :: (firstOccurrences xs).filter fun y => y ≠ a := rfl
    rw [hunf, ih, hunf2]
    by_cases hx : x ∈ xs
    · simp [hx]
    · by_cases hxa : x = a
      · subst hxa; simp [hx, List.filter_append]
      · simp [hx, hxa, List.filter_append]

theorem found_iff {Ref : Type} [DecidableEq Ref] (ref : Ref) (l : List Ref) :
    found ref l = true ↔ ref ∈ l := by
  induction l with
  | nil => simp [found]
  | cons a t ih =>
    by_cases h : a = ref
    · simp [found, h]
    · have h2 : ¬ ref = a := fun e => h e.symm
      simp [found, h, h2, ih]

theorem closeTag_coefficients {Ref : Type} [DecidableEq Ref] (E : Externals Ref)
    (st : ParseState Ref) :
    (closeTag E st).coefficients =
      (if resolve E (canonicalRequest st.l st.ld st.r st.rd st.id) ∈ st.coefficients
        then st.coefficients
        else st.coefficients ++ [resolve E (canonicalRequest st.l st.ld st.r st.rd st.id)]) ∧
    (closeTag E st).observed =
      (if resolve E (canonicalRequest st.l st.ld st.r st.rd st.id) ∈ st.coefficients
        then st.observed
        else st.observed ++ [resolve E (canonicalRequest st.l st.ld st.r st.rd st.id)]) := by
  unfold closeTag canonicalRequest resolve
  cases h : swapNeeded st.l st.ld st.r st.rd
  · simp only [Bool.false_eq_true, if_false]
    by_cases hf : found (E.Get st.l st.ld st.r st.rd st.id) st.coefficients = true
    · simp [hf, (found_iff _ _).1 hf]
    · have : E.Get st.l st.ld st.r st.rd st.id ∉ st.coefficients :=
        fun hm => hf ((found_iff _ _).2 hm)
      simp [hf, this]
  · simp only [if_true]
    by_cases hf : found (E.Get st.r st.rd st.l st.ld st.id) st.coefficients = true
    · simp [hf, (found_iff _ _).1 hf]
    · have : E.Get st.r st.rd st.l st.ld st.id ∉ st.coefficients :=
        fun hm => hf ((found_iff _ _).2 hm)
      simp [hf, this]

/-- Every pass through the body keeps the dependency list equal to the first occurrences
of the coefficients resolved so far. -/
theorem step_dependencies {Ref : Type} [DecidableEq Ref] (E : Externals Ref)
    (st : ParseState Ref) (c : Char) (nxt : Option Char)
    (hP : st.coefficients = firstOccurrences (st.requests.map (resolve E)) ∧
      st.observed = st.coefficients) :
    (∀ s, step E st c nxt = .ok (.next s) →
      s.coefficients = firstOccurrences (s.requests.map (resolve E)) ∧
        s.observed = s.coefficients) ∧
    (∀ s, step E st c nxt = .ok (.skip s) →
      s.coefficients = firstOccurrences (s.requests.map (resolve E)) ∧
        s.observed = s.coefficients) := by
  unfold step
  split_ifs with h1 h2 h3 h4 h5
  · simp
  · simp only [Except.ok.injEq, Step.skip.injEq, reduceCtorEq, false_implies, implies_true, true_and]
    intro s hs; subst hs; exact hP
  · simp only [Except.ok.injEq, Step.next.injEq, reduceCtorEq, false_implies, implies_true, and_true]
    intro s hs; subst hs; exact hP
  · constructor
    · intro s hs
      cases hc : closeField st with
      | error e => simp [hc, Except.map] at hs
      | ok s0 =>
        simp only [hc, Except.map, Except.ok.injEq, Step.next.injEq] at hs
        subst hs
        obtain ⟨f1, _, f3, f4, _⟩ := closeField_frame st s0 hc
        rw [f1, f3, f4]; exact hP
    · intro s hs
      cases hc : closeField st <;> simp [hc, Except.map] at hs
  · simp only [Except.ok.injEq, Step.next.injEq, reduceCtorEq, false_implies, implies_true, and_true]
    intro s hs; subst hs
    obtain ⟨hco, hob⟩ := closeTag_coefficients E st
    rw [hco, hob, closeTag_requests, List.map_append, List.map_singleton,
      firstOccurrences_append_singleton, ← hP.1, hP.2]
    have hmem : resolve E (canonicalRequest st.l st.ld st.r st.rd st.id) ∈ st.coefficients ↔
        resolve E (canonicalRequest st.l st.ld st.r st.rd st.id) ∈
          st.requests.map (resolve E) := by
      rw [hP.1, mem_firstOccurrences]
    by_cases hm : resolve E (canonicalRequest st.l st.ld st.r st.rd st.id) ∈ st.coefficients
    · simp only [hm, if_true, hmem.1 hm, and_self]
    · have hm2 : ¬ (resolve E (canonicalRequest st.l st.ld st.r st.rd st.id) ∈
          st.requests.map (resolve E)) := fun h => hm (hmem.2 h)
      simp only [hm, if_false, hm2, and_self]
  · simp only [Except.ok.injEq, Step.next.injEq, reduceCtorEq, false_implies, implies_true, and_true]
    intro s hs; subst hs; exact hP

theorem parse_dependencies {Ref : Type} [DecidableEq Ref] (E : Externals Ref)
    (u : Indeterminate) (code : List Char) (st : ParseState Ref)
    (h : parseScan E u code = .ok st) :
    st.coefficients = firstOccurrences (st.requests.map (resolve E)) ∧
      st.observed = st.coefficients :=
  scan_invariant E
    (fun s => s.coefficients = firstOccurrences (s.requests.map (resolve E)) ∧
      s.observed = s.coefficients)
    (fun st c nxt hP => step_dependencies E st c nxt hP) code (ParseState.init u) st
    (by simp [ParseState.init, firstOccurrences]) h

theorem closeTag_outside {Ref : Type} [DecidableEq Ref] (E : Externals Ref)
    (st : ParseState Ref) :
    (closeTag E st).inCoeff = false ∧ (closeTag E st).mode = 0 ∧ (closeTag E st).temp = [] := by
  unfold closeTag; exact ⟨rfl, rfl, rfl⟩

/-- The scan of a code made of well-formed pieces: text is copied, every tag emits its
rewrite and hands its request to the registry. -/
theorem scan_pieces {Ref : Type} [DecidableEq Ref] (E : Externals Ref) (pieces : List Piece)
    (hwf : ∀ p ∈ pieces, p.wellFormed) : ∀ (st : ParseState Ref), st.inCoeff = false →
      st.mode = 0 → st.temp = [] →
      ∃ s, scan E st (pieces.flatMap Piece.render) = .ok s ∧ s.inCoeff = false ∧
        s.current = st.current ++ pieces.flatMap (Piece.rewrite E) ∧
        s.requests = st.requests ++ pieces.filterMap Piece.request := by
  induction pieces with
  | nil => intro st hout _ _; exact ⟨st, rfl, hout, by simp, by simp⟩
  | cons p ps ih =>
    intro st hout hmode htemp
    have hps : ∀ q ∈ ps, q.wellFormed := fun q hq => hwf q (by simp [hq])
    have hp := hwf p (by simp)
    cases p with
    | text t =>
      obtain ⟨s, hs, h1, h2, h3⟩ := ih hps { st with current := st.current ++ t } hout hmode htemp
      refine ⟨s, ?_, h1, ?_, ?_⟩
      · simp only [List.flatMap_cons, Piece.render]
        rw [scan_outside E t _ hp st hout]; exact hs
      · rw [h2]; simp [Piece.rewrite]
      · rw [h3]; simp [Piece.request]
    | tag id l ld r rd tok =>
      obtain ⟨hid, htok, hl, hld, hr, hrd⟩ := hp
      have hscan := scan_tag E st id _ _ _ _ tok (ps.flatMap Piece.render) hout hmode htemp hid
        (plainText_toDigits l) (plainText_toDigits ld) (plainText_toDigits r)
        (plainText_toDigits rd) htok
      rw [readShape_numerals l ld r rd hl hld hr hrd] at hscan
      simp only at hscan
      obtain ⟨ho, hm, ht⟩ := closeTag_outside E
        { st with inCoeff := true, id := id, l := l, ld := ld, r := r, rd := rd, mode := 5,
                  temp := tok }
      obtain ⟨s, hs, h1, h2, h3⟩ := ih hps _ ho hm ht
      refine ⟨s, ?_, h1, ?_, ?_⟩
      · simp only [List.flatMap_cons, Piece.render]
        rw [hscan]; exact hs
      · rw [h2, closeTag_current]
        simp [Piece.rewrite]
      · rw [h3, closeTag_requests]
        simp [Piece.request]

/-- C18: after Parse of any code the dependency list holds the coefficients resolved by
the closed tags, each once, in the order of their first occurrence, and the callback is
registered on exactly these; and in a code made of well-formed pieces every tag, repeated
or not, emits its own `RenameIndices` rewrite. -/
theorem dependencies_deduplicated {Ref : Type} [DecidableEq Ref] (E : Externals Ref)
    (u : Indeterminate) :
    (∀ (code : List Char) (st : ParseState Ref), parseScan E u code = .ok st →
      st.coefficients = firstOccurrences (st.requests.map (resolve E)) ∧
      st.coefficients.Nodup ∧
      (∀ x, x ∈ st.coefficients ↔ x ∈ st.requests.map (resolve E)) ∧
      st.observed = st.coefficients) ∧
    (∀ pieces : List Piece, (∀ p ∈ pieces, p.wellFormed) →
      ∃ st : ParseState Ref, parseScan E u (pieces.flatMap Piece.render) = .ok st ∧
        st.current = pieces.flatMap (Piece.rewrite E) ∧
        st.requests = pieces.filterMap Piece.request ∧
        st.coefficients =
          firstOccurrences ((pieces.filterMap Piece.request).map (resolve E))) := by
  constructor
  · intro code st h
    obtain ⟨h1, h2⟩ := parse_dependencies E u code st h
    refine ⟨h1, ?_, ?_, h2⟩
    · rw [h1]; exact nodup_firstOccurrences _
    · intro x; rw [h1]; exact mem_firstOccurrences _ x
  · intro pieces hwf
    obtain ⟨s, hs, _, h2, h3⟩ := scan_pieces E pieces hwf (ParseState.init u) rfl rfl rfl
    have h4 := (parse_dependencies E u _ s hs).1
    refine ⟨s, hs, ?_, ?_, ?_⟩
    · rw [h2]; simp [ParseState.init]
    · rw [h3]; simp [ParseState.init]
    · rw [h4, h3]; simp [ParseState.init]

theorem dependencies_deduplicated_witness :
    ∃ st : ParseState Request,
      parseScan keyRegistry ⟨0, 0, 0, 0⟩ (repeatedTag.flatMap Piece.render) = .ok st ∧
      st.current = repeatedTag.flatMap (Piece.rewrite keyRegistry) ∧
      st.requests = repeatedTag.filterMap Piece.request ∧
      st.coefficients =
        firstOccurrences ((repeatedTag.filterMap Piece.request).map (resolve keyRegistry)) :=
  (dependencies_deduplicated keyRegistry ⟨0, 0, 0, 0⟩).2 repeatedTag (by
    intro p hp
    simp only [repeatedTag, List.mem_cons, List.mem_singleton, List.not_mem_nil, or_false] at hp
    rcases hp with rfl | rfl | rfl | rfl | rfl
    all_goals first
      | (show outsideText _; unfold outsideText; decide)
      | exact ⟨by unfold plainText; decide, by unfold plainText; decide, by decide, by decide,
          by decide, by decide⟩)

/-- The code `#<a:1:0:1:0:x>+#<b:1:0:1:0:y>+#<a:1:0:1:0:z>`: three rewrites, two
dependencies. -/
theorem parse_repeated_tag :
    ∃ st : ParseState Request,
      parseScan keyRegistry ⟨0, 0, 0, 0⟩ (repeatedTag.flatMap Piece.render) = .ok st ∧
      st.current = "RenameIndices(a, \x7ba b\x7d, x)+RenameIndices(b, \x7ba b\x7d, y)+RenameIndices(a, \x7ba b\x7d, z)".toList ∧
      st.coefficients = [⟨1, 0, 1, 0, "a".toList⟩, ⟨1, 0, 1, 0, "b".toList⟩] :=
  ⟨_, rfl, rfl, rfl⟩

/-! ### Waiting for an equation -/

/-- Every pass through the body keeps: no coefficient was resolved, or the rewritten
expression holds a character that is not a space. -/
theorem step_blank {Ref : Type} [DecidableEq Ref] (E : Externals Ref)
    (st : ParseState Ref) (c : Char) (nxt : Option Char)
    (hP : st.requests = [] ∨ ∃ x ∈ st.current, x ≠ ' ') :
    (∀ s, step E st c nxt = .ok (.next s) → (s.requests = [] ∨ ∃ x ∈ s.current, x ≠ ' ')) ∧
    (∀ s, step E st c nxt = .ok (.skip s) → (s.requests = [] ∨ ∃ x ∈ s.current, x ≠ ' ')) := by
  unfold step
  split_ifs with h1 h2 h3 h4 h5
  · simp
  · simp only [Except.ok.injEq, Step.skip.injEq, reduceCtorEq, false_implies, implies_true, true_and]
    intro s hs; subst hs; exact hP
  · simp only [Except.ok.injEq, Step.next.injEq, reduceCtorEq, false_implies, implies_true, and_true]
    intro s hs; subst hs
    rcases hP with hP | ⟨x, hx, hne⟩
    · exact Or.inl hP
    · exact Or.inr ⟨x, List.mem_append.2 (Or.inl hx), hne⟩
  · constructor
    · intro s hs
      cases hc : closeField st with
      | error e => simp [hc, Except.map] at hs
      | ok s0 =>
        simp only [hc, Except.map, Except.ok.injEq, Step.next.injEq] at hs
        subst hs
        obtain ⟨f1, f2, _, _, _⟩ := closeField_frame st s0 hc
        rw [f1, f2]; exact hP
    · intro s hs
      cases hc : closeField st <;> simp [hc, Except.map] at hs
  · simp only [Except.ok.injEq, Step.next.injEq, reduceCtorEq, false_implies, implies_true, and_true]
    intro s hs; subst hs
    right
    refine ⟨'R', ?_, by decide⟩
    rw [closeTag_current]
    apply List.mem_append.2
    right
    simp [rewriteOf, renameCall]
  · simp only [Except.ok.injEq, Step.next.injEq, reduceCtorEq, false_implies, implies_true, and_true]
    intro s hs; subst hs; exact hP

theorem parse_blank {Ref : Type} [DecidableEq Ref] (E : Externals Ref) (u : Indeterminate)
    (code : List Char) (st : ParseState Ref) (h : parseScan E u code = .ok st)
    (hb : allSpaces st.current = true) :
    st.requests = [] ∧ st.coefficients = [] ∧ st.observed = [] := by
  have hQ := scan_invariant E (fun s => s.requests = [] ∨ ∃ x ∈ s.current, x ≠ ' ')
    (fun st c nxt hP => step_blank E st c nxt hP) code (ParseState.init u) st
    (by left; rfl) h
  have hreq : st.requests = [] := by
    rcases hQ with hQ | ⟨x, hx, hne⟩
    · exact hQ
    · exact absurd ((allSpaces_iff _).1 hb x hx) hne
  obtain ⟨h1, h2⟩ := parse_dependencies E u code st h
  rw [hreq] at h1
  simp only [List.map_nil, firstOccurrences] at h1
  exact ⟨hreq, h1, by rw [h2, h1]⟩

/-- C16 (amended): every constructed equation, empty or not, is in state WAITING without a
worker, so the condition `state == SOLVED` on which `Wait()` blocks does not hold after
construction, and the completion callback does not make it hold; it holds after a run of
`Solve`.  An equation marked empty has no dependency and registered no callback. -/
theorem constructed_equation_waits {Ref T Subst : Type} [DecidableEq Ref] (E : Externals Ref)
    (u : Indeterminate) (code : List Char) (e : Equation Ref)
    (h : Equation.create E u code = .ok e) :
    e.state = .WAITING ∧ e.waitDone = false ∧ e.worker = false ∧
    (∀ finished : Ref → Bool, (e.OnCoefficientCalculated finished).waitDone = false) ∧
    (∀ (X : SolveExternals Ref T Subst) (w : World Ref T), (e.Solve X w).1.waitDone = true) ∧
    (e.isEmpty = true → e.coefficients = [] ∧
      ∃ st : ParseState Ref, parseScan E u code = .ok st ∧ st.observed = []) := by
  unfold Equation.create at h
  cases hs : parseScan E u code with
  | error err => rw [hs] at h; simp [Except.map] at h
  | ok st =>
    rw [hs] at h
    simp only [Except.map, Except.ok.injEq] at h
    subst h
    refine ⟨rfl, rfl, rfl, ?_, ?_, ?_⟩
    · intro finished
      unfold Equation.OnCoefficientCalculated Equation.waitDone
      split_ifs <;> rfl
    · intro X w; rfl
    · intro hE
      obtain ⟨_, h2, h3⟩ := parse_blank E u code st hs hE
      exact ⟨h2, st, rfl, h3⟩

theorem constructed_equation_waits_witness :
    blankEquation.state = .WAITING ∧ blankEquation.waitDone = false ∧
    blankEquation.worker = false ∧
    (∀ finished : Request → Bool,
      (blankEquation.OnCoefficientCalculated finished).waitDone = false) ∧
    (∀ (X : SolveExternals Request Nat Nat) (w : World Request Nat),
      (blankEquation.Solve X w).1.waitDone = true) ∧
    (blankEquation.isEmpty = true → blankEquation.coefficients = [] ∧
      ∃ st : ParseState Request,
        parseScan keyRegistry ⟨0, 0, 0, 0⟩ "  ".toList = .ok st ∧ st.observed = []) :=
  constructed_equation_waits keyRegistry ⟨0, 0, 0, 0⟩ "  ".toList blankEquation rfl

/-- C16 (as stated, refuted): the equation constructed from the empty code is marked empty,
and the condition on which `Wait()` blocks does not hold for it. -/
theorem empty_equation_wait_blocks :
    ∃ e : Equation Request, Equation.create keyRegistry ⟨0, 0, 0, 0⟩ [] = .ok e ∧
      e.isEmpty = true ∧ e.waitDone = false :=
  ⟨_, rfl, rfl, rfl⟩

/-! ### The destructor -/

/-- C17 (the code at the failing input): the equation constructed from the code `x` is not
empty and no worker was started for it, and its destructor calls `join`, which fails on a
thread that was never started. -/
theorem destructor_joins_unstarted_worker :
    ∃ e : Equation Request, Equation.create keyRegistry ⟨0, 0, 0, 0⟩ "x".toList = .ok e ∧
      e.worker = false ∧ e.launched = 0 ∧ e.destructorJoins = true ∧
      e.destroy = Destruction.joinError :=
  ⟨_, rfl, rfl, rfl, rfl, rfl⟩

/-! ### The locks and tensors of `Solve` -/

theorem substituteAll_lockLog {Ref T Subst : Type} [DecidableEq Ref]
    (X : SolveExternals Ref T Subst) (subst : Subst) (deps : List Ref) (reg : List Ref) :
    ∀ w : World Ref T,
      (substituteAll X subst deps w reg).lockLog =
        w.lockLog ++ registryEvents deps w.finished reg ∧
      (substituteAll X subst deps w reg).finished = w.finished ∧
      (substituteAll X subst deps w reg).registry = w.registry := by
  induction reg with
  | nil => intro w; simp [substituteAll, registryEvents]
  | cons a rest ih =>
    intro w
    rw [substituteAll, registryEvents]
    by_cases hskip : a ∉ deps ∧ w.finished a = false
    · simp only [hskip, not_false_eq_true, and_self, if_true]
      exact ih w
    · simp only [hskip, if_false]
      obtain ⟨h1, h2, h3⟩ := ih
        { w with tensor := Function.update w.tensor a (X.applyTensor subst (w.tensor a)),
                 lockLog := w.lockLog ++ (if a ∉ deps then [LockEvent.lock a] else []) ++
                   [LockEvent.unlock a] }
      refine ⟨?_, h2, h3⟩
      rw [h1]
      simp only [List.append_assoc, List.singleton_append]

theorem substituteAll_tensor {Ref T Subst : Type} [DecidableEq Ref]
    (X : SolveExternals Ref T Subst) (subst : Subst) (deps : List Ref) (reg : List Ref) :
    ∀ w : World Ref T, reg.Nodup → ∀ c,
      (c ∈ reg → (c ∈ deps ∨ w.finished c = true) →
        (substituteAll X subst deps w reg).tensor c = X.applyTensor subst (w.tensor c)) ∧
      ((c ∉ reg ∨ (c ∉ deps ∧ w.finished c = false)) →
        (substituteAll X subst deps w reg).tensor c = w.tensor c) := by
  induction reg with
  | nil =>
    intro w _ c
    simp [substituteAll]
  | cons a rest ih =>
    intro w hnd c
    have hna : a ∉ rest := (List.nodup_cons.1 hnd).1
    have hrest : rest.Nodup := (List.nodup_cons.1 hnd).2
    rw [substituteAll]
    by_cases hskip : a ∉ deps ∧ w.finished a = false
    · simp only [hskip, not_false_eq_true, and_self, if_true]
      obtain ⟨i1, i2⟩ := ih w hrest c
      constructor
      · intro hc hap
        rcases List.mem_cons.1 hc with hca | hcr
        · subst hca
          rcases hap with hd | hf
          · exact absurd hd hskip.1
          · rw [hskip.2] at hf; cases hf
        · exact i1 hcr hap
      · intro hno
        rcases hno with hno | hno
        · exact i2 (Or.inl (fun h => hno (List.mem_cons_of_mem _ h)))
        · exact i2 (Or.inr hno)
    · simp only [hskip, if_false]
      obtain ⟨i1, i2⟩ := ih
        { w with tensor := Function.update w.tensor a (X.applyTensor subst (w.tensor a)),
                 lockLog := w.lockLog ++ (if a ∉ deps then [LockEvent.lock a] else []) ++
                   [LockEvent.unlock a] } hrest c
      simp only at i1 i2
      by_cases hca : c = a
      · subst hca
        constructor
        · intro _ _
          rw [i2 (Or.inl hna)]
          simp
        · intro hno
          rcases hno with hno | hno
          · exact absurd (List.mem_cons_self _ _) hno
          · exact absurd hno hskip
      · constructor
        · intro hc hap
          rcases List.mem_cons.1 hc with h | hcr
          · exact absurd h hca
          · rw [i1 hcr hap, Function.update_noteq hca]
        · intro hno
          have : c ∉ rest ∨ (c ∉ deps ∧ w.finished c = false) := by
            rcases hno with hno | hno
            · exact Or.inl (fun h => hno (List.mem_cons_of_mem _ h))
            · exact Or.inr hno
          rw [i2 this, Function.update_noteq hca]

theorem mem_registryEvents_lock {Ref : Type} [DecidableEq Ref] (deps : List Ref)
    (finished : Ref → Bool) (reg : List Ref) (c : Ref)
    (h : LockEvent.lock c ∈ registryEvents deps finished reg) :
    c ∈ reg ∧ c ∉ deps ∧ finished c = true := by
  induction reg with
  | nil => simp [registryEvents] at h
  | cons a rest ih =>
    rw [registryEvents] at h
    by_cases hskip : a ∉ deps ∧ finished a = false
    · simp only [hskip, not_false_eq_true, and_self, if_true] at h
      obtain ⟨h1, h2, h3⟩ := ih h
      exact ⟨List.mem_cons_of_mem _ h1, h2, h3⟩
    · simp only [hskip, if_false] at h
      by_cases had : a ∉ deps
      · simp only [had, not_false_eq_true, if_true, List.singleton_append, List.mem_cons,
          LockEvent.lock.injEq, reduceCtorEq, false_or] at h
        rcases h with h | h
        · subst h
          refine ⟨List.mem_cons_self _ _, had, ?_⟩
          cases hf : finished c with
          | true => rfl
          | false => exact absurd ⟨had, hf⟩ hskip
        · obtain ⟨h1, h2, h3⟩ := ih h
          exact ⟨List.mem_cons_of_mem _ h1, h2, h3⟩
      · simp only [had, if_false, List.nil_append, List.mem_cons, reduceCtorEq, false_or] at h
        obtain ⟨h1, h2, h3⟩ := ih h
        exact ⟨List.mem_cons_of_mem _ h1, h2, h3⟩

theorem solve_lockLog {Ref T Subst : Type} [DecidableEq Ref] (X : SolveExternals Ref T Subst)
    (eq : Equation Ref) (w : World Ref T) :
    (eq.Solve X w).2.lockLog =
      w.lockLog ++ (eq.coefficients.map LockEvent.lock ++
        registryEvents eq.coefficients w.finished w.registry) := by
  unfold Equation.Solve Equation.solveBegin
  simp only
  rw [(substituteAll_lockLog X _ eq.coefficients w.registry _).1]
  simp only [List.append_assoc]

/-- C19: after `Solve` with the substitution `S` the interpreter returned, every coefficient
of the registry (which lists each coefficient once) that is a dependency of the equation or
is finished has the tensor `S` applied to its previous tensor; every other one keeps its
tensor and is not locked. -/
theorem solve_substitutes_registry {Ref T Subst : Type} [DecidableEq Ref]
    (X : SolveExternals Ref T Subst) (eq : Equation Ref) (w : World Ref T)
    (hreg : w.registry.Nodup) :
    ∃ events : List (LockEvent Ref), (eq.Solve X w).2.lockLog = w.lockLog ++ events ∧
      ∀ c ∈ w.registry,
        ((c ∈ eq.coefficients ∨ w.finished c = true) →
          (eq.Solve X w).2.tensor c =
            X.applyTensor (X.interpret eq.eq (eq.solveBegin w).2) (w.tensor c)) ∧
        (c ∉ eq.coefficients → w.finished c = false →
          (eq.Solve X w).2.tensor c = w.tensor c ∧ LockEvent.lock c ∉ events) := by
  refine ⟨_, solve_lockLog X eq w, ?_⟩
  intro c hc
  have ht := substituteAll_tensor X (X.interpret eq.eq (eq.solveBegin w).2) eq.coefficients
    w.registry (eq.solveBegin w).2 hreg c
  constructor
  · intro hap
    exact ht.1 hc hap
  · intro hnd hnf
    refine ⟨ht.2 (Or.inr ⟨hnd, hnf⟩), ?_⟩
    intro hmem
    rcases List.mem_append.1 hmem with hm | hm
    · obtain ⟨d, hd, hdc⟩ := List.mem_map.1 hm
      cases hdc
      exact hnd hd
    · have := (mem_registryEvents_lock _ _ _ c hm).2.2
      rw [hnf] at this; cases this

theorem solve_substitutes_registry_witness :
    ∃ events : List (LockEvent Nat),
      (threeDeps.Solve addSolver idleWorld).2.lockLog = idleWorld.lockLog ++ events ∧
      ∀ c ∈ idleWorld.registry,
        ((c ∈ threeDeps.coefficients ∨ idleWorld.finished c = true) →
          (threeDeps.Solve addSolver idleWorld).2.tensor c =
            addSolver.applyTensor
              (addSolver.interpret threeDeps.eq (threeDeps.solveBegin idleWorld).2)
              (idleWorld.tensor c)) ∧
        (c ∉ threeDeps.coefficients → idleWorld.finished c = false →
          (threeDeps.Solve addSolver idleWorld).2.tensor c = idleWorld.tensor c ∧
            LockEvent.lock c ∉ events) :=
  solve_substitutes_registry addSolver threeDeps idleWorld (by decide)

/-- Locking a duplicate-free list of coefficients none of which is held. -/
theorem lockDiscipline_lock_all {Ref : Type} [DecidableEq Ref] (rest : List (LockEvent Ref))
    (deps : List Ref) : ∀ held : List Ref, deps.Nodup → (∀ c ∈ deps, c ∉ held) →
      lockDiscipline held (deps.map LockEvent.lock ++ rest) =
        lockDiscipline (deps.reverse ++ held) rest := by
  induction deps with
  | nil => intro held _ _; rfl
  | cons a ds ih =>
    intro held hnd hdis
    have ha : a ∉ held := hdis a (by simp)
    have hnd1 := List.nodup_cons.1 hnd
    rw [List.map_cons, List.cons_append, lockDiscipline, if_neg ha,
      ih (a :: held) hnd1.2 (by
      intro c hc hmem
      rcases List.mem_cons.1 hmem with h | h
      · subst h; exact hnd1.1 hc
      · exact hdis c (by simp [hc]) h)]
    simp

/-- The loop over the registry, started while only dependencies are held, never locks
what is held. -/
theorem lockDiscipline_registry {Ref : Type} [DecidableEq Ref] (deps : List Ref)
    (finished : Ref → Bool) (reg : List Ref) : ∀ held : List Ref, (∀ c ∈ held, c ∈ deps) →
      lockDiscipline held (registryEvents deps finished reg) = true := by
  induction reg with
  | nil => intro held _; rfl
  | cons a rest ih =>
    intro held hsub
    rw [registryEvents]
    by_cases hskip : a ∉ deps ∧ finished a = false
    · simp only [hskip, not_false_eq_true, and_self, if_true]
      exact ih held hsub
    · simp only [hskip, if_false]
      by_cases had : a ∉ deps
      · have hah : a ∉ held := fun h => had (hsub a h)
        simp only [had, not_false_eq_true, if_true, List.singleton_append, lockDiscipline, hah,
          if_false, List.erase_cons_head]
        exact ih held hsub
      · simp only [had, if_false, List.nil_append, lockDiscipline]
        exact ih _ (fun c hc => hsub c (List.mem_of_mem_erase hc))

theorem create_coefficients_nodup {Ref : Type} [DecidableEq Ref] (E : Externals Ref)
    (u : Indeterminate) (code : List Char) (e : Equation Ref)
    (h : Equation.create E u code = .ok e) : e.coefficients.Nodup := by
  unfold Equation.create at h
  cases hs : parseScan E u code with
  | error err => rw [hs] at h; simp [Except.map] at h
  | ok st =>
    rw [hs] at h
    simp only [Except.map, Except.ok.injEq] at h
    subst h
    simp only
    rw [(parse_dependencies E u code st hs).1]
    exact nodup_firstOccurrences _

/-- C20: the dependency list Parse builds has no duplicates; and `Solve` on an equation with
a duplicate-free dependency list first locks each dependency once, then locks in the loop
over the registry only coefficients that are not dependencies (each unlocked again in the
same pass), so that it never locks a coefficient whose lock it holds. -/
theorem solve_never_relocks {Ref T Subst : Type} [DecidableEq Ref] (E : Externals Ref)
    (u : Indeterminate) (X : SolveExternals Ref T Subst) :
    (∀ (code : List Char) (e : Equation Ref), Equation.create E u code = .ok e →
      e.coefficients.Nodup) ∧
    (∀ (eq : Equation Ref) (w : World Ref T), eq.coefficients.Nodup →
      (eq.Solve X w).2.lockLog =
        w.lockLog ++ (eq.coefficients.map LockEvent.lock ++
          registryEvents eq.coefficients w.finished w.registry) ∧
      (∀ c, LockEvent.lock c ∈ registryEvents eq.coefficients w.finished w.registry →
        c ∈ w.registry ∧ c ∉ eq.coefficients) ∧
      lockDiscipline [] (eq.coefficients.map LockEvent.lock ++
        registryEvents eq.coefficients w.finished w.registry) = true) := by
  refine ⟨fun code e h => create_coefficients_nodup E u code e h, ?_⟩
  intro eq w hnd
  refine ⟨solve_lockLog X eq w, ?_, ?_⟩
  · intro c hc
    have := mem_registryEvents_lock _ _ _ c hc
    exact ⟨this.1, this.2.1⟩
  · rw [lockDiscipline_lock_all _ eq.coefficients [] hnd (fun c _ h => by simp at h)]
    apply lockDiscipline_registry
    intro c hc
    simpa using hc

theorem solve_never_relocks_witness :
    (threeDeps.Solve addSolver idleWorld).2.lockLog =
      idleWorld.lockLog ++ (threeDeps.coefficients.map LockEvent.lock ++
        registryEvents threeDeps.coefficients idleWorld.finished idleWorld.registry) ∧
    (∀ c, LockEvent.lock c ∈
        registryEvents threeDeps.coefficients idleWorld.finished idleWorld.registry →
      c ∈ idleWorld.registry ∧ c ∉ threeDeps.coefficients) ∧
    lockDiscipline [] (threeDeps.coefficients.map LockEvent.lock ++
      registryEvents threeDeps.coefficients idleWorld.finished idleWorld.registry) = true :=
  (solve_never_relocks sizeRegistry ⟨0, 0, 0, 0⟩ addSolver).2 threeDeps idleWorld (by decide)

/-! ## The state over sequences of callbacks and solve runs -/

theorem complete_state {Ref T : Type} [DecidableEq Ref] (p : Equation Ref × World Ref T)
    (c : Ref) : (complete p c).1.state = p.1.state := by
  unfold complete Equation.OnCoefficientCalculated
  simp only
  split_ifs <;> rfl

theorem solve_state {Ref T Subst : Type} [DecidableEq Ref] (X : SolveExternals Ref T Subst)
    (eq : Equation Ref) (w : World Ref T) :
    (eq.solveBegin w).1.state = .SOLVING ∧ (eq.Solve X w).1.state = .SOLVED :=
  ⟨rfl, rfl⟩

/-- Callbacks alone leave the state as it is. -/
theorem stateTrace_completions {Ref T Subst : Type} [DecidableEq Ref]
    (X : SolveExternals Ref T Subst) (actions : List (Action Ref)) :
    ∀ (p : Equation Ref × World Ref T), (∀ a ∈ actions, a.isSolve = false) →
      ∀ s ∈ stateTrace X p actions, s = p.1.state := by
  induction actions with
  | nil => intro p _ s hs; simp [stateTrace] at hs
  | cons a rest ih =>
    intro p hno s hs
    cases a with
    | solve => have := hno Action.solve (by simp); simp [Action.isSolve] at this
    | completion c =>
      rw [stateTrace] at hs
      rcases List.mem_cons.1 hs with h | h
      · rw [h, complete_state]
      · rw [ih (complete p c) (fun a ha => hno a (by simp [ha])) s h, complete_state]

/-- With at most one run of `Solve`, from a state that is not SOLVED, the state never moves
back. -/
theorem stateTrace_forward {Ref T Subst : Type} [DecidableEq Ref]
    (X : SolveExternals Ref T Subst) (actions : List (Action Ref)) :
    ∀ (p : Equation Ref × World Ref T), p.1.state.rank ≤ 1 →
      (actions.filter Action.isSolve).length ≤ 1 →
      movesForward (p.1.state :: stateTrace X p actions) := by
  induction actions with
  | nil => intro p _ _; simp [movesForward, stateTrace]
  | cons a rest ih =>
    intro p hr hone
    cases a with
    | completion c =>
      have hrest : (rest.filter Action.isSolve).length ≤ 1 := by
        simpa [List.filter, Action.isSolve] using hone
      have h1 := ih (complete p c) (by rw [complete_state]; exact hr) hrest
      rw [complete_state] at h1
      rw [stateTrace, complete_state]
      unfold movesForward at h1 ⊢
      rw [List.pairwise_cons]
      refine ⟨?_, h1⟩
      intro s hs
      rcases List.mem_cons.1 hs with h | h
      · rw [h]
      · exact (List.pairwise_cons.1 h1).1 s h
    | solve =>
      have hrest : ∀ a ∈ rest, a.isSolve = false := by
        have : (rest.filter Action.isSolve).length = 0 := by
          simp only [List.filter, Action.isSolve, List.length_cons] at hone
          omega
        have hnil := List.length_eq_zero.1 this
        intro a ha
        have := (List.filter_eq_nil_iff.1 hnil) a ha
        simpa using this
      have htail := stateTrace_completions X rest (p.1.Solve X p.2) hrest
      rw [stateTrace]
      unfold movesForward
      have hsolved : (p.1.Solve X p.2).1.state = .SOLVED := rfl
      have hbegin : (p.1.solveBegin p.2).1.state = .SOLVING := rfl
      rw [hsolved, hbegin]
      rw [hsolved] at htail
      refine List.pairwise_cons.2 ⟨?_, List.pairwise_cons.2 ⟨?_, List.pairwise_cons.2 ⟨?_, ?_⟩⟩⟩
      · intro s hs
        rcases List.mem_cons.1 hs with h | h
        · rw [h]
          have h1 : State.SOLVING.rank = 1 := rfl
          rw [h1]; exact hr
        · have h2 : State.SOLVED.rank = 2 := rfl
          rcases List.mem_cons.1 h with h | h
          · rw [h, h2]; omega
          · rw [htail s h, h2]; omega
      · intro s hs
        rcases List.mem_cons.1 hs with h | h
        · rw [h]; simp [State.rank]
        · rw [htail s h]; simp [State.rank]
      · intro s hs
        rw [htail s hs]
      · rw [List.pairwise_iff_forall_sublist]
        intro a b hab
        have ha := htail a (hab.subset (by simp))
        have hb := htail b (hab.subset (by simp))
        rw [ha, hb]

/-- Whatever the actions are, the state WAITING is never entered again. -/
theorem stateTrace_waiting {Ref T Subst : Type} [DecidableEq Ref]
    (X : SolveExternals Ref T Subst) (actions : List (Action Ref)) :
    ∀ (p : Equation Ref × World Ref T),
      waitingNotReentered (p.1.state :: stateTrace X p actions) := by
  induction actions with
  | nil => intro p; simp [waitingNotReentered, stateTrace]
  | cons a rest ih =>
    intro p
    cases a with
    | completion c =>
      have h1 := ih (complete p c)
      rw [complete_state] at h1
      rw [stateTrace, complete_state]
      unfold waitingNotReentered at h1 ⊢
      rw [List.pairwise_cons]
      refine ⟨?_, h1⟩
      intro s hs
      rcases List.mem_cons.1 hs with h | h
      · rw [h]; exact id
      · exact (List.pairwise_cons.1 h1).1 s h
    | solve =>
      have h1 := ih (p.1.Solve X p.2)
      have hsolved : (p.1.Solve X p.2).1.state = .SOLVED := rfl
      have hbegin : (p.1.solveBegin p.2).1.state = .SOLVING := rfl
      rw [hsolved] at h1
      rw [stateTrace, hsolved, hbegin]
      unfold waitingNotReentered at h1 ⊢
      have hno : ∀ s ∈ stateTrace X (p.1.Solve X p.2) rest, s ≠ State.WAITING := by
        intro s hs hw
        have := (List.pairwise_cons.1 h1).1 s hs hw
        cases this
      refine List.pairwise_cons.2 ⟨?_, List.pairwise_cons.2 ⟨?_, h1⟩⟩
      · intro s hs hw
        rcases List.mem_cons.1 hs with h | h
        · rw [h] at hw; cases hw
        · rcases List.mem_cons.1 h with h | h
          · rw [h] at hw; cases hw
          · exact absurd hw (hno s h)
      · intro s hs hw
        rcases List.mem_cons.1 hs with h | h
        · rw [h] at hw; cases hw
        · exact absurd hw (hno s h)

/-- A constructed equation is WAITING and has no worker. -/
theorem create_fresh {Ref : Type} [DecidableEq Ref] (E : Externals Ref)
    (u : Indeterminate) (code : List Char) (e : Equation Ref)
    (h : Equation.create E u code = .ok e) :
    e.state = .WAITING ∧ e.worker = false ∧ e.launched = 0 ∧ e.terminated = false := by
  unfold Equation.create at h
  cases hs : parseScan E u code with
  | error err => rw [hs] at h; simp [Except.map] at h
  | ok st =>
    rw [hs] at h
    simp only [Except.map, Except.ok.injEq] at h
    subst h
    exact ⟨rfl, rfl, rfl, rfl⟩

/-- Completions that do not end the program start at most one worker. -/
theorem completeAll_launched {Ref T : Type} [DecidableEq Ref] (order : List Ref) :
    ∀ (p : Equation Ref × World Ref T),
      (p.1.terminated = true ∨ (p.1.worker = false ∧ p.1.launched = 0) ∨
        (p.1.worker = true ∧ p.1.launched = 1)) →
      ((completeAll p order).1.terminated = true ∨
        ((completeAll p order).1.worker = false ∧ (completeAll p order).1.launched = 0) ∨
        ((completeAll p order).1.worker = true ∧ (completeAll p order).1.launched = 1)) := by
  induction order with
  | nil => intro p h; exact h
  | cons c rest ih =>
    intro p h
    have hstep : completeAll p (c :: rest) = completeAll (complete p c) rest := rfl
    rw [hstep]
    apply ih
    unfold complete Equation.OnCoefficientCalculated
    simp only
    split_ifs
    · rcases h with h | ⟨h1, h2⟩ | ⟨h1, h2⟩
      · left; simp [h]
      · right; right; simp [h2]
      · left; simp [h1]
    · exact h

/-- C21 (amended): the callback never assigns the state, and a run of `Solve` sets SOLVING at
its entry and SOLVED at its end whatever the state was.  So for a constructed equation and
every sequence of completions with at most one run of `Solve` the state only moves forward
along WAITING, SOLVING, SOLVED; for every sequence whatsoever WAITING is never entered
again; and completions that do not end the program start at most one worker, hence one run
of `Solve`. -/
theorem state_moves_forward {Ref T Subst : Type} [DecidableEq Ref] (E : Externals Ref)
    (u : Indeterminate) (X : SolveExternals Ref T Subst) (code : List Char)
    (eq : Equation Ref) (w : World Ref T) (actions : List (Action Ref))
    (h : Equation.create E u code = .ok eq) :
    ((actions.filter Action.isSolve).length ≤ 1 →
      movesForward (eq.state :: stateTrace X (eq, w) actions)) ∧
    waitingNotReentered (eq.state :: stateTrace X (eq, w) actions) ∧
    (∀ order : List Ref, (completeAll (eq, w) order).1.terminated = false →
      (completeAll (eq, w) order).1.state = .WAITING ∧
      (completeAll (eq, w) order).1.launched ≤ 1) ∧
    (∀ (e : Equation Ref) (v : World Ref T),
      (e.solveBegin v).1.state = .SOLVING ∧ (e.Solve X v).1.state = .SOLVED) := by
  obtain ⟨hstate, hworker, hlaunched, hterm⟩ := create_fresh E u code eq h
  refine ⟨fun hone => ?_, stateTrace_waiting X actions (eq, w), ?_, solve_state X⟩
  · exact stateTrace_forward X actions (eq, w) (by rw [hstate]; simp [State.rank]) hone
  · intro order hnt
    constructor
    · have hfold : ∀ (l : List Ref) (p : Equation Ref × World Ref T),
          (completeAll p l).1.state = p.1.state := by
        intro l
        induction l with
        | nil => intro p; rfl
        | cons c rest ih =>
          intro p
          have hstep : completeAll p (c :: rest) = completeAll (complete p c) rest := rfl
          rw [hstep, ih, complete_state]
      rw [hfold]; exact hstate
    · rcases completeAll_launched order (eq, w) (Or.inr (Or.inl ⟨hworker, hlaunched⟩)) with
        h1 | ⟨_, h2⟩ | ⟨_, h2⟩
      · rw [h1] at hnt; cases hnt
      · omega
      · omega

theorem state_moves_forward_witness :
    Equation.create sizeRegistry ⟨0, 0, 0, 0⟩ "x".toList = .ok plainEquation ∧
    movesForward (plainEquation.state ::
      stateTrace addSolver (plainEquation, idleWorld) [Action.completion 1, Action.solve]) ∧
    waitingNotReentered (plainEquation.state ::
      stateTrace addSolver (plainEquation, idleWorld) [Action.completion 1, Action.solve]) :=
  ⟨rfl,
    (state_moves_forward sizeRegistry ⟨0, 0, 0, 0⟩ addSolver "x".toList plainEquation
      idleWorld [Action.completion 1, Action.solve] rfl).1 (by decide),
    (state_moves_forward sizeRegistry ⟨0, 0, 0, 0⟩ addSolver "x".toList plainEquation
      idleWorld [Action.completion 1, Action.solve] rfl).2.1⟩

/-- C21 (as stated, refuted): `Solve` assigns SOLVING without looking at the state, so a second
run on the solved equation `threeDeps` takes the state from SOLVED back to SOLVING. -/
theorem second_solve_reverts_state :
    stateTrace addSolver (threeDeps, idleWorld)
        [Action.completion 1, Action.completion 2, Action.completion 3, Action.solve,
          Action.solve] =
      [.WAITING, .WAITING, .WAITING, .SOLVING, .SOLVED, .SOLVING, .SOLVED] ∧
    ¬ movesForward (threeDeps.state :: stateTrace addSolver (threeDeps, idleWorld)
        [Action.completion 1, Action.completion 2, Action.completion 3, Action.solve,
          Action.solve]) := by
  have htrace : stateTrace addSolver (threeDeps, idleWorld)
        [Action.completion 1, Action.completion 2, Action.completion 3, Action.solve,
          Action.solve] =
      [.WAITING, .WAITING, .WAITING, .SOLVING, .SOLVED, .SOLVING, .SOLVED] := rfl
  refine ⟨htrace, ?_⟩
  rw [htrace]
  unfold movesForward
  decide

/-! ## The canonical order of the blocks, applied twice -/

theorem canonicalRequest_fixed (l ld r rd : Nat) (id : List Char) :
    swapNeeded (canonicalRequest l ld r rd id).l (canonicalRequest l ld r rd id).ld
      (canonicalRequest l ld r rd id).r (canonicalRequest l ld r rd id).rd = false ∧
    canonicalRequest (canonicalRequest l ld r rd id).l (canonicalRequest l ld r rd id).ld
      (canonicalRequest l ld r rd id).r (canonicalRequest l ld r rd id).rd
      (canonicalRequest l ld r rd id).id = canonicalRequest l ld r rd id := by
  have hsw : swapNeeded (canonicalRequest l ld r rd id).l (canonicalRequest l ld r rd id).ld
      (canonicalRequest l ld r rd id).r (canonicalRequest l ld r rd id).rd = false := by
    have hord := canonicalRequest_ordered l ld r rd id
    cases hs : swapNeeded (canonicalRequest l ld r rd id).l (canonicalRequest l ld r rd id).ld
      (canonicalRequest l ld r rd id).r (canonicalRequest l ld r rd id).rd
    · rfl
    · have := (swapNeeded_spec _ _ _ _).1 hs
      omega
  refine ⟨hsw, ?_⟩
  rw [canonicalRequest, hsw]
  simp only [Bool.false_eq_true, if_false]

/-- The block sizes `closeTag` leaves in the locals are those of the request it hands to the
registry. -/
theorem closeTag_shape {Ref : Type} [DecidableEq Ref] (E : Externals Ref)
    (st : ParseState Ref) :
    (closeTag E st).l = (canonicalRequest st.l st.ld st.r st.rd st.id).l ∧
    (closeTag E st).ld = (canonicalRequest st.l st.ld st.r st.rd st.id).ld ∧
    (closeTag E st).r = (canonicalRequest st.l st.ld st.r st.rd st.id).r ∧
    (closeTag E st).rd = (canonicalRequest st.l st.ld st.r st.rd st.id).rd ∧
    (closeTag E st).id = (canonicalRequest st.l st.ld st.r st.rd st.id).id := by
  unfold closeTag canonicalRequest
  cases swapNeeded st.l st.ld st.r st.rd <;> simp

/-- C25: the exchange of lines 135-147 is idempotent.  On a shape that was put in order the
test of line 135 is false, so that putting the request in order once more returns the same
request; and the locals `closeTag` leaves behind are those of the request it hands to the
registry, on which the test is false and a further exchange changes nothing. -/
theorem canonicalization_idempotent {Ref : Type} [DecidableEq Ref] (E : Externals Ref)
    (st : ParseState Ref) (l ld r rd : Nat) (id : List Char) :
    swapNeeded (canonicalRequest l ld r rd id).l (canonicalRequest l ld r rd id).ld
      (canonicalRequest l ld r rd id).r (canonicalRequest l ld r rd id).rd = false ∧
    canonicalRequest (canonicalRequest l ld r rd id).l (canonicalRequest l ld r rd id).ld
      (canonicalRequest l ld r rd id).r (canonicalRequest l ld r rd id).rd
      (canonicalRequest l ld r rd id).id = canonicalRequest l ld r rd id ∧
    (closeTag E st).requests = st.requests ++ [canonicalRequest st.l st.ld st.r st.rd st.id] ∧
    swapNeeded (closeTag E st).l (closeTag E st).ld (closeTag E st).r (closeTag E st).rd
      = false ∧
    canonicalRequest (closeTag E st).l (closeTag E st).ld (closeTag E st).r (closeTag E st).rd
      (closeTag E st).id = canonicalRequest st.l st.ld st.r st.rd st.id := by
  obtain ⟨e1, e2, e3, e4, e5⟩ := closeTag_shape E st
  refine ⟨(canonicalRequest_fixed l ld r rd id).1, (canonicalRequest_fixed l ld r rd id).2,
    closeTag_requests E st, ?_, ?_⟩
  · rw [e1, e2, e3, e4]
    exact (canonicalRequest_fixed st.l st.ld st.r st.rd st.id).1
  · rw [e1, e2, e3, e4, e5]
    exact (canonicalRequest_fixed st.l st.ld st.r st.rd st.id).2

end Equations

namespace Tensor

/-! ## Theorems about `Substitution` -/

theorem applyLoop_eq_foldl {S : Type} (L : ScalarLayer S) (pairs : List (S × S)) :
    ∀ e : S, applyLoop L e pairs = pairs.foldl (fun acc p => L.Substitute acc p.1 p.2) e := by
  induction pairs with
  | nil => intro e; rfl
  | cons p ps ih => intro e; rw [applyLoop, ih, List.foldl_cons]

theorem insert_all_substitutions {S : Type} (pairs : List (S × S)) :
    ∀ σ : Substitution S,
      (pairs.foldl (fun τ p => τ.Insert p.1 p.2) σ).substitutions = σ.substitutions ++ pairs := by
  induction pairs with
  | nil => intro σ; simp
  | cons p ps ih => intro σ; rw [List.foldl_cons, ih]; simp [Substitution.Insert]

/-- C5: applying a substitution whose pairs were inserted in the order `p0, …, p(n-1)` is the
left fold that substitutes `p0` into the scalar, then `p1` into that result, and so on; with
the pairs `(x, y)` then `(y, 5)` the scalar `x` becomes `5`, which is not `y`. -/
theorem apply_is_left_fold :
    (∀ (S : Type) (L : ScalarLayer S) (pairs : List (S × S)) (e : S),
      (pairs.foldl (fun τ p => τ.Insert p.1 p.2) Substitution.empty).apply L e =
        pairs.foldl (fun acc p => L.Substitute acc p.1 p.2) e) ∧
    ((Substitution.empty.Insert (Scalar.var "x") (Scalar.var "y")).Insert (Scalar.var "y")
        (Scalar.num 5)).apply linear (Scalar.var "x") = Scalar.num 5 ∧
    Scalar.num 5 ≠ Scalar.var "y" := by
  refine ⟨?_, ?_, ?_⟩
  · intro S L pairs e
    unfold Substitution.apply
    rw [insert_all_substitutions, applyLoop_eq_foldl]
    simp [Substitution.empty]
  · simp [Substitution.apply, Substitution.Insert, Substitution.empty, applyLoop, linear,
      linearLayer, Scalar.Substitute, Scalar.var, Scalar.num, Scalar.add, Scalar.smul, coeffOf,
      addTerm]
  · simp [Scalar.num, Scalar.var]

/-! ## `Merge` and the constants of the equations -/

theorem smul_terms (q : ℚ) (a : Scalar) :
    (Scalar.smul q a).terms = if q = 0 then [] else a.terms.map fun t => (t.1, q * t.2) := by
  unfold Scalar.smul; split_ifs <;> rfl

theorem sub_terms (a b : Scalar) :
    (Scalar.sub a b).terms =
      (b.terms.map fun t => (t.1, -1 * t.2)).foldl (fun ts t => addTerm ts t.1 t.2) a.terms := by
  unfold Scalar.sub Scalar.neg Scalar.add
  simp [smul_terms]

theorem sub_num_terms (a : Scalar) (q : ℚ) : (Scalar.sub a (Scalar.num q)).terms = a.terms := by
  rw [sub_terms]; simp [Scalar.num]

theorem foldl_sub_terms (ts : List (String × ℚ)) : ∀ (a b : Scalar), a.terms = b.terms →
    ((ts.map fun t => (⟨[t], 0⟩ : Scalar)).foldl Scalar.sub a).terms =
      ((ts.map fun t => (⟨[t], 0⟩ : Scalar)).foldl Scalar.sub b).terms := by
  induction ts with
  | nil => intro a b h; simpa using h
  | cons t ts ih =>
    intro a b h
    simp only [List.map_cons, List.foldl_cons]
    apply ih
    rw [sub_terms, sub_terms, h]

/-- The variable part of `lhs - rhs` does not depend on the constants of `lhs` and `rhs`. -/
theorem equationOf_terms (rowReduce : List (List ℚ) → List (List ℚ)) (p : Scalar × Scalar) :
    (equationOf (linearLayer rowReduce) ((⟨p.1.terms, 0⟩ : Scalar), (⟨p.2.terms, 0⟩ : Scalar))).terms
      = (equationOf (linearLayer rowReduce) p).terms := by
  unfold equationOf
  simp only [linearLayer, Scalar.GetSummands, if_true]
  by_cases h : p.2.rest = 0
  · simp only [h, if_true, List.append_nil]
    exact foldl_sub_terms p.2.terms _ _ rfl
  · simp only [h, if_false, List.foldl_append, List.foldl_cons, List.foldl_nil, List.append_nil]
    rw [sub_num_terms]
    exact foldl_sub_terms p.2.terms _ _ rfl

theorem separate_of_terms (a b : Scalar) (h : a.terms = b.terms) :
    (Scalar.SeparateVariablesFromRest a).1 = (Scalar.SeparateVariablesFromRest b).1 := by
  unfold Scalar.SeparateVariablesFromRest; simp [h]

theorem collectPairs_dropConstants (rowReduce : List (List ℚ) → List (List ℚ))
    (pairs : List (Scalar × Scalar)) : ∀ c : Collected Scalar,
      collectPairs (linearLayer rowReduce) c
          (pairs.map fun p => ((⟨p.1.terms, 0⟩ : Scalar), (⟨p.2.terms, 0⟩ : Scalar))) =
        collectPairs (linearLayer rowReduce) c pairs := by
  induction pairs with
  | nil => intro c; rfl
  | cons p ps ih =>
    intro c
    simp only [List.map_cons, collectPairs]
    have : ((linearLayer rowReduce).SeparateVariablesFromRest
        (equationOf (linearLayer rowReduce) ((⟨p.1.terms, 0⟩ : Scalar), (⟨p.2.terms, 0⟩ : Scalar)))).1
        = ((linearLayer rowReduce).SeparateVariablesFromRest
            (equationOf (linearLayer rowReduce) p)).1 :=
      separate_of_terms _ _ (equationOf_terms rowReduce p)
    rw [this]
    cases addVariables (linearLayer rowReduce) true c.vars c.pos []
        ((linearLayer rowReduce).SeparateVariablesFromRest
          (equationOf (linearLayer rowReduce) p)).1 with
    | error e => rfl
    | ok r => exact ih _

theorem collect_dropConstants (rowReduce : List (List ℚ) → List (List ℚ))
    (subs : List (Substitution Scalar)) : ∀ c : Collected Scalar,
      collect (linearLayer rowReduce) c (subs.map dropConstants) =
        collect (linearLayer rowReduce) c subs := by
  induction subs with
  | nil => intro c; rfl
  | cons σ rest ih =>
    intro c
    simp only [List.map_cons, collect]
    have : collectPairs (linearLayer rowReduce) c (dropConstants σ).substitutions =
        collectPairs (linearLayer rowReduce) c σ.substitutions :=
      collectPairs_dropConstants rowReduce σ.substitutions c
    rw [this]
    cases collectPairs (linearLayer rowReduce) c σ.substitutions with
    | error e => rfl
    | ok c1 => exact ih c1

/-- C3 (amended): `Merge` never looks at the constant part of `lhs - rhs`.  On a list that
does not have exactly one element it returns, or fails, exactly as on the list with all
constants removed, which encodes a homogeneous and therefore consistent system. -/
theorem merge_ignores_constants (rowReduce : List (List ℚ) → List (List ℚ))
    (subs : List (Substitution Scalar)) (h : subs.length ≠ 1) :
    Merge (linearLayer rowReduce) subs = Merge (linearLayer rowReduce) (subs.map dropConstants) := by
  match subs, h with
  | [], _ => rfl
  | [s], h => exact absurd rfl h
  | s1 :: s2 :: rest, _ =>
    unfold Merge
    simp only [List.map_cons]
    have := collect_dropConstants rowReduce (s1 :: s2 :: rest) ⟨[], 0, []⟩
    simp only [List.map_cons] at this
    rw [this]

theorem merge_ignores_constants_witness :
    Merge (linearLayer gaussToRowEchelonForm)
        [⟨[(Scalar.var "x", ⟨[("y", 1)], 1⟩)]⟩, ⟨[(Scalar.var "x", ⟨[("y", 1)], 2⟩)]⟩] =
      Merge (linearLayer gaussToRowEchelonForm)
        ([⟨[(Scalar.var "x", ⟨[("y", 1)], 1⟩)]⟩, ⟨[(Scalar.var "x", ⟨[("y", 1)], 2⟩)]⟩].map
          dropConstants) :=
  merge_ignores_constants gaussToRowEchelonForm _ (by decide)

/-- C3 (as stated, refuted): the pairs `(x, y + 1)` and `(x, y + 2)` encode an inconsistent
system, and `Merge` returns the substitution `y ↦ x` instead of raising.  On the pairs
`(x, 1)` and `(x, 2)` the insertion of line 106 is at position 1 of an empty list, so `Merge`
does not get as far as raising `InvalidSubstitutionException` either. -/
theorem merge_accepts_inconsistent_system :
    (¬ ∃ vx vy : ℚ, vx - (vy + 1) = 0 ∧ vx - (vy + 2) = 0) ∧
    Merge linear [⟨[(Scalar.var "x", ⟨[("y", 1)], 1⟩)]⟩, ⟨[(Scalar.var "x", ⟨[("y", 1)], 2⟩)]⟩]
      = .ok ⟨[(Scalar.var "y", Scalar.var "x")]⟩ ∧
    Merge linear [⟨[(Scalar.var "x", Scalar.num 1)]⟩, ⟨[(Scalar.var "x", Scalar.num 2)]⟩]
      = .error .insertOutOfRange := by
  refine ⟨?_, ?_, ?_⟩
  · rintro ⟨vx, vy, h1, h2⟩; linarith
  · simp [Merge, collect, collectPairs, addVariables, equationOf, linear, linearLayer,
      Scalar.add, Scalar.num, Scalar.var, Scalar.GetSummands, Scalar.sub, Scalar.neg, Scalar.smul,
      addTerm, Scalar.SeparateVariablesFromRest, Scalar.IsNumeric, Scalar.ToDouble, mapSet, mapGet,
      toMatrix, gaussToRowEchelonForm, reduceFrom, findPivot, eliminate, subRow, readOff, scanRow,
      exactDot, Substitution.Insert, Substitution.empty]
  · simp [Merge, collect, collectPairs, addVariables, equationOf, linear, linearLayer,
      Scalar.add, Scalar.num, Scalar.var, Scalar.GetSummands, Scalar.sub, Scalar.neg, Scalar.smul,
      addTerm, Scalar.SeparateVariablesFromRest, Scalar.IsNumeric, Scalar.ToDouble, mapSet, mapGet]

/-- C4 (as stated, refuted): the pairs `(x, 1)` and `(y, 2)` encode a consistent system with
the unique solution `x = 1, y = 2`; `Merge` returns `x ↦ 0, y ↦ 0`, and applying that to
`x - 1` yields `-1`, not 0. -/
theorem merge_loses_constants :
    Merge linear [⟨[(Scalar.var "x", Scalar.num 1)]⟩, ⟨[(Scalar.var "y", Scalar.num 2)]⟩]
      = .ok ⟨[(Scalar.var "x", Scalar.num 0), (Scalar.var "y", Scalar.num 0)]⟩ ∧
    (⟨[(Scalar.var "x", Scalar.num 0), (Scalar.var "y", Scalar.num 0)]⟩ :
        Substitution Scalar).apply linear (equationOf linear (Scalar.var "x", Scalar.num 1))
      = Scalar.num (-1) ∧
    Scalar.num (-1) ≠ Scalar.num 0 := by
  refine ⟨?_, ?_, ?_⟩
  · simp [Merge, collect, collectPairs, addVariables, equationOf, linear, linearLayer,
      Scalar.add, Scalar.num, Scalar.var, Scalar.GetSummands, Scalar.sub, Scalar.neg, Scalar.smul,
      addTerm, Scalar.SeparateVariablesFromRest, Scalar.IsNumeric, Scalar.ToDouble, mapSet, mapGet,
      toMatrix, gaussToRowEchelonForm, reduceFrom, findPivot, eliminate, subRow, readOff, scanRow,
      exactDot, Substitution.Insert, Substitution.empty]
  · simp [Substitution.apply, applyLoop, equationOf, linear, linearLayer,
      Scalar.add, Scalar.num, Scalar.var, Scalar.GetSummands, Scalar.sub, Scalar.neg, Scalar.smul,
      addTerm, Scalar.Substitute, coeffOf]
  · simp [Scalar.num]


/-! ## The variable list of `Merge` -/

theorem mem_insert_at {α : Type} (l : List α) (pos : Nat) (a x : α) :
    x ∈ l.take pos ++ a :: l.drop pos ↔ x = a ∨ x ∈ l := by
  constructor
  · intro h
    rcases List.mem_append.1 h with h | h
    · exact Or.inr (List.mem_of_mem_take h)
    · rcases List.mem_cons.1 h with h | h
      · exact Or.inl h
      · exact Or.inr (List.mem_of_mem_drop h)
  · intro h
    rcases h with h | h
    · exact List.mem_append.2 (Or.inr (by simp [h]))
    · have : x ∈ l.take pos ++ l.drop pos := by rw [List.take_append_drop]; exact h
      rcases List.mem_append.1 this with h1 | h1
      · exact List.mem_append.2 (Or.inl h1)
      · exact List.mem_append.2 (Or.inr (List.mem_cons_of_mem _ h1))

/-- The variables on the list after the loop over one equation: those that were on it and
those of the equation. -/
theorem addVariables_mem {S : Type} [DecidableEq S] (L : ScalarLayer S) (vs : List (S × S)) :
    ∀ (first : Bool) (vars : List S) (pos : Nat) (map : List (S × ℚ))
      (r : List S × Nat × List (S × ℚ)),
      addVariables L first vars pos map vs = .ok r →
      ∀ x, x ∈ r.1 ↔ x ∈ vars ∨ ∃ w ∈ vs, w.1 = x := by
  induction vs with
  | nil =>
    intro first vars pos map r h x
    simp only [addVariables, Except.ok.injEq] at h
    subst h
    simp
  | cons v vs ih =>
    intro first vars pos map r h x
    rw [addVariables] at h
    have key : ∀ (vars1 : List S) (pos1 : Nat),
        (∀ y, y ∈ vars1 ↔ y = v.1 ∨ y ∈ vars) →
        (if L.IsNumeric v.2 = false then (Except.error MergeError.assertion :
            Except MergeError (List S × Nat × List (S × ℚ)))
          else addVariables L false vars1 pos1 (mapSet map v.1 (L.ToDouble v.2)) vs) = .ok r →
        (x ∈ r.1 ↔ x ∈ vars ∨ ∃ w ∈ v :: vs, w.1 = x) := by
      intro vars1 pos1 hmem hr
      by_cases hnum : L.IsNumeric v.2 = false
      · simp [hnum] at hr
      · simp only [hnum, if_false] at hr
        rw [ih false vars1 pos1 _ r hr x, hmem]
        simp only [List.mem_cons, exists_eq_or_imp]
        constructor
        · rintro ((h1 | h1) | h1)
          · exact Or.inr (Or.inl h1.symm)
          · exact Or.inl h1
          · exact Or.inr (Or.inr h1)
        · rintro (h1 | h1 | h1)
          · exact Or.inl (Or.inr h1)
          · exact Or.inl (Or.inl h1.symm)
          · exact Or.inr h1
    by_cases hfirst : first = true
    · simp only [hfirst, if_true] at h
      by_cases hin : v.1 ∈ vars
      · simp only [hin, if_true] at h
        by_cases hpos : pos ≤ (vars.erase v.1).length
        · simp only [hpos, if_true] at h
          refine key _ _ ?_ h
          intro y
          rw [mem_insert_at]
          by_cases hy : y = v.1
          · simp [hy]
          · rw [List.mem_erase_of_ne hy]
        · simp [hpos] at h
      · simp only [hin, if_false] at h
        by_cases hpos : pos ≤ vars.length
        · simp only [hpos, if_true] at h
          exact key _ _ (fun y => mem_insert_at vars pos v.1 y) h
        · simp [hpos] at h
    · simp only [hfirst, Bool.false_eq_true, if_false] at h
      by_cases hin : v.1 ∈ vars
      · simp only [hin, if_true] at h
        refine key _ _ ?_ h
        intro y
        constructor
        · exact fun hy => Or.inr hy
        · rintro (hy | hy)
          · rw [hy]; exact hin
          · exact hy
      · simp only [hin, if_false] at h
        refine key _ _ ?_ h
        intro y
        simp only [List.mem_append, List.mem_singleton]
        exact Or.comm

theorem collectPairs_mem {S : Type} [DecidableEq S] (L : ScalarLayer S) (pairs : List (S × S)) :
    ∀ (c c1 : Collected S), collectPairs L c pairs = .ok c1 →
      ∀ x, x ∈ c1.vars ↔ x ∈ c.vars ∨
        ∃ p ∈ pairs, ∃ w ∈ (L.SeparateVariablesFromRest (equationOf L p)).1, w.1 = x := by
  induction pairs with
  | nil =>
    intro c c1 h x
    simp only [collectPairs, Except.ok.injEq] at h
    subst h; simp
  | cons p ps ih =>
    intro c c1 h x
    rw [collectPairs] at h
    cases hadd : addVariables L true c.vars c.pos []
        (L.SeparateVariablesFromRest (equationOf L p)).1 with
    | error e => rw [hadd] at h; simp at h
    | ok r =>
      rw [hadd] at h
      obtain ⟨vars1, pos1, map1⟩ := r
      simp only at h
      rw [ih _ c1 h x]
      simp only
      rw [addVariables_mem L _ true c.vars c.pos [] _ hadd x]
      simp only [List.mem_cons, exists_eq_or_imp]
      exact or_assoc

theorem collect_mem {S : Type} [DecidableEq S] (L : ScalarLayer S)
    (subs : List (Substitution S)) :
    ∀ (c c1 : Collected S), collect L c subs = .ok c1 →
      ∀ x, x ∈ c1.vars ↔ x ∈ c.vars ∨
        ∃ σ ∈ subs, ∃ p ∈ σ.substitutions,
          ∃ w ∈ (L.SeparateVariablesFromRest (equationOf L p)).1, w.1 = x := by
  induction subs with
  | nil =>
    intro c c1 h x
    simp only [collect, Except.ok.injEq] at h
    subst h; simp
  | cons σ rest ih =>
    intro c c1 h x
    rw [collect] at h
    cases hcp : collectPairs L c σ.substitutions with
    | error e => rw [hcp] at h; simp at h
    | ok c2 =>
      rw [hcp] at h
      simp only at h
      rw [ih c2 c1 h x, collectPairs_mem L _ c c2 hcp x]
      simp only [List.mem_cons, exists_eq_or_imp]
      exact or_assoc

/-! ## Theorems about `Merge` of one substitution and about serialization -/

/-- C14: `Merge` of a list with the one element `s` returns `s` as it is, whatever the
scalar layer and its row reduction; for `twiceX` it does so although the first loop of
`Merge` would fail on it. -/
theorem merge_single :
    (∀ (S : Type) [DecidableEq S] (L : ScalarLayer S) (s : Substitution S),
      Merge L [s] = .ok s) ∧
    Merge linear [twiceX] = .ok twiceX ∧
    collect linear ⟨[], 0, []⟩ [twiceX] = .error .insertOutOfRange := by
  refine ⟨fun S _ L s => rfl, rfl, ?_⟩
  simp [twiceX, collect, collectPairs, addVariables, equationOf, linear, linearLayer,
    Scalar.add, Scalar.num, Scalar.var, Scalar.GetSummands, Scalar.sub, Scalar.neg, Scalar.smul,
    addTerm, Scalar.SeparateVariablesFromRest, Scalar.IsNumeric, Scalar.ToDouble, mapSet]

theorem deserializePairs_serializePairs {S B : Type} (C : Codec S B)
    (hscalar : ∀ s rest, C.DeserializeScalar (C.SerializeScalar s ++ rest) = some (s, rest))
    (rest : List B) (pairs : List (S × S)) : ∀ acc : Substitution S,
      deserializePairs C pairs.length acc (serializePairs C pairs ++ rest) =
        some (⟨acc.substitutions ++ pairs⟩, rest) := by
  induction pairs with
  | nil => intro acc; simp [deserializePairs, serializePairs]
  | cons p ps ih =>
    intro acc
    simp only [List.length_cons, deserializePairs, serializePairs, List.append_assoc, hscalar]
    rw [ih]
    simp [Substitution.Insert]

/-- C15: when the count header and the scalars round-trip, `Deserialize` reads back from
the stream `Serialize` wrote (the count, then both sides of every pair in order) the
substitution itself, pair for pair, whatever follows on the stream; the substitution
without pairs included. -/
theorem deserialize_serialize {S B : Type} (C : Codec S B)
    (hsize : ∀ n rest, C.ReadSize (C.WriteSize n ++ rest) = (n, rest))
    (hscalar : ∀ s rest, C.DeserializeScalar (C.SerializeScalar s ++ rest) = some (s, rest))
    (σ : Substitution S) (rest : List B) :
    Substitution.Deserialize C (σ.Serialize C ++ rest) = some (σ, rest) ∧
    Substitution.Deserialize C ((Substitution.empty : Substitution S).Serialize C ++ rest) =
      some (Substitution.empty, rest) := by
  have key : ∀ τ : Substitution S,
      Substitution.Deserialize C (τ.Serialize C ++ rest) = some (τ, rest) := by
    intro τ
    unfold Substitution.Deserialize Substitution.Serialize
    rw [List.append_assoc, hsize]
    simp only
    rw [deserializePairs_serializePairs C hscalar rest τ.substitutions Substitution.empty]
    simp [Substitution.empty]
  exact ⟨key σ, key _⟩

theorem deserialize_serialize_witness :
    Substitution.Deserialize numberCodec
        ((⟨[(1, 2), (3, 4)]⟩ : Substitution Nat).Serialize numberCodec ++ [7]) =
      some (⟨[(1, 2), (3, 4)]⟩, [7]) ∧
    Substitution.Deserialize numberCodec
        ((Substitution.empty : Substitution Nat).Serialize numberCodec ++ [7]) =
      some (Substitution.empty, [7]) :=
  deserialize_serialize numberCodec (fun _ _ => rfl) (fun _ _ => rfl) ⟨[(1, 2), (3, 4)]⟩ [7]

/-! ## The read-out of one row -/

/-- Once the left side is found, every entry that is not 0 adds its term to the right side. -/
theorem scanRow_found {S : Type} (L : ScalarLayer S) (xs : List ℚ) :
    ∀ (vs : List S) (st : RowScan S), st.isZero = false →
      scanRow L st xs vs = { st with rhs := (contributions L xs vs).foldl L.add st.rhs } := by
  induction xs with
  | nil => intro vs st _; cases vs <;> rfl
  | cons x xs ih =>
    intro vs st hst
    obtain ⟨iz, lhs, rhs⟩ := st
    simp only at hst
    subst hst
    cases vs with
    | nil => rfl
    | cons v vs =>
      rw [scanRow, contributions]
      by_cases hx : x = 0
      · simp only [hx, Bool.false_eq_true, and_false, if_false, ne_eq, not_true_eq_false,
          zero_ne_one]
        exact ih vs _ rfl
      · simp only [Bool.false_eq_true, and_false, if_false, ne_eq, hx, not_false_eq_true,
          if_true, List.foldl_cons]
        exact ih vs _ rfl

/-- As long as no entry equals 1 no left side is found, and every entry that is not 0 adds
its term to the right side. -/
theorem scanRow_searching {S : Type} (L : ScalarLayer S) (xs : List ℚ) :
    ∀ (vs : List S) (st : RowScan S), st.isZero = true → (1 : ℚ) ∉ xs →
      scanRow L st xs vs = { st with rhs := (contributions L xs vs).foldl L.add st.rhs } := by
  induction xs with
  | nil => intro vs st _ _; cases vs <;> rfl
  | cons x xs ih =>
    intro vs st hst hone
    obtain ⟨iz, lhs, rhs⟩ := st
    simp only at hst
    subst hst
    have hx1 : x ≠ 1 := fun h => hone (by simp [h])
    have hrest : (1 : ℚ) ∉ xs := fun h => hone (by simp [h])
    cases vs with
    | nil => rfl
    | cons v vs =>
      rw [scanRow, contributions]
      by_cases hx : x = 0
      · simp only [hx, and_self, if_true, ne_eq, not_true_eq_false, if_false]
        exact ih vs _ rfl hrest
      · simp only [hx, false_and, if_false, hx1, ne_eq, not_false_eq_true, if_true,
          List.foldl_cons]
        exact ih vs _ rfl hrest

/-- The left side is the variable of the first entry that equals 1; the entries before and
behind it that are not 0 add their terms to the right side. -/
theorem scanRow_first_one {S : Type} (L : ScalarLayer S) (post : List ℚ) (vpost : List S)
    (v : S) (pre : List ℚ) :
    ∀ (vpre : List S) (st : RowScan S), st.isZero = true → vpre.length = pre.length →
      (1 : ℚ) ∉ pre →
      scanRow L st (pre ++ 1 :: post) (vpre ++ v :: vpost) =
        ⟨false, v, (contributions L pre vpre ++ contributions L post vpost).foldl L.add st.rhs⟩ := by
  induction pre with
  | nil =>
    intro vpre st hst hlen _
    have hv : vpre = [] := List.length_eq_zero.1 hlen
    subst hv
    simp only [List.nil_append]
    rw [scanRow]
    simp only [one_ne_zero, false_and, if_false, hst, and_self, if_true]
    rw [scanRow_found L post vpost _ rfl]
    rfl
  | cons x pre ih =>
    intro vpre st hst hlen hone
    have hx1 : x ≠ 1 := fun h => hone (by simp [h])
    have hrest : (1 : ℚ) ∉ pre := fun h => hone (by simp [h])
    cases vpre with
    | nil => simp at hlen
    | cons w vpre =>
      simp only [List.length_cons, Nat.add_right_cancel_iff] at hlen
      simp only [List.cons_append]
      rw [scanRow, contributions]
      by_cases hx : x = 0
      · simp only [hx, hst, and_self, if_true, ne_eq, not_true_eq_false, if_false]
        exact ih vpre st hst hlen hrest
      · simp only [hx, false_and, if_false, hx1, ne_eq, not_false_eq_true, if_true,
          List.cons_append, List.foldl_cons]
        exact ih vpre _ hst hlen hrest

theorem contributions_zeros {S : Type} (L : ScalarLayer S) (xs : List ℚ) :
    ∀ (vs : List S), (∀ x ∈ xs, x = 0) → contributions L xs vs = [] := by
  induction xs with
  | nil => intro vs _; rfl
  | cons x xs ih =>
    intro vs hz
    cases vs with
    | nil => rfl
    | cons v vs =>
      have hx : x = 0 := hz x (by simp)
      rw [contributions]
      simp only [hx, ne_eq, not_true_eq_false, if_false]
      exact ih vs (fun y hy => hz y (by simp [hy]))

/-- The read-out of one row that holds a 1 and is not taken for a null row: the pair of the
variable of the first 1 and the terms of the other entries is inserted. -/
theorem readOff_row {S : Type} (L : ScalarLayer S) (pre post : List ℚ)
    (vpre vpost : List S) (v : S) (result : Substitution S) (rows : List (List ℚ))
    (hlen : vpre.length = pre.length) (hpre : (1 : ℚ) ∉ pre)
    (hv : ¬ (L.IsNumeric v = true ∧ L.ToDouble v = 0))
    (hrow : L.dot (pre ++ 1 :: post) (pre ++ 1 :: post) ≠ 0) :
    readOff L (vpre ++ v :: vpost) result ((pre ++ 1 :: post) :: rows) =
      readOff L (vpre ++ v :: vpost)
        (result.Insert v
          ((contributions L pre vpre ++ contributions L post vpost).foldl L.add L.zero)) rows := by
  have hscan := scanRow_first_one L post vpost v pre vpre ⟨true, L.zero, L.zero⟩ rfl hlen hpre
  rw [readOff]
  simp only [hrow, if_false, hscan, hv]

/-- C22 (amended): in the read-out of a row that line 148 does not take for a null row, the
left side is the variable of the first entry that equals 1, whatever stands before it; every
other entry that is not 0, before or behind it, adds the term `-variable * entry` to the
right side, and the pair is inserted.  When the entries before the 1 are all 0, so that the
1 is the first nonzero entry, only the entries behind it contribute.  Such a row without an
entry 1 makes `Merge` throw; a row that line 148 takes for a null row ends the read-out. -/
theorem readOff_isolates_first_one {S : Type} (L : ScalarLayer S) (pre post : List ℚ)
    (vpre vpost : List S) (v : S) (result : Substitution S) (rows : List (List ℚ))
    (hlen : vpre.length = pre.length) (hpre : (1 : ℚ) ∉ pre)
    (hv : ¬ (L.IsNumeric v = true ∧ L.ToDouble v = 0))
    (hzero : L.IsNumeric L.zero = true ∧ L.ToDouble L.zero = 0)
    (hrow : L.dot (pre ++ 1 :: post) (pre ++ 1 :: post) ≠ 0) :
    scanRow L ⟨true, L.zero, L.zero⟩ (pre ++ 1 :: post) (vpre ++ v :: vpost) =
      ⟨false, v, (contributions L pre vpre ++ contributions L post vpost).foldl L.add L.zero⟩ ∧
    readOff L (vpre ++ v :: vpost) result ((pre ++ 1 :: post) :: rows) =
      readOff L (vpre ++ v :: vpost)
        (result.Insert v
          ((contributions L pre vpre ++ contributions L post vpost).foldl L.add L.zero)) rows ∧
    ((∀ x ∈ pre, x = 0) → contributions L pre vpre = []) ∧
    (∀ (vec : List ℚ) (vars : List S), (1 : ℚ) ∉ vec → L.dot vec vec ≠ 0 →
      scanRow L ⟨true, L.zero, L.zero⟩ vec vars =
        ⟨true, L.zero, (contributions L vec vars).foldl L.add L.zero⟩ ∧
      readOff L vars result (vec :: rows) = .error .InvalidSubstitutionException) ∧
    (∀ (vec : List ℚ) (vars : List S), L.dot vec vec = 0 →
      readOff L vars result (vec :: rows) = .ok result) := by
  have hscan := scanRow_first_one L post vpost v pre vpre ⟨true, L.zero, L.zero⟩ rfl hlen hpre
  refine ⟨hscan, readOff_row L pre post vpre vpost v result rows hlen hpre hv hrow,
    contributions_zeros L pre vpre, ?_, ?_⟩
  · intro vec vars hone hnz
    have hs := scanRow_searching L vec vars ⟨true, L.zero, L.zero⟩ rfl hone
    refine ⟨hs, ?_⟩
    rw [readOff]
    simp only [hnz, if_false, hs, hzero, and_self, if_true]
  · intro vec vars hnull
    rw [readOff]
    simp only [hnull, if_true]

theorem readOff_isolates_first_one_witness :
    scanRow linear ⟨true, linear.zero, linear.zero⟩ ([0] ++ 1 :: [3])
        ([Scalar.var "x"] ++ Scalar.var "y" :: [Scalar.var "z"]) =
      ⟨false, Scalar.var "y",
        (contributions linear [0] [Scalar.var "x"] ++
          contributions linear [3] [Scalar.var "z"]).foldl linear.add linear.zero⟩ ∧
    readOff linear ([Scalar.var "x"] ++ Scalar.var "y" :: [Scalar.var "z"]) Substitution.empty
        (([0] ++ 1 :: [3]) :: []) =
      .ok ⟨[(Scalar.var "y", ⟨[("z", -3)], 0⟩)]⟩ := by
  have h := readOff_isolates_first_one linear [0] [3] [Scalar.var "x"] [Scalar.var "z"]
    (Scalar.var "y") Substitution.empty [] rfl (by simp)
    (by simp [linear, linearLayer, Scalar.IsNumeric, Scalar.var])
    (by simp [linear, linearLayer, Scalar.IsNumeric, Scalar.ToDouble, Scalar.num])
    (by simp [linear, linearLayer, exactDot]; norm_num)
  refine ⟨h.1, ?_⟩
  rw [h.2.1]
  simp [readOff, contributions, Substitution.Insert, Substitution.empty, linear, linearLayer,
    Scalar.add, Scalar.num, Scalar.var, Scalar.neg, Scalar.smul, addTerm]

/-- C22 (as stated, refuted): in the row `[2, 1]` the first nonzero entry is the 2 in the
column of `x`.  `Merge` does not fail on it: the read-out isolates `y`, the variable of the
entry 1 behind it, with the right side `-2x`; so does `Merge` on `skewSubs` over a row
reduction that hands this row on. -/
theorem readOff_accepts_leading_two :
    readOff linear [Scalar.var "x", Scalar.var "y"] Substitution.empty [[2, 1]] =
      .ok ⟨[(Scalar.var "y", ⟨[("x", -2)], 0⟩)]⟩ ∧
    toMatrix (⟨[Scalar.var "x", Scalar.var "y"], 1,
      [[(Scalar.var "x", 2), (Scalar.var "y", 1)]]⟩ : Collected Scalar) = [[2, 1]] ∧
    Merge (linearLayer fun M => M) skewSubs = .ok ⟨[(Scalar.var "y", ⟨[("x", -2)], 0⟩)]⟩ := by
  refine ⟨?_, ?_, ?_⟩
  · simp [readOff, scanRow, exactDot, Substitution.Insert, Substitution.empty, linear,
      linearLayer, Scalar.add, Scalar.num, Scalar.var, Scalar.neg, Scalar.smul, addTerm,
      Scalar.IsNumeric, Scalar.ToDouble]
    norm_num
  · simp [toMatrix, mapGet, Scalar.var]
  · simp [Merge, skewSubs, collect, collectPairs, addVariables, equationOf, toMatrix, mapGet,
      mapSet, readOff, scanRow, exactDot, Substitution.Insert, Substitution.empty,
      linearLayer, Scalar.add, Scalar.sub, Scalar.num, Scalar.var, Scalar.neg, Scalar.smul,
      addTerm, Scalar.IsNumeric, Scalar.ToDouble, Scalar.GetSummands,
      Scalar.SeparateVariablesFromRest]
    norm_num

/-! ## The variable list and the maps of `Merge` -/

theorem nodup_insert_at {α : Type} (l : List α) (pos : Nat) (a : α) :
    (l.take pos ++ a :: l.drop pos).Nodup ↔ a ∉ l ∧ l.Nodup := by
  have hperm : (l.take pos ++ a :: l.drop pos).Perm (a :: l) := by
    have h := @List.perm_middle α a (l.take pos) (l.drop pos)
    rw [List.take_append_drop] at h
    exact h
  rw [hperm.nodup_iff, List.nodup_cons]

/-- The loop over the variables of one equation keeps the list duplicate-free, keeps `pos`
within the list, and fills the map with one assignment per variable. -/
theorem addVariables_inv {S : Type} [DecidableEq S] (L : ScalarLayer S) (vs : List (S × S)) :
    ∀ (first : Bool) (vars : List S) (pos : Nat) (map : List (S × ℚ))
      (r : List S × Nat × List (S × ℚ)),
      addVariables L first vars pos map vs = .ok r →
      (vars.Nodup → r.1.Nodup) ∧ (pos ≤ vars.length → r.2.1 ≤ r.1.length) ∧
      r.2.2 = vs.foldl (fun m v => mapSet m v.1 (L.ToDouble v.2)) map := by
  induction vs with
  | nil =>
    intro first vars pos map r h
    simp only [addVariables, Except.ok.injEq] at h
    subst h
    exact ⟨id, id, rfl⟩
  | cons v vs ih =>
    intro first vars pos map r h
    rw [addVariables] at h
    have key : ∀ (vars1 : List S) (pos1 : Nat),
        (vars.Nodup → vars1.Nodup) → (pos ≤ vars.length → pos1 ≤ vars1.length) →
        (if L.IsNumeric v.2 = false then (Except.error MergeError.assertion :
            Except MergeError (List S × Nat × List (S × ℚ)))
          else addVariables L false vars1 pos1 (mapSet map v.1 (L.ToDouble v.2)) vs) = .ok r →
        ((vars.Nodup → r.1.Nodup) ∧ (pos ≤ vars.length → r.2.1 ≤ r.1.length) ∧
          r.2.2 = (v :: vs).foldl (fun m v => mapSet m v.1 (L.ToDouble v.2)) map) := by
      intro vars1 pos1 hnd hle hr
      by_cases hnum : L.IsNumeric v.2 = false
      · simp [hnum] at hr
      · simp only [hnum, if_false] at hr
        obtain ⟨h1, h2, h3⟩ := ih false vars1 pos1 _ r hr
        exact ⟨fun hn => h1 (hnd hn), fun hp => h2 (hle hp), h3⟩
    by_cases hfirst : first = true
    · simp only [hfirst, if_true] at h
      by_cases hin : v.1 ∈ vars
      · simp only [hin, if_true] at h
        by_cases hpos : pos ≤ (vars.erase v.1).length
        · simp only [hpos, if_true] at h
          refine key _ _ ?_ ?_ h
          · intro hn
            rw [nodup_insert_at]
            exact ⟨hn.not_mem_erase, hn.erase _⟩
          · intro _
            simp only [List.length_append, List.length_cons, List.length_take, List.length_drop]
            omega
        · simp [hpos] at h
      · simp only [hin, if_false] at h
        by_cases hpos : pos ≤ vars.length
        · simp only [hpos, if_true] at h
          refine key _ _ ?_ ?_ h
          · intro hn
            rw [nodup_insert_at]
            exact ⟨hin, hn⟩
          · intro _
            simp only [List.length_append, List.length_cons, List.length_take, List.length_drop]
            omega
        · simp [hpos] at h
    · simp only [hfirst, Bool.false_eq_true, if_false] at h
      by_cases hin : v.1 ∈ vars
      · simp only [hin, if_true] at h
        exact key _ _ id id h
      · simp only [hin, if_false] at h
        refine key _ _ ?_ ?_ h
        · intro hn
          rw [List.nodup_append]
          refine ⟨hn, by simp, ?_⟩
          intro a ha hb
          simp only [List.mem_singleton] at hb
          subst hb
          exact hin ha
        · intro hp
          simp only [List.length_append, List.length_singleton]
          omega

theorem collectPairs_inv {S : Type} [DecidableEq S] (L : ScalarLayer S)
    (pairs : List (S × S)) :
    ∀ (c c1 : Collected S), collectPairs L c pairs = .ok c1 →
      (c.vars.Nodup → c1.vars.Nodup) ∧ (c.pos ≤ c.vars.length → c1.pos ≤ c1.vars.length) ∧
      c1.data = c.data ++
        pairs.map fun p => coefficientMap L (L.SeparateVariablesFromRest (equationOf L p)).1 := by
  induction pairs with
  | nil =>
    intro c c1 h
    simp only [collectPairs, Except.ok.injEq] at h
    subst h
    exact ⟨id, id, by simp⟩
  | cons p ps ih =>
    intro c c1 h
    rw [collectPairs] at h
    cases hadd : addVariables L true c.vars c.pos []
        (L.SeparateVariablesFromRest (equationOf L p)).1 with
    | error e => rw [hadd] at h; simp at h
    | ok r =>
      rw [hadd] at h
      obtain ⟨vars1, pos1, map1⟩ := r
      simp only at h
      obtain ⟨a1, a2, a3⟩ := addVariables_inv L _ true c.vars c.pos [] _ hadd
      obtain ⟨b1, b2, b3⟩ := ih _ c1 h
      simp only at a1 a2 a3 b1 b2 b3
      refine ⟨fun hn => b1 (a1 hn), fun hp => b2 (a2 hp), ?_⟩
      rw [b3, a3]
      simp [coefficientMap]

theorem collect_inv {S : Type} [DecidableEq S] (L : ScalarLayer S)
    (subs : List (Substitution S)) :
    ∀ (c c1 : Collected S), collect L c subs = .ok c1 →
      (c.vars.Nodup → c1.vars.Nodup) ∧ (c.pos ≤ c.vars.length → c1.pos ≤ c1.vars.length) ∧
      c1.data = c.data ++
        (subs.flatMap fun σ => σ.substitutions).map fun p =>
          coefficientMap L (L.SeparateVariablesFromRest (equationOf L p)).1 := by
  induction subs with
  | nil =>
    intro c c1 h
    simp only [collect, Except.ok.injEq] at h
    subst h
    exact ⟨id, id, by simp⟩
  | cons σ rest ih =>
    intro c c1 h
    rw [collect] at h
    cases hcp : collectPairs L c σ.substitutions with
    | error e => rw [hcp] at h; simp at h
    | ok c2 =>
      rw [hcp] at h
      simp only at h
      obtain ⟨a1, a2, a3⟩ := collectPairs_inv L _ c c2 hcp
      obtain ⟨b1, b2, b3⟩ := ih c2 c1 h
      refine ⟨fun hn => b1 (a1 hn), fun hp => b2 (a2 hp), ?_⟩
      rw [b3, a3]
      simp

theorem mapGet_mapSet_self {S : Type} [DecidableEq S] (m : List (S × ℚ)) (k : S) (q : ℚ) :
    mapGet (mapSet m k q) k = q := by
  induction m with
  | nil => simp [mapSet, mapGet]
  | cons e m ih =>
    obtain ⟨k1, v1⟩ := e
    rw [mapSet]
    by_cases h : k1 = k
    · simp [h, mapGet]
    · simp [h, mapGet, ih]

theorem mapGet_mapSet_ne {S : Type} [DecidableEq S] (m : List (S × ℚ)) (k x : S) (q : ℚ)
    (hx : x ≠ k) : mapGet (mapSet m k q) x = mapGet m x := by
  induction m with
  | nil =>
    have : ¬ (k = x) := fun h => hx h.symm
    simp [mapSet, mapGet, this]
  | cons e m ih =>
    obtain ⟨k1, v1⟩ := e
    rw [mapSet]
    by_cases h : k1 = k
    · have h1 : ¬ (k = x) := fun h => hx h.symm
      have h2 : ¬ (k1 = x) := by rw [h]; exact h1
      simp [h, mapGet, h1]
    · by_cases h3 : k1 = x
      · subst h3
        simp only [h, if_false, mapGet, if_true]
      · simp [h, mapGet, h3, ih]

theorem mapGet_foldl_not_mem {S : Type} [DecidableEq S] (L : ScalarLayer S)
    (vs : List (S × S)) (x : S) (hx : x ∉ vs.map Prod.fst) :
    ∀ m : List (S × ℚ),
      mapGet (vs.foldl (fun m v => mapSet m v.1 (L.ToDouble v.2)) m) x = mapGet m x := by
  induction vs with
  | nil => intro m; rfl
  | cons v vs ih =>
    intro m
    simp only [List.map_cons, List.mem_cons, not_or] at hx
    rw [List.foldl_cons, ih hx.2, mapGet_mapSet_ne _ _ _ _ hx.1]

theorem mapGet_foldl_mem {S : Type} [DecidableEq S] (L : ScalarLayer S)
    (vs : List (S × S)) (hnd : (vs.map Prod.fst).Nodup) :
    ∀ (m : List (S × ℚ)) (w : S × S), w ∈ vs →
      mapGet (vs.foldl (fun m v => mapSet m v.1 (L.ToDouble v.2)) m) w.1 = L.ToDouble w.2 := by
  induction vs with
  | nil => intro m w hw; simp at hw
  | cons v vs ih =>
    intro m w hw
    simp only [List.map_cons, List.nodup_cons] at hnd
    rw [List.foldl_cons]
    rcases List.mem_cons.1 hw with h | h
    · subst h
      rw [mapGet_foldl_not_mem L vs w.1 hnd.1, mapGet_mapSet_self]
    · exact ih hnd.2 _ w h

/-- When the first loop of `Merge` has gone through all pairs of two or more substitutions,
the variable list has no duplicates and holds exactly the variables that have a linear
coefficient in some pair; the matrix has one row per pair and one column per variable of
the list, and for a pair whose variables are distinct the entry in the column of each of
its variables is that variable's coefficient, and 0 in the column of a variable the pair
does not have. -/
theorem collect_variable_list {S : Type} [DecidableEq S] (L : ScalarLayer S)
    (subs : List (Substitution S)) (c : Collected S) (h2 : 2 ≤ subs.length)
    (h : collect L ⟨[], 0, []⟩ subs = .ok c) :
    c.vars.Nodup ∧
    (∀ x, x ∈ c.vars ↔ ∃ σ ∈ subs, ∃ p ∈ σ.substitutions,
      ∃ w ∈ (L.SeparateVariablesFromRest (equationOf L p)).1, w.1 = x) ∧
    toMatrix c = ((subs.flatMap fun σ => σ.substitutions).map fun p =>
      c.vars.map fun v =>
        mapGet (coefficientMap L (L.SeparateVariablesFromRest (equationOf L p)).1) v) ∧
    (∀ σ ∈ subs, ∀ p ∈ σ.substitutions,
      (∀ w ∈ (L.SeparateVariablesFromRest (equationOf L p)).1,
        ((L.SeparateVariablesFromRest (equationOf L p)).1.map Prod.fst).Nodup →
        w.1 ∈ c.vars ∧
        mapGet (coefficientMap L (L.SeparateVariablesFromRest (equationOf L p)).1) w.1 =
          L.ToDouble w.2) ∧
      (∀ x, x ∉ (L.SeparateVariablesFromRest (equationOf L p)).1.map Prod.fst →
        mapGet (coefficientMap L (L.SeparateVariablesFromRest (equationOf L p)).1) x = 0)) ∧
    Merge L subs = readOff L c.vars Substitution.empty (L.ToRowEchelonForm (toMatrix c)) := by
  obtain ⟨hnd, _, hdata⟩ := collect_inv L subs _ c h
  have hmem := collect_mem L subs _ c h
  refine ⟨hnd List.nodup_nil, ?_, ?_, ?_, ?_⟩
  · intro x
    rw [hmem x]
    simp
  · unfold toMatrix
    rw [hdata]
    simp
  · intro σ hσ p hp
    refine ⟨?_, ?_⟩
    · intro w hw hkeys
      refine ⟨(hmem w.1).2 (Or.inr ⟨σ, hσ, p, hp, w, hw, rfl⟩), ?_⟩
      exact mapGet_foldl_mem L _ hkeys [] w hw
    · intro x hx
      exact mapGet_foldl_not_mem L _ x hx []
  · match subs, h2, h with
    | [], h2, _ => simp at h2
    | [_], h2, _ => simp at h2
    | a :: b :: rest, _, h =>
      unfold Merge
      simp only [h]

theorem addVariables_pos {S : Type} [DecidableEq S] (L : ScalarLayer S) (vs : List (S × S)) :
    ∀ (first : Bool) (vars : List S) (pos : Nat) (map : List (S × ℚ))
      (r : List S × Nat × List (S × ℚ)),
      addVariables L first vars pos map vs = .ok r →
      r.2.1 = pos + (if first = true ∧ vs ≠ [] then 1 else 0) := by
  induction vs with
  | nil =>
    intro first vars pos map r h
    simp only [addVariables, Except.ok.injEq] at h
    subst h
    simp
  | cons v vs ih =>
    intro first vars pos map r h
    rw [addVariables] at h
    have key : ∀ (vars1 : List S) (pos1 : Nat),
        (if L.IsNumeric v.2 = false then (Except.error MergeError.assertion :
            Except MergeError (List S × Nat × List (S × ℚ)))
          else addVariables L false vars1 pos1 (mapSet map v.1 (L.ToDouble v.2)) vs) = .ok r →
        r.2.1 = pos1 := by
      intro vars1 pos1 hr
      by_cases hnum : L.IsNumeric v.2 = false
      · simp [hnum] at hr
      · simp only [hnum, if_false] at hr
        have := ih false vars1 pos1 _ r hr
        simpa using this
    by_cases hfirst : first = true
    · simp only [hfirst, if_true] at h
      by_cases hpos : pos ≤ (if v.1 ∈ vars then vars.erase v.1 else vars).length
      · simp only [hpos, if_true] at h
        rw [key _ _ h]
        simp [hfirst]
      · simp [hpos] at h
    · simp only [hfirst, Bool.false_eq_true, if_false] at h
      by_cases hin : v.1 ∈ vars
      · simp only [hin, if_true] at h
        rw [key _ _ h]
        simp [hfirst]
      · simp only [hin, if_false] at h
        rw [key _ _ h]
        simp [hfirst]

theorem collectPairs_pos {S : Type} [DecidableEq S] (L : ScalarLayer S)
    (pairs : List (S × S)) :
    ∀ (c c1 : Collected S), collectPairs L c pairs = .ok c1 →
      c1.pos = c.pos +
        (pairs.filter fun p => (L.SeparateVariablesFromRest (equationOf L p)).1 ≠ []).length := by
  induction pairs with
  | nil =>
    intro c c1 h
    simp only [collectPairs, Except.ok.injEq] at h
    subst h
    simp
  | cons p ps ih =>
    intro c c1 h
    rw [collectPairs] at h
    cases hadd : addVariables L true c.vars c.pos []
        (L.SeparateVariablesFromRest (equationOf L p)).1 with
    | error e => rw [hadd] at h; simp at h
    | ok r =>
      rw [hadd] at h
      obtain ⟨vars1, pos1, map1⟩ := r
      simp only at h
      have h1 := addVariables_pos L _ true c.vars c.pos [] _ hadd
      have h2 := ih _ c1 h
      simp only at h1 h2
      rw [h2, h1]
      by_cases hne : (L.SeparateVariablesFromRest (equationOf L p)).1 = []
      · simp [hne, List.filter]
      · simp [hne, List.filter]
        omega

/-- When the first loop of `Merge` runs to its end, there are no more pairs with a variable
than there are variables. -/
theorem collect_pairs_le_variables {S : Type} [DecidableEq S] (L : ScalarLayer S)
    (subs : List (Substitution S)) :
    ∀ (c c1 : Collected S), collect L c subs = .ok c1 → c.pos ≤ c.vars.length →
      c1.pos = c.pos + ((subs.flatMap fun σ => σ.substitutions).filter fun p =>
        (L.SeparateVariablesFromRest (equationOf L p)).1 ≠ []).length ∧
      c1.pos ≤ c1.vars.length := by
  induction subs with
  | nil =>
    intro c c1 h hle
    simp only [collect, Except.ok.injEq] at h
    subst h
    simpa using hle
  | cons σ rest ih =>
    intro c c1 h hle
    rw [collect] at h
    cases hcp : collectPairs L c σ.substitutions with
    | error e => rw [hcp] at h; simp at h
    | ok c2 =>
      rw [hcp] at h
      simp only at h
      have h1 := collectPairs_pos L _ c c2 hcp
      have h2 := (collectPairs_inv L _ c c2 hcp).2.1 hle
      obtain ⟨h3, h4⟩ := ih c2 c1 h h2
      refine ⟨?_, h4⟩
      rw [h3, h1]
      simp only [List.flatMap_cons, List.filter_append, List.length_append]
      omega

/-- C23 (refuted): for the three substitutions `x ↦ y`, `y ↦ 0` and `x ↦ 0` the first two
pairs leave the list `[x, y]` and `pos = 2`; for the third pair `x` is found and removed,
which leaves `[y]`, and the insertion at position 2 lies behind the end of the list.  The
first loop of `Merge` does not get to a variable list for this input, nor `Merge` to a
matrix. -/
theorem merge_overdetermined_no_variable_list :
    collect linear ⟨[], 0, []⟩ (overdetermined.take 2) = .ok chainCollected ∧
    chainCollected.vars = [Scalar.var "x", Scalar.var "y"] ∧ chainCollected.pos = 2 ∧
    (linear.SeparateVariablesFromRest
      (equationOf linear (Scalar.var "x", Scalar.num 0))).1 = [(Scalar.var "x", Scalar.num 1)] ∧
    ([Scalar.var "x", Scalar.var "y"].erase (Scalar.var "x")).length < 2 ∧
    addVariables linear true [Scalar.var "x", Scalar.var "y"] 2 []
      [(Scalar.var "x", Scalar.num 1)] = .error .insertOutOfRange ∧
    collect linear ⟨[], 0, []⟩ overdetermined = .error .insertOutOfRange ∧
    Merge linear overdetermined = .error .insertOutOfRange := by
  have hcollect : collect linear ⟨[], 0, []⟩ overdetermined = .error .insertOutOfRange := by
    simp [overdetermined, collect, collectPairs, addVariables, equationOf, linear, linearLayer,
      Scalar.add, Scalar.num, Scalar.var, Scalar.GetSummands, Scalar.sub, Scalar.neg,
      Scalar.smul, addTerm, Scalar.SeparateVariablesFromRest, Scalar.IsNumeric,
      Scalar.ToDouble, mapSet]
  refine ⟨?_, rfl, rfl, ?_, ?_, ?_, hcollect, ?_⟩
  · simp [overdetermined, chainCollected, collect, collectPairs, addVariables, equationOf,
      linear, linearLayer, Scalar.add, Scalar.num, Scalar.var, Scalar.GetSummands, Scalar.sub,
      Scalar.neg, Scalar.smul, addTerm, Scalar.SeparateVariablesFromRest, Scalar.IsNumeric,
      Scalar.ToDouble, mapSet]
  · simp [equationOf, linear, linearLayer, Scalar.num, Scalar.var, Scalar.GetSummands,
      Scalar.SeparateVariablesFromRest]
  · simp [Scalar.var]
  · simp [addVariables, Scalar.var]
  · unfold Merge overdetermined
    simp only
    have h := hcollect
    unfold overdetermined at h
    rw [h]

/-! ## The position of the insertion -/

/-- When the first variable of an equation is on the list and `pos` is the length of the
list, the insertion of line 106 follows the removal of line 103 and lies behind the end. -/
theorem addVariables_behind_end {S : Type} [DecidableEq S] (L : ScalarLayer S)
    (vars : List S) (map : List (S × ℚ)) (v : S × S) (rest : List (S × S))
    (hin : v.1 ∈ vars) :
    addVariables L true vars vars.length map (v :: rest) = .error .insertOutOfRange := by
  have hlen : ¬ (vars.length ≤ (vars.erase v.1).length) := by
    rw [List.length_erase_of_mem hin]
    have : 0 < vars.length := List.length_pos_of_mem hin
    omega
  rw [addVariables]
  simp only [if_true, hin, hlen, if_false]

/-- When the first variable of an equation is not on the list, or `pos` is less than the
length of the list, the insertion of line 106 lies within the list. -/
theorem addVariables_in_range {S : Type} [DecidableEq S] (L : ScalarLayer S)
    (vars : List S) (pos : Nat) (map : List (S × ℚ)) (v : S × S) (rest : List (S × S))
    (hpos : pos ≤ vars.length) (h : v.1 ∉ vars ∨ pos < vars.length) :
    addVariables L true vars pos map (v :: rest) ≠ .error .insertOutOfRange := by
  have hrest : ∀ (vs : List (S × S)) (vars1 : List S) (pos1 : Nat) (m : List (S × ℚ)),
      addVariables L false vars1 pos1 m vs ≠ .error .insertOutOfRange := by
    intro vs
    induction vs with
    | nil => intro vars1 pos1 m; simp [addVariables]
    | cons w ws ih =>
      intro vars1 pos1 m
      rw [addVariables]
      by_cases hw : w.1 ∈ vars1
      · simp only [Bool.false_eq_true, if_false, hw, if_true]
        by_cases hnum : L.IsNumeric w.2 = false
        · simp [hnum]
        · simp only [hnum, if_false]; exact ih _ _ _
      · simp only [Bool.false_eq_true, if_false, hw]
        by_cases hnum : L.IsNumeric w.2 = false
        · simp [hnum]
        · simp only [hnum, if_false]; exact ih _ _ _
  have hle : pos ≤ (if v.1 ∈ vars then vars.erase v.1 else vars).length := by
    by_cases hin : v.1 ∈ vars
    · simp only [hin, if_true]
      rw [List.length_erase_of_mem hin]
      rcases h with h | h
      · exact absurd hin h
      · omega
    · simp only [hin, if_false]; exact hpos
  rw [addVariables]
  simp only [if_true, hle]
  by_cases hnum : L.IsNumeric v.2 = false
  · simp [hnum]
  · simp only [hnum, if_false]; exact hrest _ _ _ _

/-- C24 (refuted): for the substitution `x ↦ 0` merged with itself the first pair puts `x` on
the list and sets `pos` to 1; for the second pair `x` is found and removed, which leaves
the list empty, and the insertion at position 1 lies behind its end. -/
theorem merge_inserts_behind_end :
    collectPairs linear ⟨[], 0, []⟩ [(Scalar.var "x", Scalar.num 0)] =
      .ok ⟨[Scalar.var "x"], 1, [[(Scalar.var "x", 1)]]⟩ ∧
    (linear.SeparateVariablesFromRest
      (equationOf linear (Scalar.var "x", Scalar.num 0))).1 = [(Scalar.var "x", Scalar.num 1)] ∧
    ([Scalar.var "x"].erase (Scalar.var "x")).length < 1 ∧
    addVariables linear true [Scalar.var "x"] 1 [] [(Scalar.var "x", Scalar.num 1)] =
      .error .insertOutOfRange ∧
    collect linear ⟨[], 0, []⟩ doubledX = .error .insertOutOfRange ∧
    Merge linear doubledX = .error .insertOutOfRange := by
  have hcollect : collect linear ⟨[], 0, []⟩ doubledX = .error .insertOutOfRange := by
    simp [doubledX, collect, collectPairs, addVariables, equationOf, linear, linearLayer,
      Scalar.add, Scalar.num, Scalar.var, Scalar.GetSummands, Scalar.sub, Scalar.neg,
      Scalar.smul, addTerm, Scalar.SeparateVariablesFromRest, Scalar.IsNumeric,
      Scalar.ToDouble, mapSet]
  refine ⟨?_, ?_, ?_, ?_, hcollect, ?_⟩
  · simp [collectPairs, addVariables, equationOf, linear, linearLayer,
      Scalar.add, Scalar.num, Scalar.var, Scalar.GetSummands, Scalar.sub, Scalar.neg,
      Scalar.smul, addTerm, Scalar.SeparateVariablesFromRest, Scalar.IsNumeric,
      Scalar.ToDouble, mapSet]
  · simp [equationOf, linear, linearLayer, Scalar.num, Scalar.var, Scalar.GetSummands,
      Scalar.SeparateVariablesFromRest]
  · simp
  · simp [addVariables]
  · unfold Merge doubledX
    simp only
    have h := hcollect
    unfold doubledX at h
    rw [h]

/-! ## Echelon forms of systems with a unique solution -/

theorem exactDot_self_nonneg (vec : List ℚ) : 0 ≤ exactDot vec vec := by
  unfold exactDot
  induction vec with
  | nil => simp
  | cons x xs ih =>
    simp only [List.zipWith_cons_cons, List.sum_cons]
    have := mul_self_nonneg x
    linarith

theorem exactDot_self_eq_zero_iff (vec : List ℚ) :
    exactDot vec vec = 0 ↔ ∀ x ∈ vec, x = 0 := by
  induction vec with
  | nil => simp [exactDot]
  | cons x xs ih =>
    have h1 := mul_self_nonneg x
    have h2 := exactDot_self_nonneg xs
    have hcons : exactDot (x :: xs) (x :: xs) = x * x + exactDot xs xs := by
      simp [exactDot]
    rw [hcons]
    constructor
    · intro h
      have hx : x * x = 0 := by linarith
      have hxs : exactDot xs xs = 0 := by linarith
      intro y hy
      rcases List.mem_cons.1 hy with rfl | hy
      · exact mul_self_eq_zero.1 hx
      · exact ih.1 hxs y hy
    · intro h
      have hx : x = 0 := h x (by simp)
      have hxs : exactDot xs xs = 0 := ih.2 (fun y hy => h y (by simp [hy]))
      rw [hx, hxs]; ring

theorem pivots_ge (k : Nat) (p : Nat → Nat)
    (hmono : ∀ i i1, i < i1 → i1 < k → p i < p i1) : ∀ i, i < k → i ≤ p i := by
  intro i
  induction i with
  | zero => intro _; exact Nat.zero_le _
  | succ i ih =>
    intro hi
    have h1 := ih (by omega)
    have h2 := hmono i (i + 1) (by omega) hi
    omega

theorem pivots_gap (k : Nat) (p : Nat → Nat)
    (hmono : ∀ i i1, i < i1 → i1 < k → p i < p i1) (i : Nat) :
    ∀ d, i + d < k → p i + d ≤ p (i + d) := by
  intro d
  induction d with
  | zero => intro _; exact Nat.le_refl _
  | succ d ih =>
    intro hd
    have h1 := ih (by omega)
    have h2 := hmono (i + d) (i + (d + 1)) (by omega) hd
    omega

/-- In a row echelon form whose homogeneous system has only the zero solution every column
holds a leading entry: there are as many nonzero rows as columns, and the leading entry of
row `i` stands in column `i`. -/
theorem echelon_pivots (R : List (List ℚ)) (n k : Nat) (p : Nat → Nat)
    (hpiv : ∀ i, i < k → p i < n ∧ entry R i (p i) = 1 ∧ ∀ j, j < p i → entry R i j = 0)
    (hmono : ∀ i i1, i < i1 → i1 < k → p i < p i1)
    (hzero : ∀ i j, k ≤ i → entry R i j = 0)
    (htriv : ∀ x, Solves R n x → ∀ j, j < n → x j = 0) :
    k = n ∧ ∀ i, i < n → p i = i := by
  have hge := pivots_ge k p hmono
  have hkn : k ≤ n := by
    by_cases hk : k = 0
    · omega
    · have h1 := hge (k - 1) (by omega)
      have h2 := (hpiv (k - 1) (by omega)).1
      omega
  have hnk : n ≤ k := by
    let A : Matrix (Fin k) (Fin n) ℚ := Matrix.of fun i j => entry R i j
    have hinj : Function.Injective (Matrix.mulVecLin A) := by
      rw [injective_iff_map_eq_zero]
      intro x hx
      have hsol : Solves R n (fun j => if h : j < n then x ⟨j, h⟩ else 0) := by
        intro i _
        by_cases hik : i < k
        · have hrow := congrFun hx ⟨i, hik⟩
          simp only [Matrix.mulVecLin_apply, Matrix.mulVec, Matrix.dotProduct, Pi.zero_apply]
            at hrow
          rw [Finset.sum_range]
          rw [← hrow]
          apply Finset.sum_congr rfl
          intro j _
          simp [A]
        · apply Finset.sum_eq_zero
          intro j _
          rw [hzero i j (by omega)]
          ring
      funext j
      have := htriv _ hsol j.1 j.2
      simpa using this
    have hfin := LinearMap.finrank_le_finrank_of_injective hinj
    simpa [Module.finrank_fin_fun] using hfin
  have hk : k = n := by omega
  refine ⟨hk, ?_⟩
  intro i hi
  have h1 := hge i (by omega)
  have h2 := pivots_gap k p hmono i (n - 1 - i) (by omega)
  have h3 := (hpiv (i + (n - 1 - i)) (by omega)).1
  omega

/-! ## The read-out of a triangular matrix -/

theorem range_map_getD {S : Type} (vs : List S) (z : S) :
    ∀ (d i : Nat), i + d = vs.length →
      (List.range' i d).map (fun m => vs.getD m z) = vs.drop i := by
  intro d
  induction d with
  | zero =>
    intro i hi
    rw [List.drop_eq_nil_of_le (by omega)]
    rfl
  | succ d ih =>
    intro i hi
    have hlt : i < vs.length := by omega
    rw [List.range'_succ, List.map_cons, ih (i + 1) (by omega), List.drop_eq_getElem_cons hlt]
    congr 1
    simp [List.getD_eq_getElem?_getD, List.getElem?_eq_getElem hlt]

/-- The read-out of a row with the first 1 in column `i` behind zeros only. -/
theorem readOff_leading_one {S : Type} (L : ScalarLayer S) (vs : List S) (row : List ℚ)
    (i : Nat) (result : Substitution S) (rows : List (List ℚ))
    (hi : i < vs.length) (hlen : row.length = vs.length)
    (hone : row.getD i 0 = 1) (hbefore : ∀ j, j < i → row.getD j 0 = 0)
    (hv : ¬ (L.IsNumeric (vs.getD i L.zero) = true ∧ L.ToDouble (vs.getD i L.zero) = 0))
    (hdot : L.dot row row ≠ 0) :
    readOff L vs result (row :: rows) =
      readOff L vs (result.Insert (vs.getD i L.zero) (rightSide L vs row i)) rows := by
  have hir : i < row.length := by omega
  have hrowi : row[i] = 1 := by
    rw [List.getD_eq_getElem?_getD, List.getElem?_eq_getElem hir] at hone
    simpa using hone
  have hrow : row.take i ++ 1 :: row.drop (i + 1) = row := by
    rw [← hrowi, ← List.drop_eq_getElem_cons hir, List.take_append_drop]
  have hvi : vs.getD i L.zero = vs[i] := by
    simp [List.getD_eq_getElem?_getD, List.getElem?_eq_getElem hi]
  have hvs : vs.take i ++ vs.getD i L.zero :: vs.drop (i + 1) = vs := by
    rw [hvi, ← List.drop_eq_getElem_cons hi, List.take_append_drop]
  have hpre0 : ∀ x ∈ row.take i, x = 0 := by
    intro x hx
    obtain ⟨j, hj, hget⟩ := List.getElem_of_mem hx
    have hji : j < i := by
      have := List.length_take_le i row
      omega
    have := hbefore j hji
    rw [List.getD_eq_getElem?_getD, List.getElem?_eq_getElem (by omega)] at this
    rw [List.getElem_take] at hget
    rw [← hget]
    simpa using this
  have hpre : (1 : ℚ) ∉ row.take i := by
    intro h
    exact one_ne_zero (hpre0 1 h)
  have hstep := readOff_row L (row.take i) (row.drop (i + 1)) (vs.take i) (vs.drop (i + 1))
    (vs.getD i L.zero) result rows
    (by rw [List.length_take, List.length_take]; omega) hpre hv (by rw [hrow]; exact hdot)
  rw [hrow, hvs, contributions_zeros L _ _ hpre0, List.nil_append] at hstep
  exact hstep

/-- The read-out of a matrix whose first rows have their leading 1 on the diagonal and whose
further rows are zero: one pair per variable, in the order of the list. -/
theorem readOff_triangular {S : Type} (L : ScalarLayer S) (vs : List S) (R : List (List ℚ))
    (hn : vs.length ≤ R.length) (hrows : ∀ row ∈ R, row.length = vs.length)
    (hdiag : ∀ i, i < vs.length → entry R i i = 1 ∧ ∀ j, j < i → entry R i j = 0)
    (hrest : ∀ i j, vs.length ≤ i → entry R i j = 0)
    (hdot1 : ∀ row : List ℚ, (1 : ℚ) ∈ row → L.dot row row ≠ 0)
    (hdot0 : ∀ row : List ℚ, (∀ x ∈ row, x = 0) → L.dot row row = 0)
    (hvar : ∀ v ∈ vs, ¬ (L.IsNumeric v = true ∧ L.ToDouble v = 0)) :
    ∀ (d i : Nat) (acc : Substitution S), i + d = vs.length →
      readOff L vs acc (R.drop i) =
        .ok ⟨acc.substitutions ++ (List.range' i d).map fun m =>
          (vs.getD m L.zero, rightSide L vs (R.getD m []) m)⟩ := by
  have hRi : ∀ i (hi : i < R.length), R.getD i [] = R[i] := by
    intro i hi
    simp [List.getD_eq_getElem?_getD, List.getElem?_eq_getElem hi]
  intro d
  induction d with
  | zero =>
    intro i acc hi
    have hin : i = vs.length := by omega
    subst hin
    simp only [List.range'_zero, List.map_nil, List.append_nil]
    by_cases hR : vs.length < R.length
    · rw [List.drop_eq_getElem_cons hR, readOff]
      have hz : L.dot R[vs.length] R[vs.length] = 0 := by
        apply hdot0
        intro y hy
        obtain ⟨j, hj, hget⟩ := List.getElem_of_mem hy
        have := hrest vs.length j (Nat.le_refl _)
        unfold entry at this
        rw [hRi _ hR, List.getD_eq_getElem?_getD, List.getElem?_eq_getElem hj, hget] at this
        simpa using this
      simp [hz]
    · have : R.drop vs.length = [] := List.drop_eq_nil_of_le (by omega)
      rw [this, readOff]
  | succ d ih =>
    intro i acc hi
    have hiv : i < vs.length := by omega
    have hiR : i < R.length := by omega
    have hl := hrows _ (List.getElem_mem hiR)
    have hd := hdiag i hiv
    unfold entry at hd
    rw [hRi i hiR] at hd
    have hmem1 : (1 : ℚ) ∈ R[i] := by
      have h1 := hd.1
      rw [List.getD_eq_getElem?_getD, List.getElem?_eq_getElem (by omega)] at h1
      simp only [Option.getD_some] at h1
      rw [← h1]
      exact List.getElem_mem _
    have hvmem : vs.getD i L.zero ∈ vs := by
      simp only [List.getD_eq_getElem?_getD, List.getElem?_eq_getElem hiv, Option.getD_some]
      exact List.getElem_mem hiv
    rw [List.drop_eq_getElem_cons hiR,
      readOff_leading_one L vs R[i] i acc _ hiv hl hd.1 hd.2 (hvar _ hvmem) (hdot1 _ hmem1),
      ih (i + 1) _ (by omega)]
    simp only [Substitution.Insert, List.append_assoc, List.singleton_append, List.range'_succ,
      List.map_cons, hRi i hiR]

/-! ## Substituting a triangular list of pairs -/

theorem var_injective (a b : String) : Scalar.var a = Scalar.var b ↔ a = b := by
  simp [Scalar.var]

theorem addTerm_names (P : String → Prop) (ts : List (String × ℚ)) (x : String) (q : ℚ)
    (hts : ∀ t ∈ ts, P t.1) (hx : P x) : ∀ t ∈ addTerm ts x q, P t.1 := by
  induction ts with
  | nil =>
    intro t ht
    unfold addTerm at ht
    split_ifs at ht
    · simp at ht
    · simp only [List.mem_singleton] at ht
      subst ht; exact hx
  | cons a ts ih =>
    intro t ht
    unfold addTerm at ht
    have hts1 : ∀ t ∈ ts, P t.1 := fun t h => hts t (by simp [h])
    split_ifs at ht
    · exact hts1 t ht
    · rcases List.mem_cons.1 ht with h | h
      · subst h; exact hx
      · exact hts1 t h
    · rcases List.mem_cons.1 ht with h | h
      · rw [h]; exact hts a (by simp)
      · exact ih hts1 t h

theorem add_names (P : String → Prop) (b : List (String × ℚ)) :
    ∀ (a : List (String × ℚ)), (∀ t ∈ a, P t.1) → (∀ t ∈ b, P t.1) →
      ∀ t ∈ b.foldl (fun ts t => addTerm ts t.1 t.2) a, P t.1 := by
  induction b with
  | nil => intro a ha _; simpa using ha
  | cons u b ih =>
    intro a ha hb
    rw [List.foldl_cons]
    exact ih _ (addTerm_names P a u.1 u.2 ha (hb u (by simp))) (fun t h => hb t (by simp [h]))

theorem scalar_add_names (P : String → Prop) (a b : Scalar) (ha : ∀ t ∈ a.terms, P t.1)
    (hb : ∀ t ∈ b.terms, P t.1) : ∀ t ∈ (Scalar.add a b).terms, P t.1 :=
  add_names P b.terms a.terms ha hb

theorem scalar_smul_names (P : String → Prop) (q : ℚ) (a : Scalar)
    (ha : ∀ t ∈ a.terms, P t.1) : ∀ t ∈ (Scalar.smul q a).terms, P t.1 := by
  intro t ht
  unfold Scalar.smul at ht
  split_ifs at ht
  · simp at ht
  · simp only [List.mem_map] at ht
    obtain ⟨u, hu, rfl⟩ := ht
    exact ha u hu

theorem scalar_smul_rest (q : ℚ) (a : Scalar) (ha : a.rest = 0) : (Scalar.smul q a).rest = 0 := by
  unfold Scalar.smul
  split_ifs
  · rfl
  · simp [ha]

/-- A sum of scalars without constant part whose variables satisfy `P` is such a scalar. -/
theorem foldl_add_names (P : String → Prop) (ts : List Scalar) :
    ∀ (a : Scalar), (a.rest = 0 ∧ ∀ t ∈ a.terms, P t.1) →
      (∀ s ∈ ts, s.rest = 0 ∧ ∀ t ∈ s.terms, P t.1) →
      (ts.foldl Scalar.add a).rest = 0 ∧ ∀ t ∈ (ts.foldl Scalar.add a).terms, P t.1 := by
  induction ts with
  | nil => intro a ha _; exact ha
  | cons s ts ih =>
    intro a ha hts
    rw [List.foldl_cons]
    have hs := hts s (by simp)
    refine ih _ ⟨?_, scalar_add_names P a s ha.2 hs.2⟩ (fun u hu => hts u (by simp [hu]))
    show a.rest + s.rest = 0
    rw [ha.1, hs.1]; ring

theorem contributions_mem {S : Type} (L : ScalarLayer S) (xs : List ℚ) :
    ∀ (vs : List S) (t : S), t ∈ contributions L xs vs →
      ∃ v ∈ vs, ∃ x, t = L.mulFraction (L.neg v) x := by
  induction xs with
  | nil => intro vs t ht; simp [contributions] at ht
  | cons x xs ih =>
    intro vs t ht
    cases vs with
    | nil => simp [contributions] at ht
    | cons v vs =>
      rw [contributions] at ht
      split_ifs at ht
      · rcases List.mem_cons.1 ht with h | h
        · exact ⟨v, by simp, x, h⟩
        · obtain ⟨w, hw, y, hy⟩ := ih vs t h
          exact ⟨w, by simp [hw], y, hy⟩
      · obtain ⟨w, hw, y, hy⟩ := ih vs t ht
        exact ⟨w, by simp [hw], y, hy⟩

/-- The right side read off a row has no constant part and holds only variables that stand
behind the column of the leading 1. -/
theorem rightSide_linear (rowReduce : List (List ℚ) → List (List ℚ))
    (dot : List ℚ → List ℚ → ℚ) (vs : List Scalar) (hvs : ∀ v ∈ vs, ∃ x, v = Scalar.var x)
    (row : List ℚ) (i : Nat) :
    (rightSide (linearLayerWith rowReduce dot) vs row i).rest = 0 ∧
    ∀ t ∈ (rightSide (linearLayerWith rowReduce dot) vs row i).terms,
      Scalar.var t.1 ∈ vs.drop (i + 1) := by
  unfold rightSide
  have hadd : (linearLayerWith rowReduce dot).add = Scalar.add := rfl
  have hzero : (linearLayerWith rowReduce dot).zero = Scalar.num 0 := rfl
  rw [hadd, hzero]
  apply foldl_add_names (fun x => Scalar.var x ∈ vs.drop (i + 1))
  · exact ⟨rfl, by simp [Scalar.num]⟩
  · intro s hs
    obtain ⟨v, hv, x, hx⟩ := contributions_mem _ _ _ s hs
    obtain ⟨name, hname⟩ := hvs v (List.mem_of_mem_drop hv)
    subst hname
    have hs2 : s = Scalar.smul x (Scalar.neg (Scalar.var name)) := hx
    rw [hs2]
    constructor
    · apply scalar_smul_rest
      simp [Scalar.neg, Scalar.smul, Scalar.var]
    · refine scalar_smul_names (fun y => Scalar.var y ∈ vs.drop (i + 1)) _ _ ?_
      intro t ht
      have : t.1 = name := by
        simp only [Scalar.neg, Scalar.smul, Scalar.var] at ht
        split_ifs at ht
        · simp at ht
        · simp only [List.map_cons, List.map_nil, List.mem_singleton] at ht
          rw [ht]
      rw [this]
      exact hv

theorem substitute_triangular (e r : Scalar) (x : String) (later : List Scalar)
    (he : ∀ t ∈ e.terms, Scalar.var t.1 ∈ Scalar.var x :: later)
    (hr0 : r.rest = 0) (hr : ∀ t ∈ r.terms, Scalar.var t.1 ∈ later) :
    (Scalar.Substitute e (Scalar.var x) r).rest = e.rest ∧
    ∀ t ∈ (Scalar.Substitute e (Scalar.var x) r).terms, Scalar.var t.1 ∈ later := by
  have hsub : Scalar.Substitute e (Scalar.var x) r =
      Scalar.add ⟨e.terms.filter fun t => t.1 ≠ x, e.rest⟩
        (Scalar.smul (coeffOf x e.terms) r) := by
    unfold Scalar.Substitute
    simp [Scalar.var]
  rw [hsub]
  constructor
  · show e.rest + (Scalar.smul (coeffOf x e.terms) r).rest = e.rest
    rw [scalar_smul_rest _ _ hr0]; ring
  · apply scalar_add_names (fun y => Scalar.var y ∈ later)
    · intro t ht
      simp only [List.mem_filter, ne_eq, decide_not, Bool.not_eq_eq_eq_not, Bool.not_true,
        decide_eq_false_iff_not] at ht
      rcases List.mem_cons.1 (he t ht.1) with h | h
      · exact absurd ((var_injective _ _).1 h) ht.2
      · exact h
    · exact scalar_smul_names (fun y => Scalar.var y ∈ later) _ _ hr

/-- Applying a triangular list of pairs removes every variable of the pairs and leaves the
constant part as it is. -/
theorem applyLoop_triangular (rowReduce : List (List ℚ) → List (List ℚ))
    (dot : List ℚ → List ℚ → ℚ) (ps : List (Scalar × Scalar)) :
    ∀ (e : Scalar), Triangular ps → (∀ t ∈ e.terms, Scalar.var t.1 ∈ ps.map Prod.fst) →
      applyLoop (linearLayerWith rowReduce dot) e ps = Scalar.num e.rest := by
  induction ps with
  | nil =>
    intro e _ he
    have : e.terms = [] := by
      apply List.eq_nil_iff_forall_not_mem.2
      intro t ht
      simpa using he t ht
    simp only [applyLoop, Scalar.num]
    rw [← this]
  | cons p ps ih =>
    intro e htri he
    obtain ⟨⟨x, hx⟩, hr0, hr, hrest⟩ := htri
    obtain ⟨v, r⟩ := p
    simp only at hx hr0 hr
    subst hx
    rw [applyLoop]
    have hstep := substitute_triangular e r x (ps.map Prod.fst)
      (by simpa using he) hr0 hr
    have hL : (linearLayerWith rowReduce dot).Substitute e (Scalar.var x, r).1 (Scalar.var x, r).2
        = Scalar.Substitute e (Scalar.var x) r := rfl
    rw [hL, ih _ hrest hstep.2, hstep.1]

theorem triangular_rows (rowReduce : List (List ℚ) → List (List ℚ))
    (dot : List ℚ → List ℚ → ℚ) (vs : List Scalar) (hvs : ∀ v ∈ vs, ∃ x, v = Scalar.var x)
    (R : List (List ℚ)) :
    ∀ (d i : Nat), i + d = vs.length →
      Triangular ((List.range' i d).map fun m =>
        (vs.getD m (linearLayerWith rowReduce dot).zero,
          rightSide (linearLayerWith rowReduce dot) vs (R.getD m []) m)) := by
  intro d
  induction d with
  | zero => intro i _; exact True.intro
  | succ d ih =>
    intro i hi
    have hiv : i < vs.length := by omega
    rw [List.range'_succ, List.map_cons]
    refine ⟨?_, ?_, ?_, ih (i + 1) (by omega)⟩
    · apply hvs
      simp only [List.getD_eq_getElem?_getD, List.getElem?_eq_getElem hiv, Option.getD_some]
      exact List.getElem_mem hiv
    · exact (rightSide_linear rowReduce dot vs hvs _ i).1
    · intro t ht
      rw [List.map_map]
      have hfst : (Prod.fst ∘ fun m =>
          (vs.getD m (linearLayerWith rowReduce dot).zero,
            rightSide (linearLayerWith rowReduce dot) vs (R.getD m []) m)) =
          fun m => vs.getD m (linearLayerWith rowReduce dot).zero := rfl
      rw [hfst, range_map_getD vs _ d (i + 1) (by omega)]
      exact (rightSide_linear rowReduce dot vs hvs _ i).2 t ht

/-! ## `Merge` on a system with a unique solution -/

/-- C4 (amended): for a list of two or more substitutions on which the variable list is
built without an insertion behind its end, whose coefficient matrix has only the zero
solution (the system has a unique solution) and is brought to a row echelon form with
leading entries 1 by a row reduction that keeps the solutions, `Merge` returns exactly one
pair per variable, with the variables of the list as left sides in their order, and
applying the merged substitution to `lhs - rhs` of an input pair yields the constant part
of `lhs - rhs`: 0 exactly for the pairs without a constant.  The product of line 148 is
only asked to be 0 on a row of zeros and not 0 on a row that holds a 1. -/
theorem merge_unique_solution (rowReduce : List (List ℚ) → List (List ℚ))
    (dot : List ℚ → List ℚ → ℚ)
    (subs : List (Substitution Scalar)) (c : Collected Scalar) (hlen : subs.length ≠ 1)
    (hc : collect (linearLayerWith rowReduce dot) ⟨[], 0, []⟩ subs = .ok c)
    (hdot1 : ∀ row : List ℚ, (1 : ℚ) ∈ row → dot row row ≠ 0)
    (hdot0 : ∀ row : List ℚ, (∀ x ∈ row, x = 0) → dot row row = 0)
    (hech : IsEchelon (rowReduce (toMatrix c)) c.vars.length)
    (hkeep : ∀ x, Solves (rowReduce (toMatrix c)) c.vars.length x →
      Solves (toMatrix c) c.vars.length x)
    (huniq : ∀ x, Solves (toMatrix c) c.vars.length x → ∀ j, j < c.vars.length → x j = 0) :
    ∃ σ : Substitution Scalar,
      Merge (linearLayerWith rowReduce dot) subs = .ok σ ∧
      σ.substitutions.map Prod.fst = c.vars ∧ c.vars.Nodup ∧
      (∀ τ ∈ subs, ∀ p ∈ τ.substitutions,
        σ.apply (linearLayerWith rowReduce dot)
            (equationOf (linearLayerWith rowReduce dot) p) =
          Scalar.num (equationOf (linearLayerWith rowReduce dot) p).rest) := by
  have hmem := collect_mem (linearLayerWith rowReduce dot) subs ⟨[], 0, []⟩ c hc
  have hnodup := (collect_inv (linearLayerWith rowReduce dot) subs _ c hc).1 List.nodup_nil
  have hshape : ∀ v ∈ c.vars, ∃ x, v = Scalar.var x := by
    intro v hv
    rcases (hmem v).1 hv with h | ⟨σ, _, p, _, w, hw, hwv⟩
    · simp at h
    · have hw2 : w ∈ (Scalar.SeparateVariablesFromRest
          (equationOf (linearLayerWith rowReduce dot) p)).1 := hw
      simp only [Scalar.SeparateVariablesFromRest, List.mem_map] at hw2
      obtain ⟨t, _, ht⟩ := hw2
      exact ⟨t.1, by rw [← hwv, ← ht]⟩
  obtain ⟨hrows, k, p, hk, hpiv, hmono, hzero⟩ := hech
  obtain ⟨hkn, hp⟩ := echelon_pivots _ _ k p hpiv hmono hzero
    (fun x hx => huniq x (hkeep x hx))
  subst hkn
  have hread := readOff_triangular (linearLayerWith rowReduce dot) c.vars
    (rowReduce (toMatrix c)) hk hrows
    (by
      intro i hi
      have h := hpiv i hi
      rw [hp i hi] at h
      exact ⟨h.2.1, h.2.2⟩)
    hzero hdot1 hdot0
    (by
      intro v hv
      obtain ⟨x, hx⟩ := hshape v hv
      subst hx
      intro h
      have : Scalar.IsNumeric (Scalar.var x) = true := h.1
      simp [Scalar.IsNumeric, Scalar.var] at this)
    c.vars.length 0 Substitution.empty (by omega)
  simp only [List.drop_zero, Substitution.empty, List.nil_append] at hread
  have hmerge : Merge (linearLayerWith rowReduce dot) subs =
      readOff (linearLayerWith rowReduce dot) c.vars ⟨[]⟩ (rowReduce (toMatrix c)) := by
    match subs, hlen, hc with
    | [], _, hc =>
      unfold Merge
      simp only [hc]
      rfl
    | [s], hlen, _ => exact absurd rfl hlen
    | s1 :: s2 :: rest, _, hc =>
      unfold Merge
      simp only [hc]
      rfl
  rw [hread] at hmerge
  refine ⟨_, hmerge, ?_, hnodup, ?_⟩
  · simp only [List.map_map]
    exact range_map_getD c.vars _ c.vars.length 0 (by omega)
  · intro τ hτ q hq
    unfold Substitution.apply
    simp only
    apply applyLoop_triangular rowReduce dot _ _
      (triangular_rows rowReduce dot c.vars hshape _ c.vars.length 0 (by omega))
    intro t ht
    rw [List.map_map]
    have hfst : (Prod.fst ∘ fun m =>
        (c.vars.getD m (linearLayerWith rowReduce dot).zero,
          rightSide (linearLayerWith rowReduce dot) c.vars
            ((rowReduce (toMatrix c)).getD m []) m)) =
        fun m => c.vars.getD m (linearLayerWith rowReduce dot).zero := rfl
    rw [hfst, range_map_getD c.vars _ c.vars.length 0 (by omega), List.drop_zero]
    apply (hmem _).2
    right
    refine ⟨τ, hτ, q, hq, (Scalar.var t.1, Scalar.num t.2), ?_, rfl⟩
    show (Scalar.var t.1, Scalar.num t.2) ∈ (Scalar.SeparateVariablesFromRest
      (equationOf (linearLayerWith rowReduce dot) q)).1
    simp only [Scalar.SeparateVariablesFromRest, List.mem_map]
    exact ⟨t, ht, rfl⟩

theorem chain_collect (rowReduce : List (List ℚ) → List (List ℚ))
    (dot : List ℚ → List ℚ → ℚ) :
    collect (linearLayerWith rowReduce dot) ⟨[], 0, []⟩ chainSubs = .ok chainCollected := by
  simp [chainSubs, chainCollected, collect, collectPairs, addVariables, equationOf,
    linearLayerWith, linearLayer, Scalar.add, Scalar.num, Scalar.var, Scalar.GetSummands,
    Scalar.sub, Scalar.neg, Scalar.smul, addTerm, Scalar.SeparateVariablesFromRest,
    Scalar.IsNumeric, Scalar.ToDouble, mapSet]

theorem chain_matrix : toMatrix chainCollected = [[1, -1], [0, 1]] := by
  simp [toMatrix, chainCollected, mapGet, Scalar.var]

/-- On `chainSubs`, whose matrix `[[1, -1], [0, 1]]` is in row echelon form as it stands, a
row reduction that leaves it so gives the pairs `(x, y)` and `(y, 0)`. -/
theorem merge_unique_solution_witness :
    Merge (linearLayerWith (fun M => M) exactDot) chainSubs =
      .ok ⟨[(Scalar.var "x", Scalar.var "y"), (Scalar.var "y", Scalar.num 0)]⟩ ∧
    ∃ σ : Substitution Scalar,
      Merge (linearLayerWith (fun M => M) exactDot) chainSubs = .ok σ ∧
      σ.substitutions.map Prod.fst = chainCollected.vars ∧ chainCollected.vars.Nodup ∧
      (∀ τ ∈ chainSubs, ∀ p ∈ τ.substitutions,
        σ.apply (linearLayerWith (fun M => M) exactDot)
            (equationOf (linearLayerWith (fun M => M) exactDot) p) =
          Scalar.num (equationOf (linearLayerWith (fun M => M) exactDot) p).rest) := by
  refine ⟨?_, merge_unique_solution (fun M => M) exactDot chainSubs chainCollected (by decide)
    (chain_collect _ _) ?_ ?_ ?_ (fun x hx => hx) ?_⟩
  · simp [Merge, chainSubs, collect, collectPairs, addVariables, equationOf, toMatrix, mapGet,
      mapSet, readOff, scanRow, exactDot, Substitution.Insert, Substitution.empty,
      linearLayerWith, linearLayer, Scalar.add, Scalar.sub, Scalar.num, Scalar.var,
      Scalar.neg, Scalar.smul, addTerm, Scalar.IsNumeric, Scalar.ToDouble, Scalar.GetSummands,
      Scalar.SeparateVariablesFromRest]
  · intro row hrow h
    exact one_ne_zero ((exactDot_self_eq_zero_iff row).1 h 1 hrow)
  · intro row hrow
    exact (exactDot_self_eq_zero_iff row).2 hrow
  · rw [chain_matrix]
    refine ⟨by simp [chainCollected], 2, id, by simp, ?_, ?_, ?_⟩
    · intro i hi
      have : i = 0 ∨ i = 1 := by omega
      rcases this with rfl | rfl <;> simp [entry, chainCollected]
    · intro i i1 h1 h2; exact h1
    · intro i j hi
      have : ([[1, -1], [0, 1]] : List (List ℚ)).getD i [] = [] := by
        rw [List.getD_eq_getElem?_getD, List.getElem?_eq_none (by simpa using hi)]; rfl
      unfold entry
      rw [this]; rfl
  · rw [chain_matrix]
    intro x hx j hj
    have h0 := hx 0 (by simp)
    have h1 := hx 1 (by simp)
    simp [entry, chainCollected, Finset.sum_range_succ] at h0 h1 hj
    have : j = 0 ∨ j = 1 := by omega
    rcases this with rfl | rfl
    · linarith
    · exact h1

end Tensor

end Construction
